import Mathlib

/-!
# LibzipPlugin: a shallow embedding of `src/plugin/libzipplugin/libzipplugin.cpp`

The plugin drives three outside parties: the libzip archive store, the local
file system (through Qt) and the host application (signals and user queries).
They are modelled as follows.

* `QString` is a list of characters; `QFileInfo.path`, `QFileInfo.fileName`
  follow Qt's `QFileSystemEntry` (split at the last separator).
* An open archive (`zip_t`) is the list of its entry slots, indexed from 0.
  A deleted slot keeps its index until the archive is committed by `zip_close`.
* Results of calls that depend on the outside world (is the archive readable,
  does a directory get created, what does a read deliver, ...) are fields of
  `Env`; the plugin itself is a state record `Plugin` which also carries the
  chronological log of every signal emitted and every file-system effect.
* A function returns `none` when the C++ function never returns: a query whose
  answer never arrives, or a loop that has used up its fuel.
-/

namespace LibzipPlugin

/-! ## Strings and paths (Qt) -/

abbrev QString := List Char

/-- The value of `QDir::separator()` on the platforms the plugin is built for. -/
def separator : Char := '/'

/-- Mirror of `s.endsWith(QDir::separator())`. -/
def endsWithSeparator (s : QString) : Bool :=
  s.getLast? == some separator

/-- Mirror of `QString::lastIndexOf(c)`: position of the last occurrence. -/
def lastIndexOf (c : Char) : QString → Option Nat
  | [] => none
  | x :: xs =>
    match lastIndexOf c xs with
    | some k => some (k + 1)
    | none => if x = c then some 0 else none

/-- Mirror of `QFileInfo(s).fileName()`: `s.mid(lastSeparator + 1)`. -/
def QFileInfo.fileName (s : QString) : QString :=
  match lastIndexOf separator s with
  | none => s
  | some k => s.drop (k + 1)

/-- Mirror of `QFileInfo(s).path()`: `"."` without a separator, `"/"` when the
only separator is the first character, `s.left(lastSeparator)` otherwise. -/
def QFileInfo.path (s : QString) : QString :=
  match lastIndexOf separator s with
  | none => ['.']
  | some 0 => [separator]
  | some k => s.take k

/-- Mirror of `QString::remove(0, n)`. -/
def QString.remove0 (s : QString) (n : Nat) : QString := s.drop n

/-- Mirror of `QString::number(n, 16).toUpper()`. -/
def hexUpper (n : Nat) : QString :=
  (Nat.toDigits 16 n).map Char.toUpper

/-! ## Machine integers -/

/-- Conversion of a 64-bit result to `int`: reduce modulo 2^32, read as signed. -/
def toInt32 (z : Int) : Int :=
  let r : Nat := (z % 4294967296).toNat
  if r < 2147483648 then (r : Int) else (r : Int) - 4294967296

/-- Conversion of an `int` to `uint`. -/
def toUInt32 (z : Int) : Nat := (z % 4294967296).toNat

/-! ## POSIX mode bits (`sys/stat.h`) -/

def S_IFMT : Nat := 0o170000
def S_IFDIR : Nat := 0o040000
def S_IFLNK : Nat := 0o120000
def S_ISUID : Nat := 0o4000
def S_ISGID : Nat := 0o2000
def S_ISVTX : Nat := 0o1000
def S_IRUSR : Nat := 0o400
def S_IWUSR : Nat := 0o200
def S_IXUSR : Nat := 0o100
def S_IRGRP : Nat := 0o040
def S_IWGRP : Nat := 0o020
def S_IXGRP : Nat := 0o010
def S_IROTH : Nat := 0o004
def S_IWOTH : Nat := 0o002
def S_IXOTH : Nat := 0o001

/-- The C truth value of `perm & mask`. -/
def hasBits (perm mask : Nat) : Bool := (perm &&& mask) != 0

/-- Mirror of `LibzipPlugin::permissionsToString`: ten `append` calls, the
character of each chosen by the `if` chain of the source. -/
def permissionsToString (perm : Nat) : QString :=
  let modeval : QString := []
  let modeval := modeval ++
    [if perm &&& S_IFMT = S_IFDIR then 'd'
     else if perm &&& S_IFMT = S_IFLNK then 'l'
     else '-']
  let modeval := modeval ++ [if hasBits perm S_IRUSR then 'r' else '-']
  let modeval := modeval ++ [if hasBits perm S_IWUSR then 'w' else '-']
  let modeval := modeval ++
    [if hasBits perm S_ISUID && hasBits perm S_IXUSR then 's'
     else if hasBits perm S_ISUID then 'S'
     else if hasBits perm S_IXUSR then 'x'
     else '-']
  let modeval := modeval ++ [if hasBits perm S_IRGRP then 'r' else '-']
  let modeval := modeval ++ [if hasBits perm S_IWGRP then 'w' else '-']
  let modeval := modeval ++
    [if hasBits perm S_ISGID && hasBits perm S_IXGRP then 's'
     else if hasBits perm S_ISGID then 'S'
     else if hasBits perm S_IXGRP then 'x'
     else '-']
  let modeval := modeval ++ [if hasBits perm S_IROTH then 'r' else '-']
  let modeval := modeval ++ [if hasBits perm S_IWOTH then 'w' else '-']
  let modeval := modeval ++
    [if hasBits perm S_ISVTX && hasBits perm S_IXOTH then 't'
     else if hasBits perm S_ISVTX then 'T'
     else if hasBits perm S_IXOTH then 'x'
     else '-']
  modeval

/-! ## zlib -/

/-- One byte of zlib's CRC-32 (reflected polynomial 0xEDB88320), bit by bit. -/
def crc32Step (crc byte : Nat) : Nat :=
  let shift := fun (c : Nat) => if c % 2 = 1 then (c >>> 1) ^^^ 0xEDB88320 else c >>> 1
  shift (shift (shift (shift (shift (shift (shift (shift (crc ^^^ (byte % 256)))))))))

/-- Mirror of zlib's `crc32(crc, buf, len)` over the first `len` bytes of `buf`. -/
def crc32 (crc : Nat) (buf : List Nat) (len : Nat) : Nat :=
  ((buf.take len).foldl crc32Step (crc ^^^ 0xFFFFFFFF)) ^^^ 0xFFFFFFFF

/-! ## libzip: constants of `zip.h` -/

def ZIP_STAT_NAME : Nat := 0x0001
def ZIP_STAT_SIZE : Nat := 0x0004
def ZIP_STAT_COMP_SIZE : Nat := 0x0008
def ZIP_STAT_MTIME : Nat := 0x0010
def ZIP_STAT_CRC : Nat := 0x0020
def ZIP_STAT_COMP_METHOD : Nat := 0x0040
def ZIP_STAT_ENCRYPTION_METHOD : Nat := 0x0080

def ZIP_CM_DEFAULT : Int := -1
def ZIP_CM_STORE : Int := 0
def ZIP_CM_DEFLATE : Int := 8
def ZIP_CM_DEFLATE64 : Int := 9
def ZIP_CM_BZIP2 : Int := 12
def ZIP_CM_LZMA : Int := 14
def ZIP_CM_XZ : Int := 95

def ZIP_EM_NONE : Nat := 0
def ZIP_EM_TRAD_PKWARE : Nat := 1
def ZIP_EM_AES_128 : Nat := 0x0101
def ZIP_EM_AES_192 : Nat := 0x0102
def ZIP_EM_AES_256 : Nat := 0x0103

def ZIP_OPSYS_DOS : Nat := 0
def ZIP_OPSYS_UNIX : Nat := 3

/-! ## libzip: the archive store -/

/-- The fields of `zip_stat_t` the plugin reads. -/
structure ZipStat where
  valid : Nat := 0
  name : QString := []
  size : Nat := 0
  comp_size : Nat := 0
  mtime : Nat := 0
  crc : Nat := 0
  comp_method : Int := 0
  encryption_method : Nat := 0
deriving DecidableEq, Repr

/-- One slot of an open archive: what `zip_stat_index` reports for it, its
external attributes, and what has been staged on it since the archive was
opened (deletion, encryption password, compression level). -/
structure ZipEntry where
  stat : ZipStat := {}
  opsys : Nat := ZIP_OPSYS_DOS
  attributes : Nat := 0
  deleted : Bool := false
  password : QString := []
  comp_flags : Nat := 0
deriving DecidableEq, Repr

/-- An open archive, `zip_t`: slots by index, and the archive comment (raw bytes). -/
structure Zip where
  entries : List ZipEntry := []
  comment : List Nat := []
deriving DecidableEq, Repr

/-- Mirror of `zip_get_num_entries(archive, 0)`: every slot counts. -/
def zip_get_num_entries (za : Zip) : Nat := za.entries.length

/-- Mirror of `zip_stat_index`: fails on an index out of range or a deleted slot. -/
def zip_stat_index (za : Zip) (index : Nat) : Option ZipStat :=
  match za.entries[index]? with
  | none => none
  | some e => if e.deleted then none else some e.stat

/-- Search of the first live slot named `name`, counting slots from `i`. -/
def locateFrom (name : QString) : List ZipEntry → Nat → Option Nat
  | [], _ => none
  | e :: es, i =>
    if !e.deleted && e.stat.name = name then some i else locateFrom name es (i + 1)

/-- Mirror of `zip_name_locate`: index of the live slot with that name, if any. -/
def zip_name_locate (za : Zip) (name : QString) : Option Nat :=
  locateFrom name za.entries 0

/-- Mirror of `zip_stat` (by name): locate, then stat; the only failure is
`ZIP_ER_NOENT`. -/
def zip_stat (za : Zip) (name : QString) : Option ZipStat :=
  match zip_name_locate za name with
  | none => none
  | some i => zip_stat_index za i

/-- Mirror of `zip_get_name(archive, index, ...)` (empty when there is none). -/
def zip_get_name (za : Zip) (index : Nat) : QString :=
  match zip_stat_index za index with
  | none => []
  | some st => st.name

/-- Mirror of `zip_file_get_external_attributes` with `ZIP_FL_UNCHANGED`:
fails only on an index out of range. -/
def zip_file_get_external_attributes (za : Zip) (index : Nat) : Option (Nat × Nat) :=
  match za.entries[index]? with
  | none => none
  | some e => some (e.opsys, e.attributes)

/-- What `zip_close` writes: the live slots, in index order. -/
def committed (za : Zip) : Zip :=
  { za with entries := za.entries.filter (fun e => !e.deleted) }

/-! ## The host side: entries, queries, signals -/

/-- The properties of `Archive::Entry` the plugin sets or reads. -/
structure Entry where
  fullPath : QString := []
  rootNode : QString := []
  isDirectory : Bool := false
  timestamp : Option Nat := none
  size : Option Nat := none
  compressedSize : Option Nat := none
  CRC : Option QString := none
  method : Option QString := none
  isPasswordProtected : Bool := false
  permissions : Option QString := none
deriving DecidableEq, Repr

/-- Mirror of `Archive::Entry::name()`: the final path segment, a trailing
separator of a directory path left aside. -/
def Entry.name (e : Entry) : QString :=
  if endsWithSeparator e.fullPath then QFileInfo.fileName e.fullPath.dropLast
  else QFileInfo.fileName e.fullPath

/-- A value handed to `progress`: `float(num) / den`. -/
structure Fraction where
  num : Nat
  den : Nat
deriving DecidableEq, Repr

/-- The translated message templates of `emit error(...)`. -/
inductive ErrorKind
  | openArchive        -- "Failed to open archive: %1"
  | writeArchive       -- "Failed to write archive."
  | addEntry           -- "Failed to add entry: %1"
  | setCompression     -- "Failed to set compression options for entry: %1"
  | readMetadata       -- "Failed to read metadata for entry: %1"
  | deleteEntry        -- "Failed to delete entry: %1"
  | createDirectory    -- "Failed to create directory: %1"
  | openEntry          -- "Failed to open '%1':<nl/>%2"
  | openForWriting     -- "Failed to open file for writing: %1"
  | readData           -- "Failed to read data for entry: %1"
  | writeData          -- "Failed to write data for entry: %1"
  | locateEntry        -- "Failed to locate entry: %1"
  | moveEntry          -- "Failed to move entry: %1"
  | copyEntry          -- "Failed to copy entry: %1"
  | setMetadata        -- "Failed to set metadata for entry: %1"
deriving DecidableEq, Repr

/-- The two queries of `queries.h` the plugin raises. -/
inductive Query
  | overwrite (name : QString)
  | passwordNeeded (incorrectTryAgain : Bool)
deriving DecidableEq, Repr

/-- The answers to an `OverwriteQuery`; `other` is an answer none of the
`response...()` tests recognises. -/
inductive OverwriteReply
  | cancel
  | skip
  | autoSkip
  | rename (newFilename : QString)
  | overwriteAll
  | overwrite
  | other
deriving DecidableEq, Repr

/-- The answers to a `PasswordNeededQuery`. -/
inductive PasswordReply
  | cancel
  | password (pw : QString)
deriving DecidableEq, Repr

/-- Everything observable: the signals of the plugin, and its effects on the
local file system. -/
inductive Event
  | error (kind : ErrorKind)
  | entry (e : Entry)
  | entryRemoved (path : QString)
  | progress (f : Fraction)
  | progress_filename (name : QString)
  | compressionMethodFound (name : QString)
  | encryptionMethodFound (name : QString)
  | testSuccess
  | cancelled
  | userQuery (q : Query)
  | mkpath (dir : QString)
  | fileOpen (file : QString)
  | fileWrite (file : QString) (bytes : List Nat)
  | utime (file : QString) (mtime : Nat)
deriving DecidableEq, Repr

/-! ## The outside world -/

/-- Result of `zip_fopen` / `zip_fopen_index`. -/
inductive FopenResult
  | ok
  | noPassword       -- ZIP_ER_NOPASSWD
  | wrongPassword    -- ZIP_ER_WRONGPASSWD
  | failed           -- any other error
deriving DecidableEq, Repr

/-- Result of one `zip_fread`: `-1`, or the bytes delivered. -/
inductive ReadResult
  | error
  | bytes (chunk : List Nat)
deriving DecidableEq, Repr

/-- The return value of `zip_fread`. -/
def ReadResult.ret : ReadResult → Int
  | .error => -1
  | .bytes chunk => chunk.length

/-- The bytes placed in the buffer by `zip_fread`. -/
def ReadResult.data : ReadResult → List Nat
  | .error => []
  | .bytes chunk => chunk

/-- The local file system as far as the plugin looks at it: regular files with
their content, and directories. Paths are compared as written, a trailing
separator apart (see `FileSystem.pathExists`). -/
structure FileSystem where
  files : List (QString × List Nat) := []
  dirs : List QString := []
deriving DecidableEq, Repr

/-- Mirror of `QFileInfo::exists(path)`: a regular file or a directory of that
path; a path that ends with a separator names the directory before it. -/
def FileSystem.pathExists (fs : FileSystem) (path : QString) : Bool :=
  (fs.files.lookup path).isSome || fs.dirs.contains path ||
    (endsWithSeparator path && fs.dirs.contains path.dropLast)

/-- Effect of a successful `QFile::open(QIODevice::WriteOnly)`: the file exists
and is empty. -/
def FileSystem.truncate (fs : FileSystem) (path : QString) : FileSystem :=
  { fs with files := (path, []) :: fs.files.filter (fun f => f.1 != path) }

/-- Effect of writing `bytes` at the end of the open file `path`. -/
def FileSystem.append (fs : FileSystem) (path : QString) (bytes : List Nat) : FileSystem :=
  { fs with files := fs.files.map (fun f => if f.1 = path then (f.1, f.2 ++ bytes) else f) }

/-- Effect of a successful `QDir().mkpath(dir)`. -/
def FileSystem.mkpath (fs : FileSystem) (dir : QString) : FileSystem :=
  if fs.dirs.contains dir then fs else { fs with dirs := dir :: fs.dirs }

/-- The answers of the outside world to the calls of the plugin. -/
structure Env where
  /-- Answer of `QThread::currentThread()->isInterruptionRequested()` at the k-th poll. -/
  interruptionRequested : Nat → Bool := fun _ => false
  /-- Whether `zip_open(..., ZIP_CHECKCONS, ...)` accepts the archive. -/
  zip_checkcons : Bool := true
  /-- Whether `zip_delete` on that index succeeds. -/
  zip_delete_ok : Nat → Bool := fun _ => true
  /-- Whether `zip_close` manages to write the archive. -/
  zip_close_ok : Bool := true
  /-- Result of `zip_fopen_index` on that index under that default password. -/
  zip_fopen_index : Nat → QString → FopenResult := fun _ _ => .ok
  /-- Result of the k-th `zip_fread` asking for `nbytes` on the entry at that index. -/
  zip_fread : Nat → Nat → Nat → ReadResult := fun _ _ _ => .bytes []
  /-- Whether `QDir().mkpath(dir)` succeeds. -/
  mkpath_ok : QString → Bool := fun _ => true
  /-- Whether `QFile(path).open(QIODevice::WriteOnly)` succeeds. -/
  open_ok : QString → Bool := fun _ => true
  /-- Return value of `QDataStream::writeRawData` for that file and those bytes. -/
  writeRawData : QString → List Nat → Int := fun _ bytes => bytes.length
  /-- The path of `QFileInfo(path).dir()` after `cdUp()`. -/
  cdUpPath : QString → QString := fun s => QFileInfo.path (QFileInfo.path s)
  /-- Value of `QFileInfo(path).lastModified()` in seconds. -/
  lastModified : QString → Nat := fun _ => 0
  /-- The `st_mode` of `QT_STAT` on a local file; `none` when the call fails. -/
  st_mode : QString → Option Nat := fun _ => none
  /-- Whether `zip_file_add` under that archive name succeeds. -/
  zip_file_add_ok : QString → Bool := fun _ => true
  /-- Whether `zip_set_file_compression` accepts that method. -/
  zip_compression_ok : Int → Bool := fun _ => true
  /-- Whether `zip_open(..., ZIP_CREATE, ...)` manages to start a new archive
  when the file cannot be opened as one. -/
  zip_create_ok : Bool := true
  /-- Answer of `QFileInfo(path).isDir()` on a local path. -/
  isDir : QString → Bool := fun _ => false
  /-- The paths a `QDirIterator` over that directory delivers, subdirectories
  included, in its order. -/
  dirIterator : QString → List QString := fun _ => []
  /-- The values the store hands to the registered progress callback while
  `zip_close` writes the archive. -/
  writeProgress : List Fraction := []
  /-- Whether `zip_file_rename` of that index to that name succeeds, the name
  being free. -/
  zip_file_rename_ok : Nat → QString → Bool := fun _ _ => true
  /-- Whether `zip_source_zip` on that index gives a source. -/
  zip_source_zip_ok : Nat → Bool := fun _ => true
  /-- Whether `zip_set_archive_comment` accepts those bytes as a comment. -/
  zip_set_archive_comment_ok : List Nat → Bool := fun _ => true

/-- The plugin object, the archive file it is bound to, the local file system,
the answers the user is going to give, and the log of what happened. -/
structure Plugin where
  /-- Content of the file `filename()`; `none` when it cannot be opened. -/
  archiveFile : Option Zip := none
  m_password : QString := []
  m_overwriteAll : Bool := false
  m_skipAll : Bool := false
  m_listAfterAdd : Bool := false
  m_numberOfEntries : Nat := 0
  m_comment : List Nat := []
  m_filesize : Nat := 0
  /-- The archive `m_addarchive` points to, as it was when the pointer was set;
  `none` for a null pointer. -/
  m_addarchive : Option Zip := none
  fs : FileSystem := {}
  overwriteReplies : List OverwriteReply := []
  passwordReplies : List PasswordReply := []
  polls : Nat := 0
  log : List Event := []
deriving DecidableEq, Repr

/-- The statement `emit sig(...)`, and the record of an effect. -/
def Plugin.emit (p : Plugin) (ev : Event) : Plugin :=
  { p with log := p.log ++ [ev] }

/-- One call of `isInterruptionRequested()`. -/
def Plugin.poll (env : Env) (p : Plugin) : Bool × Plugin :=
  (env.interruptionRequested p.polls, { p with polls := p.polls + 1 })

/-- Mirror of `zip_delete`: marks the slot deleted. -/
def zip_delete (env : Env) (za : Zip) (index : Nat) : Option Zip :=
  match za.entries[index]? with
  | none => none
  | some e =>
    if env.zip_delete_ok index then
      some { za with entries := za.entries.set index { e with deleted := true } }
    else none

/-- Mirror of `zip_close` on an archive opened for modification: when the write
succeeds the file holds the live slots, and libzip removes the file when no
slot is left. Returns whether it succeeded. -/
def zip_close (env : Env) (za : Zip) (p : Plugin) : Bool × Plugin :=
  if env.zip_close_ok then
    let c := committed za
    (true, { p with archiveFile := if c.entries.isEmpty then none else some c })
  else (false, p)

/-! ## Listing -/

/-- The `method` property: the `switch` over `statBuffer.comp_method`. -/
def compressionMethodName (m : Int) : Option QString :=
  if m = ZIP_CM_STORE then some "Store".toList
  else if m = ZIP_CM_DEFLATE then some "Deflate".toList
  else if m = ZIP_CM_DEFLATE64 then some "Deflate64".toList
  else if m = ZIP_CM_BZIP2 then some "BZip2".toList
  else if m = ZIP_CM_LZMA then some "LZMA".toList
  else if m = ZIP_CM_XZ then some "XZ".toList
  else none

/-- The `switch` over `statBuffer.encryption_method`. -/
def encryptionMethodName (m : Nat) : Option QString :=
  if m = ZIP_EM_TRAD_PKWARE then some "ZipCrypto".toList
  else if m = ZIP_EM_AES_128 then some "AES128".toList
  else if m = ZIP_EM_AES_192 then some "AES192".toList
  else if m = ZIP_EM_AES_256 then some "AES256".toList
  else none

/-- The entry record `emitEntryForIndex` builds from the stat buffer (before
the permissions are looked up). -/
def statEntry (st : ZipStat) : Entry :=
  let e : Entry := {}
  let e := if hasBits st.valid ZIP_STAT_NAME then { e with fullPath := st.name } else e
  let e := if endsWithSeparator e.fullPath then { e with isDirectory := true } else e
  let e := if hasBits st.valid ZIP_STAT_MTIME then { e with timestamp := some st.mtime } else e
  let e := if hasBits st.valid ZIP_STAT_SIZE then { e with size := some st.size } else e
  let e := if hasBits st.valid ZIP_STAT_COMP_SIZE then
      { e with compressedSize := some st.comp_size } else e
  let e := if hasBits st.valid ZIP_STAT_CRC && !e.isDirectory then
      { e with CRC := some (hexUpper st.crc) } else e
  let e := if hasBits st.valid ZIP_STAT_COMP_METHOD then
      { e with method := compressionMethodName st.comp_method } else e
  let e := if hasBits st.valid ZIP_STAT_ENCRYPTION_METHOD && st.encryption_method != ZIP_EM_NONE
      then { e with isPasswordProtected := true } else e
  e

/-- The method hints `emitEntryForIndex` emits while it builds the record. -/
def statHints (st : ZipStat) : List Event :=
  (if hasBits st.valid ZIP_STAT_COMP_METHOD then
    match compressionMethodName st.comp_method with
    | some n => [Event.compressionMethodFound n]
    | none => []
  else []) ++
  (if hasBits st.valid ZIP_STAT_ENCRYPTION_METHOD && st.encryption_method != ZIP_EM_NONE then
    match encryptionMethodName st.encryption_method with
    | some n => [Event.encryptionMethodFound n]
    | none => []
  else [])

/-- The `switch (opsys)` that sets the `permissions` property. -/
def withPermissions (e : Entry) (opsys attributes : Nat) : Entry :=
  if opsys = ZIP_OPSYS_UNIX then
    { e with permissions := some (permissionsToString (attributes >>> 16)) }
  else e

/-- Mirror of `LibzipPlugin::emitEntryForIndex`. -/
def emitEntryForIndex (za : Zip) (index : Nat) (p : Plugin) : Bool × Plugin :=
  match zip_stat_index za index with
  | none => (false, p)
  | some st =>
    let p := { p with log := p.log ++ statHints st }
    match zip_file_get_external_attributes za index with
    | none => (false, p.emit (.error .readMetadata))
    | some (opsys, attributes) =>
      (true, p.emit (.entry (withPermissions (statEntry st) opsys attributes)))

/-- The record `emitEntryForIndex` emits for a slot. -/
def slotEntry (s : ZipEntry) : Entry :=
  withPermissions (statEntry s.stat) s.opsys s.attributes

/-- The loop of `list` over the indices still to visit. -/
def listLoop (env : Env) (za : Zip) (nofEntries : Nat) : List Nat → Plugin → Plugin
  | [], p => p
  | i :: rest, p =>
    let (stop, p) := p.poll env
    if stop then p
    else
      let (_, p) := emitEntryForIndex za i p
      listLoop env za nofEntries rest (p.emit (.progress ⟨i + 1, nofEntries⟩))

/-- Mirror of `LibzipPlugin::list`. -/
def list (env : Env) (p : Plugin) : Bool × Plugin :=
  let p := { p with m_numberOfEntries := 0 }
  match p.archiveFile with
  | none => (false, p.emit (.error .openArchive))
  | some za =>
    let p := { p with m_comment := za.comment }
    let nofEntries := zip_get_num_entries za
    let p := listLoop env za nofEntries (List.range nofEntries) p
    (true, { p with m_listAfterAdd := false })

/-! ## Deleting -/

/-- The loop of `deleteFiles`; the archive is `none` once the function has
returned false. `i` is the running counter, `total` is `files.size()`. -/
def deleteLoop (env : Env) (total : Nat) :
    List Entry → Nat → Zip → Plugin → Option Zip × Plugin
  | [], _, za, p => (some za, p)
  | e :: rest, i, za, p =>
    let (stop, p) := p.poll env
    if stop then (some za, p)
    else
      match zip_name_locate za e.fullPath with
      | none => (none, p.emit (.error .deleteEntry))
      | some index =>
        match zip_delete env za index with
        | none => (none, p.emit (.error .deleteEntry))
        | some za =>
          let p := p.emit (.entryRemoved e.fullPath)
          let p := p.emit (.progress ⟨i + 1, total⟩)
          deleteLoop env total rest (i + 1) za p

/-- Mirror of `LibzipPlugin::deleteFiles`. -/
def deleteFiles (env : Env) (files : List Entry) (p : Plugin) : Bool × Plugin :=
  match p.archiveFile with
  | none => (false, p.emit (.error .openArchive))
  | some za =>
    match deleteLoop env files.length files 0 za p with
    | (none, p) => (false, p)
    | (some za, p) =>
      match zip_close env za p with
      | (false, p) => (false, p.emit (.error .writeArchive))
      | (true, p) => (true, p)

/-! ## Testing -/

/-- What `zip_fread(zipFile, buf, size)` gives in `testArchive`: the handle is
null when the entry could not be opened, and reading from it fails. No default
password is set on this archive. -/
def testRead (env : Env) (i : Nat) (size : Nat) : ReadResult :=
  match env.zip_fopen_index i [] with
  | .ok => env.zip_fread i 0 size
  | _ => .error

/-- The checks `testArchive` makes on one entry: `len` is an `int`. -/
def testEntryOk (st : ZipStat) (r : ReadResult) : Bool :=
  let len : Int := toInt32 r.ret
  if len = -1 || toUInt32 len != st.size then false
  else if st.crc != crc32 0 r.data (toUInt32 len) then false
  else true

/-- The loop of `testArchive`; false once the function has returned false. -/
def testLoop (env : Env) (za : Zip) (nofEntries : Int) : List Nat → Plugin → Bool × Plugin
  | [], p => (true, p)
  | i :: rest, p =>
    let (stop, p) := p.poll env
    if stop then (false, p)
    else
      match zip_stat_index za i with
      | none => (false, p)
      | some st =>
        if testEntryOk st (testRead env i st.size) then
          testLoop env za nofEntries rest (p.emit (.progress ⟨i, nofEntries.toNat⟩))
        else (false, p)

/-- Mirror of `LibzipPlugin::testArchive`. -/
def testArchive (env : Env) (p : Plugin) : Bool × Plugin :=
  match (if env.zip_checkcons then p.archiveFile else none) with
  | none => (false, p)
  | some za =>
    let nofEntries : Int := toInt32 (zip_get_num_entries za)
    match testLoop env za nofEntries (List.range nofEntries.toNat) p with
    | (false, p) => (false, p)
    | (true, p) => (true, p.emit .testSuccess)

/-! ## Extracting -/

/-- Where a step of `extractEntry` leaves the function: it goes on with a
value, or it has returned. -/
inductive Flow (α : Type)
  | go (a : α) (p : Plugin)
  | ret (b : Bool) (p : Plugin)

/-- The corrected destination directory: a separator is appended when absent. -/
def destDirCorrected (destDir : QString) : QString :=
  if !endsWithSeparator destDir then destDir ++ [separator] else destDir

/-- The destination path `extractEntry` computes; `none` when the function
returns true at once (a directory while paths are not preserved). -/
def extractEntry_destination (entry rootNode destDir : QString)
    (preservePaths removeRootNode : Bool) : Option QString :=
  let isDirectory := endsWithSeparator entry
  if preservePaths then
    if !removeRootNode || rootNode.isEmpty then
      some (destDirCorrected destDir ++ entry)
    else
      let truncatedEntry := QString.remove0 entry rootNode.length
      some (destDirCorrected destDir ++ truncatedEntry)
  else
    if isDirectory then none
    else some (destDirCorrected destDir ++ QFileInfo.fileName entry)

/-- The loop "Handle existing destination files". The answers still to come
are the first argument; with none left the query is never answered. -/
def extractEntry_overwrite (entry : QString) :
    List OverwriteReply → QString → QString → Plugin → Option (Flow QString)
  | replies, destination, renamedEntry, p =>
    if !p.m_overwriteAll && p.fs.pathExists destination then
      if p.m_skipAll then some (.ret true p)
      else
        match replies with
        | [] => none
        | r :: rest =>
          let p := { p.emit (.userQuery (.overwrite renamedEntry)) with overwriteReplies := rest }
          match r with
          | .cancel => some (.ret false (p.emit .cancelled))
          | .skip => some (.ret true p)
          | .autoSkip => some (.ret true { p with m_skipAll := true })
          | .rename newName =>
            extractEntry_overwrite entry rest
              (QFileInfo.path destination ++ [separator] ++ QFileInfo.fileName newName)
              (QFileInfo.path entry ++ [separator] ++ QFileInfo.fileName newName) p
          | .overwriteAll => some (.go destination { p with m_overwriteAll := true })
          | .overwrite => some (.go destination p)
          | .other => extractEntry_overwrite entry rest destination renamedEntry p
    else some (.go destination p)

/-- Mirror of `zip_fopen` (by name) under the default password of the archive,
which is the password of the plugin. -/
def zip_fopen (env : Env) (za : Zip) (name password : QString) : FopenResult × Nat :=
  match zip_name_locate za name with
  | none => (.failed, 0)
  | some i => (env.zip_fopen_index i password, i)

/-- The loop "Handle password-protected files"; goes on with the index of the
opened entry. -/
def extractEntry_password (env : Env) (za : Zip) (entry : QString) :
    List PasswordReply → Bool → Plugin → Option (Flow Nat)
  | replies, firstTry, p =>
    let zipFile := zip_fopen env za entry p.m_password
    if zipFile.1 = .ok then some (.go zipFile.2 p)
    else if zipFile.1 = .noPassword || zipFile.1 = .wrongPassword then
      match replies with
      | [] => none
      | r :: rest =>
        let p := { p.emit (.userQuery (.passwordNeeded (!firstTry))) with passwordReplies := rest }
        match r with
        | .cancel => some (.ret false (p.emit .cancelled))
        | .password pw =>
          extractEntry_password env za entry rest false { p with m_password := pw }
    else some (.ret false (p.emit (.error .openEntry)))

/-- The copy loop `while (sum != statBuffer.size)`: `k` reads have been made
on the handle of the entry at `index`, `sum` is a 64-bit counter. The result
is false when the function has returned false, `none` when the fuel is used up
inside the loop. -/
def extractEntry_copy (env : Env) (index : Nat) (destination : QString) (size : Nat) :
    Nat → Nat → Nat → Plugin → Option (Bool × Plugin)
  | fuel, k, sum, p =>
    if sum = size then some (true, p)
    else
      match fuel with
      | 0 => none
      | fuel + 1 =>
        let r := env.zip_fread index k 1000
        let readBytes : Int := r.ret
        if readBytes < 0 then some (false, p.emit (.error .readData))
        else
          let written : Int := env.writeRawData destination r.data
          let bytes := r.data.take written.toNat
          let p := { p.emit (.fileWrite destination bytes) with
                     fs := p.fs.append destination bytes }
          if written != readBytes then some (false, p.emit (.error .writeData))
          else
            extractEntry_copy env index destination size fuel (k + 1)
              ((sum + readBytes.toNat) % 18446744073709551616) p

/-- The end of `extractEntry`: the modification times. -/
def extractEntry_times (destination parentDir : QString) (restoreParentMtime : Bool)
    (mtime parent_mtime : Nat) (p : Plugin) : Plugin :=
  let p := p.emit (.utime destination mtime)
  if restoreParentMtime then p.emit (.utime parentDir parent_mtime) else p

/-- The state after `file.open(QIODevice::WriteOnly)` succeeded: the file
exists and is empty. -/
def extractEntry_opened (destination : QString) (p : Plugin) : Plugin :=
  { p.emit (.fileOpen destination) with fs := p.fs.truncate destination }

/-- The file branch of `extractEntry` from `QFile file(destination)` on. -/
def extractEntry_write (fuel : Nat) (env : Env) (za : Zip) (entry destination : QString)
    (size : Nat) (index : Nat) (p : Plugin) : Option (Bool × Plugin) :=
  if !env.open_ok destination then some (false, p.emit (.error .openForWriting))
  else
    let p := extractEntry_opened destination p
    match extractEntry_copy env index destination size fuel 0 0 p with
    | none => none
    | some (false, p) => some (false, p)
    | some (true, p) =>
      match zip_name_locate za entry with
      | none => some (false, p.emit (.error .locateEntry))
      | some index =>
        match zip_file_get_external_attributes za index with
        | none => some (false, p.emit (.error .readMetadata))
        | some _ => some (true, p)

/-- The file branch of `extractEntry` once the loop over existing destination
files has settled `destination`: the password loop, the copy, the times. -/
def extractEntry_file (fuel : Nat) (env : Env) (za : Zip) (entry destination parentDir : QString)
    (restoreParentMtime : Bool) (statBuffer : ZipStat) (parent_mtime : Nat) (p : Plugin) :
    Option (Bool × Plugin) :=
  match extractEntry_password env za entry p.passwordReplies true p with
  | none => none
  | some (.ret b p) => some (b, p)
  | some (.go index p) =>
    match extractEntry_write fuel env za entry destination statBuffer.size index p with
    | none => none
    | some (false, p) => some (false, p)
    | some (true, p) =>
      some (true, extractEntry_times destination parentDir restoreParentMtime
        statBuffer.mtime parent_mtime p)

/-- The state after `QDir().mkpath(QFileInfo(destination).path())` succeeded. -/
def extractEntry_mkpath (destination : QString) (p : Plugin) : Plugin :=
  { p.emit (.mkpath (QFileInfo.path destination)) with
    fs := p.fs.mkpath (QFileInfo.path destination) }

/-- The body of `extractEntry` from "Store parent mtime" on, `destination`
being the path computed before. -/
def extractEntry_from (fuel : Nat) (env : Env) (za : Zip) (entry destDir destination : QString)
    (p : Plugin) : Option (Bool × Plugin) :=
  let isDirectory := endsWithSeparator entry
  let parentDir :=
    if isDirectory then env.cdUpPath destination else QFileInfo.path destination
  let restoreParentMtime : Bool := parentDir ++ [separator] != destDirCorrected destDir
  let parent_mtime := env.lastModified parentDir
  if !env.mkpath_ok (QFileInfo.path destination) then
    some (false, p.emit (.error .createDirectory))
  else
    let p := extractEntry_mkpath destination p
    match zip_stat za entry with
    | none => some (isDirectory, p)
    | some statBuffer =>
      if !isDirectory then
        match extractEntry_overwrite entry p.overwriteReplies destination entry p with
        | none => none
        | some (.ret b p) => some (b, p)
        | some (.go destination p) =>
          extractEntry_file fuel env za entry destination parentDir restoreParentMtime
            statBuffer parent_mtime p
      else
        some (true, extractEntry_times destination parentDir restoreParentMtime
          statBuffer.mtime parent_mtime p)

/-- Mirror of `LibzipPlugin::extractEntry`. -/
def extractEntry (fuel : Nat) (env : Env) (za : Zip) (entry rootNode destDir : QString)
    (preservePaths removeRootNode : Bool) (p : Plugin) : Option (Bool × Plugin) :=
  match extractEntry_destination entry rootNode destDir preservePaths removeRootNode with
  | none => some (true, p)
  | some destination => extractEntry_from fuel env za entry destDir destination p

/-- One item of a batch: the entry path, its root node, and the name reported
with the progress. -/
structure ExtractItem where
  entry : QString
  rootNode : QString
  name : QString
deriving DecidableEq, Repr

/-- The items `extractFiles` works through: every entry of the archive when
`files` is empty, else the entries of `files`. -/
def extractItems (za : Zip) (files : List Entry) : List ExtractItem :=
  if files.isEmpty then
    (List.range (zip_get_num_entries za)).map
      (fun i => { entry := zip_get_name za i, rootNode := [], name := zip_get_name za i })
  else
    files.map (fun e => { entry := e.fullPath, rootNode := e.rootNode, name := e.name })

/-- The loop of `extractFiles` (both of its branches run this body): `i`
items are done, `nofEntries` is the total. -/
def extractLoop (fuel : Nat) (env : Env) (za : Zip) (destinationDirectory : QString)
    (preservePaths removeRootNode : Bool) (nofEntries : Nat) :
    List ExtractItem → Nat → Plugin → Option (Bool × Plugin)
  | [], _, p => some (true, p)
  | it :: rest, i, p =>
    let (stop, p) := p.poll env
    if stop then some (true, p)
    else
      match extractEntry fuel env za it.entry it.rootNode destinationDirectory
          preservePaths removeRootNode p with
      | none => none
      | some (false, p) => some (false, p)
      | some (true, p) =>
        let p := p.emit (.progress ⟨i + 1, nofEntries⟩)
        let p := p.emit (.progress_filename it.name)
        extractLoop fuel env za destinationDirectory preservePaths removeRootNode nofEntries
          rest (i + 1) p

/-- Mirror of `LibzipPlugin::extractFiles`; the options are `preservePaths()`
and `isDragAndDropEnabled()`. -/
def extractFiles (fuel : Nat) (env : Env) (files : List Entry)
    (destinationDirectory : QString) (preservePaths isDragAndDropEnabled : Bool)
    (p : Plugin) : Option (Bool × Plugin) :=
  let removeRootNode := isDragAndDropEnabled
  match p.archiveFile with
  | none => some (false, p.emit (.error .openArchive))
  | some za =>
    let items := extractItems za files
    let nofEntries := items.length
    let p := { p with m_overwriteAll := false, m_skipAll := false }
    extractLoop fuel env za destinationDirectory preservePaths removeRootNode nofEntries
      items 0 p

/-! ## Adding -/

/-- The accessors of `CompressionOptions` the plugin calls. -/
structure CompressionOptions where
  encryptionMethod : QString := []
  compressionMethod : QString := []
  isCompressionLevelSet : Bool := false
  compressionLevel : Int := 0
deriving DecidableEq, Repr

/-- Replace the slot at `index`, when there is one. -/
def Zip.update (za : Zip) (index : Nat) (f : ZipEntry → ZipEntry) : Zip :=
  match za.entries[index]? with
  | none => za
  | some e => { za with entries := za.entries.set index (f e) }

/-- Mirror of `zip_dir_add`: the name gets a trailing separator; fails when a
live slot has that name. Gives the new index. -/
def zip_dir_add (za : Zip) (name : QString) : Option (Nat × Zip) :=
  let name := if endsWithSeparator name then name else name ++ [separator]
  match zip_name_locate za name with
  | some _ => none
  | none =>
    some (za.entries.length,
      { za with entries := za.entries ++ [{ stat := { valid := ZIP_STAT_NAME, name := name } }] })

/-- Mirror of `zip_file_add` with `ZIP_FL_OVERWRITE`: the data of the live
slot of that name is replaced, or a slot is appended. Gives the index. -/
def zip_file_add (env : Env) (za : Zip) (name : QString) : Option (Nat × Zip) :=
  if env.zip_file_add_ok name then
    match zip_name_locate za name with
    | some i => some (i, za)
    | none =>
      some (za.entries.length,
        { za with entries := za.entries ++ [{ stat := { valid := ZIP_STAT_NAME, name := name } }] })
  else none

/-- Mirror of `zip_file_set_external_attributes`. -/
def zip_file_set_external_attributes (za : Zip) (index opsys attributes : Nat) : Zip :=
  za.update index (fun e => { e with opsys := opsys, attributes := attributes })

/-- Mirror of `zip_file_set_encryption`. -/
def zip_file_set_encryption (za : Zip) (index method : Nat) (password : QString) : Zip :=
  za.update index
    (fun e => { e with stat := { e.stat with encryption_method := method }, password := password })

/-- Mirror of `zip_set_file_compression`; fails on a method the library does
not support. -/
def zip_set_file_compression (env : Env) (za : Zip) (index : Nat) (comp : Int) (level : Int) :
    Option Zip :=
  if env.zip_compression_ok comp then
    some (za.update index
      (fun e => { e with stat := { e.stat with comp_method := comp }, comp_flags := level.toNat }))
  else none

/-- The name `writeEntry` gives the entry in the archive. -/
def writeEntry_destFile (file : QString) (destination : Option Entry) : QString :=
  match destination with
  | some d => d.fullPath ++ file
  | none => file

/-- The external attributes word: `result.st_mode << 16` in 32-bit arithmetic. -/
def writeEntry_attributes (st_mode : Nat) : Nat :=
  (st_mode <<< 16) % 4294967296

/-- The part of `writeEntry` under "Set permissions": nothing when `QT_STAT`
fails. -/
def writeEntry_permissions (env : Env) (za : Zip) (index : Nat) (file : QString) : Zip :=
  match env.st_mode file with
  | none => za
  | some st_mode =>
    zip_file_set_external_attributes za index ZIP_OPSYS_UNIX (writeEntry_attributes st_mode)

/-- The part of `writeEntry` under `if (!password().isEmpty())`. The
`Q_ASSERT` that the option is not empty is compiled out of release builds and
has no counterpart here. -/
def writeEntry_encryption (za : Zip) (index : Nat) (options : CompressionOptions)
    (password : QString) : Zip :=
  if !password.isEmpty then
    if options.encryptionMethod = "AES128".toList then
      zip_file_set_encryption za index ZIP_EM_AES_128 password
    else if options.encryptionMethod = "AES192".toList then
      zip_file_set_encryption za index ZIP_EM_AES_192 password
    else if options.encryptionMethod = "AES256".toList then
      zip_file_set_encryption za index ZIP_EM_AES_256 password
    else za
  else za

/-- The compression method `writeEntry` chooses. -/
def writeEntry_compMethod (options : CompressionOptions) : Int :=
  if !options.compressionMethod.isEmpty then
    if options.compressionMethod = "Deflate".toList then ZIP_CM_DEFLATE
    else if options.compressionMethod = "BZip2".toList then ZIP_CM_BZIP2
    else if options.compressionMethod = "Store".toList then ZIP_CM_STORE
    else ZIP_CM_DEFAULT
  else ZIP_CM_DEFAULT

/-- The first step of `writeEntry`: the slot the entry is written to. -/
def writeEntry_add (env : Env) (za : Zip) (destFile : QString) (isDir : Bool) :
    Option (Nat × Zip) :=
  if isDir then zip_dir_add za destFile else zip_file_add env za destFile

/-- Mirror of `LibzipPlugin::writeEntry` (the branch for platforms with POSIX
mode bits); gives the return value and the archive as it is staged then. -/
def writeEntry (env : Env) (za : Zip) (file : QString) (destination : Option Entry)
    (options : CompressionOptions) (isDir : Bool) (p : Plugin) : Bool × Zip × Plugin :=
  let destFile := writeEntry_destFile file destination
  match writeEntry_add env za destFile isDir with
  | none => if isDir then (true, za, p) else (false, za, p.emit (.error .addEntry))
  | some (index, za) =>
    let za := writeEntry_permissions env za index file
    let za := writeEntry_encryption za index options p.m_password
    let compMethod := writeEntry_compMethod options
    let compLevel : Int := if options.isCompressionLevelSet then options.compressionLevel else 6
    match zip_set_file_compression env za index compMethod compLevel with
    | none => (false, za, p.emit (.error .setCompression))
    | some za => (true, za, p)


/-! ## Reading the log -/

/-- The plugin state a step of `extractEntry` ends in. -/
def Flow.plugin {α : Type} : Flow α → Plugin
  | .go _ p => p
  | .ret _ p => p

def Event.isError : Event → Bool
  | .error _ => true
  | _ => false

def Event.isOverwriteQuery : Event → Bool
  | .userQuery (.overwrite _) => true
  | _ => false

/-- Whether the event opens `file` for writing or writes to it. -/
def Event.writesTo (file : QString) : Event → Bool
  | .fileOpen f => f == file
  | .fileWrite f _ => f == file
  | _ => false

/-- How many times `cancelled` was emitted. -/
def cancelledCount (log : List Event) : Nat := log.countP (fun ev => ev == Event.cancelled)

/-- How many times `testSuccess` was emitted. -/
def testSuccessCount (log : List Event) : Nat := log.countP (fun ev => ev == Event.testSuccess)

/-- How many times `error` was emitted. -/
def errorCount (log : List Event) : Nat := log.countP Event.isError

/-- How many overwrite queries were raised. -/
def overwriteQueryCount (log : List Event) : Nat := log.countP Event.isOverwriteQuery

/-- How many times `file` was opened for writing or written to. -/
def writeCount (file : QString) (log : List Event) : Nat := log.countP (Event.writesTo file)

/-- The paths given to `entryRemoved`, in order of emission. -/
def removedPaths (log : List Event) : List QString :=
  log.filterMap (fun ev => match ev with
    | .entryRemoved path => some path
    | _ => none)

/-- An archive with the file `a.txt` ("abc"), the directory `d/`, the file
`d/b.txt` (bytes 1, 2) and the empty file `z.txt`. -/
def sampleZip : Zip :=
  { entries :=
      [ { stat := { valid := 255, name := "a.txt".toList, size := 3, crc := 891568578,
                    comp_method := ZIP_CM_DEFLATE },
          opsys := ZIP_OPSYS_UNIX, attributes := 2175008768 },
        { stat := { valid := 255, name := "d/".toList },
          opsys := ZIP_OPSYS_UNIX, attributes := 1106051072 },
        { stat := { valid := 255, name := "d/b.txt".toList, size := 2, crc := 3066839698 },
          opsys := ZIP_OPSYS_UNIX, attributes := 2175008768 },
        { stat := { valid := 255, name := "z.txt".toList } } ] }

/-- The store delivers every entry of `sampleZip` in one read, then reports
the end of the data; everything else succeeds. -/
def sampleEnv : Env :=
  { zip_fread := fun i k _ =>
      if k = 0 then
        if i = 0 then .bytes [97, 98, 99] else if i = 2 then .bytes [1, 2] else .bytes []
      else .bytes [] }

/-- A plugin bound to `sampleZip`, nothing on disk, no answer pending. -/
def samplePlugin : Plugin := { archiveFile := some sampleZip }

/-- The files `/out/a.txt` and `/out/d/b.txt` are on disk already and the user
is going to answer OverwriteAll. -/
def sampleOverwriteStart : Plugin :=
  { samplePlugin with
    fs := { files := [("/out/a.txt".toList, [5]), ("/out/d/b.txt".toList, [6])] }
    overwriteReplies := [.overwriteAll] }

/-- The files `/out/a.txt` and `/out/b.txt` are on disk already and the user
is going to answer Rename with the name `b.txt`, and then Rename with the name
`x/y.txt`. -/
def sampleRenameStart : Plugin :=
  { samplePlugin with
    fs := { files := [("/out/a.txt".toList, [5]), ("/out/b.txt".toList, [7])] }
    overwriteReplies := [.rename "b.txt".toList, .rename "x/y.txt".toList] }

/-- An archive whose only entry `a.txt` declares 5 bytes. -/
def sampleShortZip : Zip :=
  { entries := [{ stat := { valid := 255, name := "a.txt".toList, size := 5 } }] }

/-- The store delivers 3 bytes and then reports the end of the data: every
further read returns 0 bytes. -/
def sampleShortEnv : Env :=
  { zip_fread := fun _ k _ => if k = 0 then .bytes [97, 98, 99] else .bytes [] }

/-- An archive whose only entry `big` declares 2^32 bytes and the checksum `crc`. -/
def sampleBigZip (crc : Nat) : Zip :=
  { entries := [{ stat := { valid := 255, name := "big".toList, size := 4294967296,
                            crc := crc } }] }

/-- The store delivers `chunk` in one read. -/
def sampleBigEnv (chunk : List Nat) : Env :=
  { zip_fread := fun _ _ _ => .bytes chunk }
/-! ## Text encodings (Qt) -/

/-- The UTF-8 encoding of one character, as bytes. -/
def utf8EncodeChar (c : Char) : List Nat :=
  let v := c.toNat
  if v < 0x80 then [v]
  else if v < 0x800 then [0xC0 + v / 64, 0x80 + v % 64]
  else if v < 0x10000 then [0xE0 + v / 4096, 0x80 + v / 64 % 64, 0x80 + v % 64]
  else [0xF0 + v / 262144, 0x80 + v / 4096 % 64, 0x80 + v / 64 % 64, 0x80 + v % 64]

/-- Mirror of `QString::toUtf8()`. -/
def toUtf8 (s : QString) : List Nat := s.flatMap utf8EncodeChar

/-- The number of UTF-16 code units of one character: two outside the basic
plane. -/
def utf16Units (c : Char) : Nat := if c.toNat < 0x10000 then 1 else 2

/-- Mirror of `QString::length()`: the number of UTF-16 code units. -/
def QString.length16 (s : QString) : Nat := (s.map utf16Units).sum

/-- Conversion of an `int` to `zip_uint64_t`. -/
def toUInt64 (z : Int) : Nat := (z % 18446744073709551616).toNat

/-! ## Progress of a commit -/

/-- Mirror of `LibzipPlugin::emitProgress`. The index is `m_filesize * percentage`
cut to a whole number; `percentage` is at most 1, so it is at most `m_filesize`. -/
def emitProgress (percentage : Fraction) (p : Plugin) : Plugin :=
  let i : Nat := p.m_filesize * percentage.num / percentage.den
  let p :=
    match p.m_addarchive with
    | some za => p.emit (.progress_filename (zip_get_name za i))
    | none => p
  p.emit (.progress percentage)

/-- Mirror of `LibzipPlugin::progressCallback`, `that` being the plugin. -/
def progressCallback (progress : Fraction) (that : Plugin) : Plugin :=
  emitProgress progress that

/-- The calls of the registered callback the store makes during one
`zip_close`, one for each value it reports. -/
def commitProgress (env : Env) (p : Plugin) : Plugin :=
  env.writeProgress.foldl (fun p progress => progressCallback progress p) p

/-- Mirror of `zip_close` once `zip_register_progress_callback_with_state` has
registered `progressCallback`. -/
def zip_close_progress (env : Env) (za : Zip) (p : Plugin) : Bool × Plugin :=
  zip_close env za (commitProgress env p)

/-! ## Adding files -/

/-- Mirror of `zip_open` with `ZIP_CREATE`: a file that cannot be opened as an
archive is started as an empty one. -/
def zip_open_create (env : Env) (p : Plugin) : Option Zip :=
  match p.archiveFile with
  | some za => some za
  | none => if env.zip_create_ok then some {} else none

/-- The loop `while (!isInterruptionRequested() && it.hasNext())` of
`addFiles` over the content of one directory; `i` is the `uint` counter. The
archive is `none` once the function has returned false. -/
def addFiles_dir (env : Env) (destination : Option Entry) (options : CompressionOptions) :
    List QString → Nat → Zip → Plugin → Option Zip × Nat × Plugin
  | paths, i, za, p =>
    let (stop, p) := p.poll env
    if stop then (some za, i, p)
    else
      match paths with
      | [] => (some za, i, p)
      | path :: rest =>
        match writeEntry env za path destination options (env.isDir path) p with
        | (false, _, p) => (none, i, p)
        | (true, za, p) =>
          addFiles_dir env destination options rest ((i + 1) % 4294967296) za p

/-- The loop of `addFiles` over `files`. -/
def addFiles_loop (env : Env) (destination : Option Entry) (options : CompressionOptions) :
    List Entry → Nat → Zip → Plugin → Option Zip × Nat × Plugin
  | [], i, za, p => (some za, i, p)
  | e :: rest, i, za, p =>
    let (stop, p) := p.poll env
    if stop then (some za, i, p)
    else if env.isDir e.fullPath then
      match writeEntry env za e.fullPath destination options true p with
      | (false, _, p) => (none, i, p)
      | (true, za, p) =>
        match addFiles_dir env destination options (env.dirIterator e.fullPath) i za p with
        | (none, i, p) => (none, i, p)
        | (some za, i, p) =>
          addFiles_loop env destination options rest ((i + 1) % 4294967296) za p
    else
      match writeEntry env za e.fullPath destination options false p with
      | (false, _, p) => (none, i, p)
      | (true, za, p) =>
        addFiles_loop env destination options rest ((i + 1) % 4294967296) za p

/-- The end of `addFiles`, from `m_filesize = i` on: the commit under the
progress callback, then the listing of the whole archive. -/
def addFiles_finish (env : Env) (za : Zip) (i : Nat) (p : Plugin) : Bool × Plugin :=
  let p := { p with m_filesize := i, m_addarchive := some za }
  match zip_close_progress env za p with
  | (false, p) => (false, p.emit (.error .writeArchive))
  | (true, p) =>
    let p := { p with m_listAfterAdd := true }
    (true, (list env p).2)

/-- Mirror of `LibzipPlugin::addFiles`. -/
def addFiles (env : Env) (files : List Entry) (destination : Option Entry)
    (options : CompressionOptions) (p : Plugin) : Bool × Plugin :=
  match zip_open_create env p with
  | none => (false, p.emit (.error .openArchive))
  | some za =>
    match addFiles_loop env destination options files 0 za p with
    | (none, _, p) => (false, p)
    | (some za, i, p) => addFiles_finish env za i p

/-! ## Moving and copying

`entryFullPaths`, `entryPathsFromDestination` and `entriesWithoutChildren`
belong to the interface the plugin derives from; `moveFiles` and `copyFiles`
take the two path lists they compute as arguments. -/

/-- Mirror of `zip_file_rename`: fails on an index without a live slot, on a
name that turns a directory into a file or a file into a directory, and on a
name another live slot has. -/
def zip_file_rename (env : Env) (za : Zip) (index : Nat) (name : QString) : Option Zip :=
  match zip_stat_index za index with
  | none => none
  | some st =>
    if endsWithSeparator name != endsWithSeparator st.name then none
    else
      match zip_name_locate za name with
      | some j => if j = index then some za else none
      | none =>
        if env.zip_file_rename_ok index name then
          some (za.update index (fun e => { e with stat := { e.stat with name := name } }))
        else none

/-- The value of `const int index = zip_name_locate(...)`: -1 when no live
slot has the name, the index cut to an `int` otherwise. -/
def locateInt (za : Zip) (name : QString) : Int :=
  match zip_name_locate za name with
  | none => -1
  | some located => toInt32 located

/-- The loop of `moveFiles`: `i` entries are done, `count` is
`filePaths.count()`; the progress value is the quotient of two `int`. -/
def moveFiles_loop (env : Env) (destPaths : List QString) (count : Nat) :
    List QString → Nat → Zip → Plugin → Option Zip × Plugin
  | [], _, za, p => (some za, p)
  | path :: rest, i, za, p =>
    let index : Int := locateInt za path
    if index = -1 then (none, p.emit (.error .moveEntry))
    else
      match zip_file_rename env za (toUInt64 index) (destPaths.getD i []) with
      | none => (none, p.emit (.error .moveEntry))
      | some za =>
        let p := p.emit (.entryRemoved path)
        let p := (emitEntryForIndex za (toUInt64 index) p).2
        let p := p.emit (.progress ⟨i / count, 1⟩)
        moveFiles_loop env destPaths count rest (i + 1) za p

/-- Mirror of `LibzipPlugin::moveFiles`; `filePaths` is the sorted list of the
full paths of the entries, `destPaths` the paths they are moved to. -/
def moveFiles (env : Env) (filePaths destPaths : List QString) (p : Plugin) : Bool × Plugin :=
  match p.archiveFile with
  | none => (false, p.emit (.error .openArchive))
  | some za =>
    match moveFiles_loop env destPaths filePaths.length filePaths 0 za p with
    | (none, p) => (false, p)
    | (some za, p) =>
      match zip_close env za p with
      | (false, p) => (false, p.emit (.error .writeArchive))
      | (true, p) => (true, p)

/-- Mirror of `zip_source_zip(archive, archive, srcIndex, 0, 0, -1)`: the data
of a live slot, as what `zip_stat_index` reports of it. -/
def zip_source_zip (env : Env) (za : Zip) (srcIndex : Nat) : Option ZipStat :=
  if env.zip_source_zip_ok srcIndex then zip_stat_index za srcIndex else none

/-- Mirror of `zip_file_add` with `ZIP_FL_OVERWRITE` from a source made by
`zip_source_zip`: the slot of that name, or a new one, gets the data of the
source. -/
def zip_file_add_source (env : Env) (za : Zip) (name : QString) (src : ZipStat) :
    Option (Nat × Zip) :=
  match zip_file_add env za name with
  | none => none
  | some (index, za) =>
    some (index, za.update index (fun e => { e with stat := { src with name := name } }))

/-- What is left of an iteration of `copyFiles` once the destination is
settled: `none` when the function returns false. Both indices are `int`. -/
def copyFiles_entry (env : Env) (za : Zip) (path dest : QString) (p : Plugin) :
    Option Zip × Plugin :=
  let srcIndex : Int := locateInt za path
  if srcIndex = -1 then (none, p.emit (.error .copyEntry))
  else
    match zip_source_zip env za (toUInt64 srcIndex) with
    | none => (none, p)
    | some src =>
      let added := zip_file_add_source env za dest src
      let destIndex : Int :=
        match added with
        | none => -1
        | some (index, _) => toInt32 index
      let za := (added.map (fun r => r.2)).getD za
      if destIndex = -1 then (none, p.emit (.error .addEntry))
      else
        match zip_file_get_external_attributes za (toUInt64 srcIndex) with
        | none => (none, p.emit (.error .readMetadata))
        | some (opsys, attributes) =>
          match za.entries[toUInt64 destIndex]? with
          | none => (none, p.emit (.error .setMetadata))
          | some _ =>
            (some (zip_file_set_external_attributes za (toUInt64 destIndex) opsys attributes), p)

/-- The loop of `copyFiles`: `i` entries are done. -/
def copyFiles_loop (env : Env) (destPaths : List QString) :
    List QString → Nat → Zip → Plugin → Option Zip × Plugin
  | [], _, za, p => (some za, p)
  | path :: rest, i, za, p =>
    let dest := destPaths.getD i []
    let added : Option Zip :=
      if endsWithSeparator dest then (zip_dir_add za dest).map (fun r => r.2) else some za
    match added with
    | none => copyFiles_loop env destPaths rest (i + 1) za p
    | some za =>
      match copyFiles_entry env za path dest p with
      | (none, p) => (none, p)
      | (some za, p) => copyFiles_loop env destPaths rest (i + 1) za p

/-- Mirror of `LibzipPlugin::copyFiles`; `filePaths` is the list of the full
paths of the entries, `destPaths` the paths of the copies. -/
def copyFiles (env : Env) (filePaths destPaths : List QString) (p : Plugin) : Bool × Plugin :=
  match p.archiveFile with
  | none => (false, p.emit (.error .openArchive))
  | some za =>
    match copyFiles_loop env destPaths filePaths 0 za p with
    | (none, p) => (false, p)
    | (some za, p) =>
      match zip_close_progress env za p with
      | (false, p) => (false, p.emit (.error .writeArchive))
      | (true, p) =>
        let p := { p with m_listAfterAdd := true }
        (true, (list env p).2)

/-! ## The archive comment -/

/-- Mirror of `zip_set_archive_comment(archive, comment, len)`: `len` is a
`zip_uint16_t`, and the first `len` bytes of the buffer make the comment. -/
def zip_set_archive_comment (env : Env) (za : Zip) (comment : List Nat) (len : Nat) :
    Option Zip :=
  let len := len % 65536
  if env.zip_set_archive_comment_ok (comment.take len) then
    some { za with comment := comment.take len }
  else none

/-- Mirror of `LibzipPlugin::addComment`. -/
def addComment (env : Env) (comment : QString) (p : Plugin) : Bool × Plugin :=
  match p.archiveFile with
  | none => (false, p.emit (.error .openArchive))
  | some za =>
    match zip_set_archive_comment env za (toUtf8 comment) (QString.length16 comment) with
    | none => (false, p)
    | some za =>
      match zip_close env za p with
      | (false, p) => (false, p.emit (.error .writeArchive))
      | (true, p) => (true, p)

/-! ## Extracting, continued -/

/-- The destination the loop "Handle existing destination files" has arrived
at after the answers `answers`, each of which has made it ask again: a Rename
sets it to `QFileInfo(destination).path() + separator +
QFileInfo(newName).fileName()`, an answer of no known kind leaves it. -/
def extractEntry_renamed : QString → List OverwriteReply → QString
  | destination, [] => destination
  | destination, r :: rest =>
    match r with
    | .rename newName =>
      extractEntry_renamed
        (QFileInfo.path destination ++ [separator] ++ QFileInfo.fileName newName) rest
    | _ => extractEntry_renamed destination rest

/-! ## Reading the log, continued -/

/-- The values given to `progress`, in order of emission. -/
def progressValues (log : List Event) : List Fraction :=
  log.filterMap (fun ev => match ev with
    | .progress f => some f
    | _ => none)

/-- The order of two progress values with positive denominators, taken as
exact rationals: `f ≤ g`. -/
def Fraction.le (f g : Fraction) : Prop := f.num * g.den ≤ g.num * f.den

/-- The strict order of two progress values with positive denominators, taken
as exact rationals: `f < g`. -/
def Fraction.lt (f g : Fraction) : Prop := f.num * g.den < g.num * f.den

instance (f g : Fraction) : Decidable (Fraction.le f g) := by
  unfold Fraction.le
  infer_instance

instance (f g : Fraction) : Decidable (Fraction.lt f g) := by
  unfold Fraction.lt
  infer_instance

/-- Whether the last event of the log is an `error`. -/
def lastIsError (log : List Event) : Bool :=
  match log.getLast? with
  | some (.error _) => true
  | _ => false

/-- The call that led from `p` to `p'` ended by emitting an error: the log
holds exactly one error more than before, and that error is its last event, so
nothing was reported after it. -/
def failedWithError (p p' : Plugin) : Prop :=
  errorCount p'.log = errorCount p.log + 1 ∧ lastIsError p'.log = true

instance (p p' : Plugin) : Decidable (failedWithError p p') := by
  unfold failedWithError
  infer_instance

/-- The call that led from `p` to `p'` ended by a cancellation: `cancelled`
was emitted once more than before, and no error. -/
def endedByCancel (p p' : Plugin) : Prop :=
  cancelledCount p'.log = cancelledCount p.log + 1 ∧ errorCount p'.log = errorCount p.log

instance (p p' : Plugin) : Decidable (endedByCancel p p') := by
  unfold endedByCancel
  infer_instance

/-! ## Sample data, continued -/

/-- A plugin bound to an archive whose only entry `a.txt` ("abc") carries a
wrong stored checksum. -/
def sampleCorruptPlugin : Plugin :=
  { archiveFile := some
      { entries := [{ stat := { valid := 255, name := "a.txt".toList, size := 3, crc := 1 } }] } }

/-- The interruption is requested from the second poll on. -/
def sampleInterruptEnv : Env :=
  { sampleEnv with interruptionRequested := fun k => decide (1 ≤ k) }

/-- The store reports the progress values 0, 1/2 and 1 while it writes. -/
def sampleAddEnv : Env := { writeProgress := [⟨0, 1⟩, ⟨1, 2⟩, ⟨1, 1⟩] }

/-- Three local files. -/
def sampleFiles : List Entry :=
  [{ fullPath := "f".toList }, { fullPath := "g".toList }, { fullPath := "h".toList }]

/-- The store delivers the entries of `sampleZip` one byte at a read, and then
reports the end of the data; everything else succeeds. -/
def sampleChunkEnv : Env :=
  { zip_fread := fun i k _ =>
      .bytes (((if i = 0 then [97, 98, 99] else if i = 2 then [1, 2] else []).drop k).take 1) }

/-- The state of `sampleOverwriteStart` once `extractFiles` has extracted
`a.txt`, the answer being OverwriteAll, and `d/` to `/out`, the store being
`sampleChunkEnv`. -/
def sampleOverwriteMid : Plugin :=
  { sampleOverwriteStart with
    m_overwriteAll := true
    overwriteReplies := []
    polls := 2
    fs := { files := [("/out/a.txt".toList, [97, 98, 99]), ("/out/d/b.txt".toList, [6])]
            dirs := ["/out/d".toList, "/out".toList] }
    log := [ .mkpath "/out".toList, .userQuery (.overwrite "a.txt".toList),
             .fileOpen "/out/a.txt".toList, .fileWrite "/out/a.txt".toList [97],
             .fileWrite "/out/a.txt".toList [98], .fileWrite "/out/a.txt".toList [99],
             .utime "/out/a.txt".toList 0,
             .progress ⟨1, 4⟩, .progress_filename "a.txt".toList,
             .mkpath "/out/d".toList, .utime "/out/d/".toList 0,
             .progress ⟨2, 4⟩, .progress_filename "d/".toList ] }

/-! ## Lemmas: the permission codec -/

theorem hasBits_two_pow (m k : Nat) : hasBits m (2 ^ k) = m.testBit k := by
  unfold hasBits
  rw [Nat.and_two_pow]
  cases h : m.testBit k <;> simp

theorem fileTypeBits (m : Nat) : m &&& S_IFMT = ((m >>> 12) % 16) <<< 12 := by
  apply Nat.eq_of_testBit_eq
  intro i
  have h : S_IFMT = (2 ^ 4 - 1) <<< 12 := by rfl
  have h16 : (16 : Nat) = 2 ^ 4 := by rfl
  rw [h, h16]
  simp only [Nat.testBit_and, Nat.testBit_shiftLeft, Nat.testBit_mod_two_pow, Nat.testBit_shiftRight, Nat.testBit_two_pow_sub_one]
  by_cases h1 : 12 ≤ i
  · have : 12 + (i - 12) = i := by omega
    simp [h1, this, Bool.and_comm]
  · simp [h1]

theorem isDir_iff (m : Nat) : m &&& S_IFMT = S_IFDIR ↔ (m >>> 12) % 16 = 4 := by
  rw [fileTypeBits, Nat.shiftLeft_eq]
  have : S_IFDIR = 4 * 2 ^ 12 := by rfl
  rw [this]
  constructor
  · intro h; exact Nat.eq_of_mul_eq_mul_right (by decide) h
  · intro h; rw [h]

theorem isLnk_iff (m : Nat) : m &&& S_IFMT = S_IFLNK ↔ (m >>> 12) % 16 = 10 := by
  rw [fileTypeBits, Nat.shiftLeft_eq]
  have : S_IFLNK = 10 * 2 ^ 12 := by rfl
  rw [this]
  constructor
  · intro h; exact Nat.eq_of_mul_eq_mul_right (by decide) h
  · intro h; rw [h]

theorem ite_snoc {c : Prop} [Decidable c] (l : List Char) (a b : Char) :
    (if c then l ++ [a] else l ++ [b]) = l ++ [if c then a else b] := by
  split <;> rfl

/-- The ten characters of the rendering, one by one. -/
theorem permissionsToString_chars (m : Nat) :
    permissionsToString m =
      [ if (m >>> 12) % 16 = 4 then 'd' else if (m >>> 12) % 16 = 10 then 'l' else '-',
        if m.testBit 8 then 'r' else '-',
        if m.testBit 7 then 'w' else '-',
        match m.testBit 11, m.testBit 6 with
          | true, true => 's' | true, false => 'S' | false, true => 'x' | false, false => '-',
        if m.testBit 5 then 'r' else '-',
        if m.testBit 4 then 'w' else '-',
        match m.testBit 10, m.testBit 3 with
          | true, true => 's' | true, false => 'S' | false, true => 'x' | false, false => '-',
        if m.testBit 2 then 'r' else '-',
        if m.testBit 1 then 'w' else '-',
        match m.testBit 9, m.testBit 0 with
          | true, true => 't' | true, false => 'T' | false, true => 'x' | false, false => '-' ] := by
  have e11 : S_ISUID = 2 ^ 11 := by rfl
  have e10 : S_ISGID = 2 ^ 10 := by rfl
  have e9 : S_ISVTX = 2 ^ 9 := by rfl
  have e8 : S_IRUSR = 2 ^ 8 := by rfl
  have e7 : S_IWUSR = 2 ^ 7 := by rfl
  have e6 : S_IXUSR = 2 ^ 6 := by rfl
  have e5 : S_IRGRP = 2 ^ 5 := by rfl
  have e4 : S_IWGRP = 2 ^ 4 := by rfl
  have e3 : S_IXGRP = 2 ^ 3 := by rfl
  have e2 : S_IROTH = 2 ^ 2 := by rfl
  have e1 : S_IWOTH = 2 ^ 1 := by rfl
  have e0 : S_IXOTH = 2 ^ 0 := by rfl
  unfold permissionsToString
  simp only [e11, e10, e9, e8, e7, e6, e5, e4, e3, e2, e1, e0, hasBits_two_pow, isDir_iff,
    isLnk_iff, List.nil_append, List.append_assoc, List.singleton_append,
    List.cons_append, List.cons.injEq, and_true, true_and]
  refine ⟨?_, ?_, ?_⟩
  · cases m.testBit 11 <;> cases m.testBit 6 <;> simp
  · cases m.testBit 10 <;> cases m.testBit 3 <;> simp
  · cases m.testBit 9 <;> cases m.testBit 0 <;> simp

/-! ## Lemmas: archive slots and `writeEntry` -/

theorem update_entries_get (za : Zip) (i : Nat) (f : ZipEntry → ZipEntry) :
    (za.update i f).entries[i]? = (za.entries[i]?).map f := by
  unfold Zip.update
  cases h : za.entries[i]? with
  | none => simp [h]
  | some e =>
    have hi : i < za.entries.length := (List.getElem?_eq_some_iff.mp h).1
    simp [h, hi]

theorem locateFrom_spec (name : QString) (es : List ZipEntry) (k i : Nat)
    (h : locateFrom name es k = some i) :
    ∃ e, es[i - k]? = some e ∧ k ≤ i ∧ e.deleted = false ∧ e.stat.name = name := by
  induction es generalizing k with
  | nil => simp [locateFrom] at h
  | cons x xs ih =>
    unfold locateFrom at h
    split at h
    · rename_i hx
      simp at h
      subst h
      simp at hx
      exact ⟨x, by simp, le_refl _, hx.1, hx.2⟩
    · obtain ⟨e, he, hk, hd, hn⟩ := ih (k + 1) h
      refine ⟨e, ?_, by omega, hd, hn⟩
      have : i - k = (i - (k + 1)) + 1 := by omega
      rw [this]
      simpa using he

theorem zip_name_locate_spec (za : Zip) (name : QString) (i : Nat)
    (h : zip_name_locate za name = some i) :
    ∃ e, za.entries[i]? = some e ∧ e.deleted = false ∧ e.stat.name = name := by
  obtain ⟨e, he, _, hd, hn⟩ := locateFrom_spec name za.entries 0 i h
  exact ⟨e, by simpa using he, hd, hn⟩

theorem writeEntry_add_slot (env : Env) (za : Zip) (destFile : QString) (isDir : Bool)
    (index : Nat) (za1 : Zip) (h : writeEntry_add env za destFile isDir = some (index, za1)) :
    ∃ e, za1.entries[index]? = some e ∧ e.deleted = false := by
  unfold writeEntry_add at h
  split at h
  · unfold zip_dir_add at h
    simp only at h
    split at h
    · simp at h
    · simp at h
      obtain ⟨h1, h2⟩ := h
      subst h1; subst h2
      simp
  · unfold zip_file_add at h
    split at h
    · split at h
      · rename_i i hi
        simp at h
        obtain ⟨h1, h2⟩ := h
        subst h1; subst h2
        obtain ⟨e, he, hd, _⟩ := zip_name_locate_spec za destFile _ hi
        exact ⟨e, he, hd⟩
      · simp at h
        obtain ⟨h1, h2⟩ := h
        subst h1; subst h2
        simp
    · simp at h

theorem writeEntry_attributes_bits (m : Nat) (hm : m < 65536) :
    writeEntry_attributes m % 65536 = 0 ∧ writeEntry_attributes m >>> 16 = m := by
  unfold writeEntry_attributes
  rw [Nat.shiftLeft_eq, Nat.shiftRight_eq_div_pow]
  constructor <;> omega

theorem emitEntryForIndex_live (zb : Zip) (j : Nat) (q : Plugin) (slot : ZipEntry)
    (h : zb.entries[j]? = some slot) (hd : slot.deleted = false) :
    emitEntryForIndex zb j q =
      (true, { q with log := q.log ++ statHints slot.stat ++ [Event.entry (slotEntry slot)] }) := by
  simp [emitEntryForIndex, zip_stat_index, zip_file_get_external_attributes, h, hd, Plugin.emit,
    slotEntry]

theorem writeEntry_encryption_get (za : Zip) (index : Nat) (options : CompressionOptions)
    (pw : QString) :
    (writeEntry_encryption za index options pw).entries[index]? =
      (za.entries[index]?).map (fun e =>
        if pw = [] then e
        else if options.encryptionMethod = "AES128".toList then
          { e with stat := { e.stat with encryption_method := ZIP_EM_AES_128 }, password := pw }
        else if options.encryptionMethod = "AES192".toList then
          { e with stat := { e.stat with encryption_method := ZIP_EM_AES_192 }, password := pw }
        else if options.encryptionMethod = "AES256".toList then
          { e with stat := { e.stat with encryption_method := ZIP_EM_AES_256 }, password := pw }
        else e) := by
  unfold writeEntry_encryption zip_file_set_encryption
  by_cases hp : pw = []
  · simp [hp]
  · by_cases h1 : options.encryptionMethod = ['A', 'E', 'S', '1', '2', '8']
    · simp [hp, h1, update_entries_get]
    · by_cases h2 : options.encryptionMethod = ['A', 'E', 'S', '1', '9', '2']
      · simp [hp, h2, update_entries_get]
      · by_cases h3 : options.encryptionMethod = ['A', 'E', 'S', '2', '5', '6']
        · simp [hp, h3, update_entries_get]
        · simp [hp, h1, h2, h3]

/-- What `writeEntry` leaves in the slot it has written: the slot of the add
step with attributes, encryption and compression applied in that order. -/
theorem writeEntry_slot (env : Env) (za : Zip) (file : QString) (destination : Option Entry)
    (options : CompressionOptions) (isDir : Bool) (p : Plugin) (index : Nat) (za1 : Zip)
    (slot0 : ZipEntry)
    (hadd : writeEntry_add env za (writeEntry_destFile file destination) isDir
      = some (index, za1))
    (h0 : za1.entries[index]? = some slot0) :
    ∃ slot, (writeEntry env za file destination options isDir p).2.1.entries[index]? = some slot ∧
      slot.deleted = slot0.deleted ∧ slot.stat.name = slot0.stat.name ∧
      (∀ m, env.st_mode file = some m →
        slot.opsys = ZIP_OPSYS_UNIX ∧ slot.attributes = writeEntry_attributes m) ∧
      (p.m_password ≠ [] → options.encryptionMethod = "AES128".toList →
        slot.stat.encryption_method = ZIP_EM_AES_128 ∧ slot.password = p.m_password) ∧
      (p.m_password ≠ [] → options.encryptionMethod = "AES192".toList →
        slot.stat.encryption_method = ZIP_EM_AES_192 ∧ slot.password = p.m_password) ∧
      (p.m_password ≠ [] → options.encryptionMethod = "AES256".toList →
        slot.stat.encryption_method = ZIP_EM_AES_256 ∧ slot.password = p.m_password) ∧
      (p.m_password = [] ∨ (options.encryptionMethod ≠ "AES128".toList ∧
          options.encryptionMethod ≠ "AES192".toList ∧
          options.encryptionMethod ≠ "AES256".toList) →
        slot.stat.encryption_method = slot0.stat.encryption_method ∧
        slot.password = slot0.password) := by
  have hres : ∃ g : ZipEntry → ZipEntry,
      (∀ e, (g e).deleted = e.deleted ∧ (g e).stat.name = e.stat.name ∧ (g e).opsys = e.opsys ∧
        (g e).attributes = e.attributes ∧ (g e).password = e.password ∧
        (g e).stat.encryption_method = e.stat.encryption_method) ∧
      (writeEntry env za file destination options isDir p).2.1.entries[index]? =
        ((writeEntry_encryption (writeEntry_permissions env za1 index file) index options
          p.m_password).entries[index]?).map g := by
    unfold writeEntry
    simp only [hadd]
    unfold zip_set_file_compression
    by_cases hc : env.zip_compression_ok (writeEntry_compMethod options) = true
    · simp only [hc, if_true, update_entries_get]
      refine ⟨_, ?_, rfl⟩
      intro e
      exact ⟨rfl, rfl, rfl, rfl, rfl, rfl⟩
    · refine ⟨id, fun e => ⟨rfl, rfl, rfl, rfl, rfl, rfl⟩, ?_⟩
      simp [hc]
  obtain ⟨g, hg, hres⟩ := hres
  have h2 : (writeEntry_permissions env za1 index file).entries[index]? =
      some (match env.st_mode file with
      | none => slot0
      | some m => { slot0 with opsys := ZIP_OPSYS_UNIX, attributes := writeEntry_attributes m }) := by
    unfold writeEntry_permissions
    cases env.st_mode file with
    | none => simpa using h0
    | some m => simp [zip_file_set_external_attributes, update_entries_get, h0]
  rw [writeEntry_encryption_get, h2] at hres
  simp only [Option.map_some'] at hres
  refine ⟨_, hres, ?_⟩
  simp only [hg]
  by_cases hp : p.m_password = []
  · simp only [hp, if_true]
    cases env.st_mode file <;> simp
  · simp only [hp, if_false]
    cases hm : env.st_mode file <;> split_ifs <;> simp_all

/-! ## Lemmas: paths -/

theorem lastIndexOf_none (c : Char) (s : QString) (h : lastIndexOf c s = none) : c ∉ s := by
  induction s with
  | nil => simp
  | cons x xs ih =>
    unfold lastIndexOf at h
    cases hxs : lastIndexOf c xs with
    | some k => simp [hxs] at h
    | none =>
      simp only [hxs] at h
      split at h
      · simp at h
      · rename_i hx
        simp only [List.mem_cons, not_or]
        exact ⟨fun hc => hx hc.symm, ih hxs⟩

theorem lastIndexOf_some (c : Char) (s : QString) (k : Nat) (h : lastIndexOf c s = some k) :
    s = s.take k ++ c :: s.drop (k + 1) ∧ c ∉ s.drop (k + 1) ∧ k < s.length := by
  induction s generalizing k with
  | nil => simp [lastIndexOf] at h
  | cons x xs ih =>
    unfold lastIndexOf at h
    cases hxs : lastIndexOf c xs with
    | some j =>
      simp only [hxs, Option.some.injEq] at h
      subst h
      obtain ⟨h1, h2, h3⟩ := ih j hxs
      refine ⟨?_, by simpa using h2, by simpa using h3⟩
      simp only [List.take_succ_cons, List.drop_succ_cons, List.cons_append, List.cons.injEq,
        true_and]
      exact h1
    | none =>
      simp only [hxs] at h
      split at h
      · rename_i hx
        simp only [Option.some.injEq] at h
        subst h
        subst hx
        exact ⟨by simp, by simpa using lastIndexOf_none _ xs hxs, by simp⟩
      · simp at h

theorem lastIndexOf_append (c : Char) (pre t : QString) (h : c ∉ t) :
    lastIndexOf c (pre ++ c :: t) = some pre.length := by
  induction pre with
  | nil =>
    have : lastIndexOf c t = none := by
      cases hk : lastIndexOf c t with
      | none => rfl
      | some k =>
        obtain ⟨h1, _, _⟩ := lastIndexOf_some c t k hk
        exact absurd (by rw [h1]; simp) h
    simp [lastIndexOf, this]
  | cons x xs ih => simp [lastIndexOf, ih]

/-- The final path segment: what follows the last separator, or everything. -/
theorem fileName_spec (s : QString) :
    separator ∉ QFileInfo.fileName s ∧
      (s = QFileInfo.fileName s ∨ ∃ pre, s = pre ++ separator :: QFileInfo.fileName s) := by
  unfold QFileInfo.fileName
  cases h : lastIndexOf separator s with
  | none => exact ⟨lastIndexOf_none _ _ h, Or.inl rfl⟩
  | some k =>
    obtain ⟨h1, h2, _⟩ := lastIndexOf_some _ _ _ h
    exact ⟨h2, Or.inr ⟨s.take k, h1⟩⟩

theorem fileName_append (pre t : QString) (h : separator ∉ t) :
    QFileInfo.fileName (pre ++ separator :: t) = t := by
  unfold QFileInfo.fileName
  rw [lastIndexOf_append _ _ _ h]
  simp

/-- Replacing the final segment keeps `QFileInfo::path()`. -/
theorem path_rename (d t : QString) (h : separator ∉ t) :
    QFileInfo.path (QFileInfo.path d ++ [separator] ++ t) = QFileInfo.path d := by
  have happ : ∀ pre : QString, pre ≠ [] →
      QFileInfo.path (pre ++ [separator] ++ t) = pre := by
    intro pre hpre
    unfold QFileInfo.path
    rw [List.append_assoc, List.singleton_append, lastIndexOf_append _ _ _ h]
    cases pre with
    | nil => exact absurd rfl hpre
    | cons x xs => simp
  unfold QFileInfo.path
  cases hk : lastIndexOf separator d with
  | none => exact happ _ (by simp)
  | some k =>
    cases k with
    | zero => exact happ _ (by simp)
    | succ j =>
      obtain ⟨_, _, h3⟩ := lastIndexOf_some _ _ _ hk
      apply happ
      intro h0
      have := congrArg List.length h0
      simp only [List.length_take, List.length_nil] at this
      omega

/-! ## Lemmas: the steps of `extractEntry` -/

@[simp] theorem emit_log (p : Plugin) (ev : Event) : (p.emit ev).log = p.log ++ [ev] := rfl
@[simp] theorem emit_fs (p : Plugin) (ev : Event) : (p.emit ev).fs = p.fs := rfl
@[simp] theorem emit_polls (p : Plugin) (ev : Event) : (p.emit ev).polls = p.polls := rfl
@[simp] theorem emit_overwriteReplies (p : Plugin) (ev : Event) :
    (p.emit ev).overwriteReplies = p.overwriteReplies := rfl
@[simp] theorem emit_passwordReplies (p : Plugin) (ev : Event) :
    (p.emit ev).passwordReplies = p.passwordReplies := rfl
@[simp] theorem emit_overwriteAll (p : Plugin) (ev : Event) :
    (p.emit ev).m_overwriteAll = p.m_overwriteAll := rfl
@[simp] theorem emit_skipAll (p : Plugin) (ev : Event) :
    (p.emit ev).m_skipAll = p.m_skipAll := rfl
@[simp] theorem emit_password (p : Plugin) (ev : Event) :
    (p.emit ev).m_password = p.m_password := rfl
@[simp] theorem emit_archiveFile (p : Plugin) (ev : Event) :
    (p.emit ev).archiveFile = p.archiveFile := rfl

@[simp] theorem cancelledCount_append (l l' : List Event) :
    cancelledCount (l ++ l') = cancelledCount l + cancelledCount l' := by
  simp [cancelledCount, List.countP_append]

@[simp] theorem cancelledCount_nil : cancelledCount [] = 0 := rfl

@[simp] theorem cancelledCount_cons (ev : Event) (l : List Event) :
    cancelledCount (ev :: l) = cancelledCount l + (if ev = Event.cancelled then 1 else 0) := by
  simp [cancelledCount, List.countP_cons]

@[simp] theorem errorCount_append (l l' : List Event) :
    errorCount (l ++ l') = errorCount l + errorCount l' := by
  simp [errorCount, List.countP_append]

@[simp] theorem errorCount_nil : errorCount [] = 0 := rfl

@[simp] theorem errorCount_cons (ev : Event) (l : List Event) :
    errorCount (ev :: l) = errorCount l + (if ev.isError then 1 else 0) := by
  simp [errorCount, List.countP_cons]

@[simp] theorem overwriteQueryCount_append (l l' : List Event) :
    overwriteQueryCount (l ++ l') = overwriteQueryCount l + overwriteQueryCount l' := by
  simp [overwriteQueryCount, List.countP_append]

@[simp] theorem overwriteQueryCount_nil : overwriteQueryCount [] = 0 := rfl

@[simp] theorem overwriteQueryCount_cons (ev : Event) (l : List Event) :
    overwriteQueryCount (ev :: l) =
      overwriteQueryCount l + (if ev.isOverwriteQuery then 1 else 0) := by
  simp [overwriteQueryCount, List.countP_cons]

@[simp] theorem writeCount_append (f : QString) (l l' : List Event) :
    writeCount f (l ++ l') = writeCount f l + writeCount f l' := by
  simp [writeCount, List.countP_append]

@[simp] theorem writeCount_nil (f : QString) : writeCount f [] = 0 := rfl

@[simp] theorem writeCount_cons (f : QString) (ev : Event) (l : List Event) :
    writeCount f (ev :: l) = writeCount f l + (if ev.writesTo f then 1 else 0) := by
  simp [writeCount, List.countP_cons]

/-- The loop over existing destination files: what it consumes and emits. -/
theorem overwrite_frame (entry : QString) (replies : List OverwriteReply) :
    ∀ (d r : QString) (p : Plugin) (res : Flow QString),
    p.overwriteReplies = replies →
    extractEntry_overwrite entry replies d r p = some res →
    ∃ used, replies = used ++ res.plugin.overwriteReplies ∧
      res.plugin.passwordReplies = p.passwordReplies ∧ res.plugin.polls = p.polls ∧
      res.plugin.fs = p.fs ∧ res.plugin.m_password = p.m_password ∧
      res.plugin.archiveFile = p.archiveFile ∧
      errorCount res.plugin.log = errorCount p.log ∧
      (∀ f, writeCount f res.plugin.log = writeCount f p.log) ∧
      (OverwriteReply.cancel ∈ used →
        res = .ret false res.plugin ∧
        cancelledCount res.plugin.log = cancelledCount p.log + 1) ∧
      (OverwriteReply.cancel ∉ used →
        cancelledCount res.plugin.log = cancelledCount p.log ∧
        ∀ p', res ≠ .ret false p') ∧
      overwriteQueryCount res.plugin.log = overwriteQueryCount p.log + used.length ∧
      (p.m_overwriteAll = true → res.plugin.m_overwriteAll = true) ∧
      (OverwriteReply.overwriteAll ∈ used → res.plugin.m_overwriteAll = true) ∧
      (OverwriteReply.autoSkip ∈ used →
        res.plugin.m_skipAll = true ∧ res.plugin.m_overwriteAll = false) ∧
      (used = [] → res = .go d p ∨ res = .ret true p) ∧
      (p.m_overwriteAll = true ∨ p.m_skipAll = true → used = []) := by
  induction replies with
  | nil =>
    intro d r p res hp h
    unfold extractEntry_overwrite at h
    refine ⟨[], ?_⟩
    split at h
    · split at h
      · simp at h; subst h; simp [Flow.plugin, hp]
      · simp at h
    · simp at h; subst h; simp [Flow.plugin, hp]
  | cons a rest ih =>
    intro d r p res hp h
    unfold extractEntry_overwrite at h
    split at h
    · split at h
      · simp at h; subst h
        exact ⟨[], by simp [Flow.plugin, hp]⟩
      · cases a with
        | cancel =>
          simp at h; subst h
          rename_i hc hs
          simp at hc hs
          exact ⟨[.cancel], by simp [Flow.plugin, Event.isError, Event.writesTo,
            Event.isOverwriteQuery, hc, hs]⟩
        | skip =>
          simp at h; subst h
          rename_i hc hs
          simp at hc hs
          exact ⟨[.skip], by simp [Flow.plugin, Event.isError, Event.writesTo,
            Event.isOverwriteQuery, hc, hs]⟩
        | autoSkip =>
          simp at h; subst h
          rename_i hc hs
          simp at hc hs
          exact ⟨[.autoSkip], by simp [Flow.plugin, Event.isError, Event.writesTo,
            Event.isOverwriteQuery, hc, hs]⟩
        | rename n =>
          simp only at h
          rename_i hc hs
          simp at hc hs
          obtain ⟨used, h1, h2, h3, h4, h5, h6, h7, h8, h9, h10, h11, h12, h13, h14, _⟩ :=
            ih _ _ _ res rfl h
          refine ⟨.rename n :: used, by simp [← h1], by simpa using h2, by simpa using h3,
            by simpa using h4, by simpa using h5, by simpa using h6,
            by simpa [Event.isError] using h7, ?_, ?_, ?_, ?_, ?_, ?_, ?_, by simp,
            by simp [hc, hs]⟩
          · intro f; simpa [Event.writesTo] using h8 f
          · intro hc
            simp at hc
            simpa using h9 hc
          · intro hc
            simp at hc
            simpa using h10 hc
          · simp [Event.isOverwriteQuery] at h11
            simp [h11]; omega
          · simpa using h12
          · intro hc
            simp at hc
            exact h13 hc
          · intro hc
            simp at hc
            exact h14 hc
        | overwriteAll =>
          simp at h; subst h
          rename_i hc hs
          simp at hc hs
          exact ⟨[.overwriteAll], by simp [Flow.plugin, Event.isError, Event.writesTo,
            Event.isOverwriteQuery, hc, hs]⟩
        | overwrite =>
          simp at h; subst h
          rename_i hc hs
          simp at hc hs
          exact ⟨[.overwrite], by simp [Flow.plugin, Event.isError, Event.writesTo,
            Event.isOverwriteQuery, hc, hs]⟩
        | other =>
          simp only at h
          rename_i hc hs
          simp at hc hs
          obtain ⟨used, h1, h2, h3, h4, h5, h6, h7, h8, h9, h10, h11, h12, h13, h14, _⟩ :=
            ih _ _ _ res rfl h
          refine ⟨.other :: used, by simp [← h1], by simpa using h2, by simpa using h3,
            by simpa using h4, by simpa using h5, by simpa using h6,
            by simpa [Event.isError] using h7, ?_, ?_, ?_, ?_, ?_, ?_, ?_, by simp,
            by simp [hc, hs]⟩
          · intro f; simpa [Event.writesTo] using h8 f
          · intro hc
            simp at hc
            simpa using h9 hc
          · intro hc
            simp at hc
            simpa using h10 hc
          · simp [Event.isOverwriteQuery] at h11
            simp [h11]; omega
          · simpa using h12
          · intro hc
            simp at hc
            exact h13 hc
          · intro hc
            simp at hc
            exact h14 hc
    · simp at h; subst h
      exact ⟨[], by simp [Flow.plugin, hp]⟩

/-- The password loop: what it consumes and emits. -/
theorem password_frame (env : Env) (za : Zip) (entry : QString) (replies : List PasswordReply) :
    ∀ (firstTry : Bool) (p : Plugin) (res : Flow Nat),
    p.passwordReplies = replies →
    extractEntry_password env za entry replies firstTry p = some res →
    ∃ used, replies = used ++ res.plugin.passwordReplies ∧
      res.plugin.overwriteReplies = p.overwriteReplies ∧ res.plugin.polls = p.polls ∧
      res.plugin.fs = p.fs ∧ res.plugin.m_overwriteAll = p.m_overwriteAll ∧
      res.plugin.m_skipAll = p.m_skipAll ∧ res.plugin.archiveFile = p.archiveFile ∧
      overwriteQueryCount res.plugin.log = overwriteQueryCount p.log ∧
      (∀ f, writeCount f res.plugin.log = writeCount f p.log) ∧
      (PasswordReply.cancel ∈ used →
        res = .ret false res.plugin ∧
        cancelledCount res.plugin.log = cancelledCount p.log + 1 ∧
        errorCount res.plugin.log = errorCount p.log) ∧
      (PasswordReply.cancel ∉ used →
        cancelledCount res.plugin.log = cancelledCount p.log ∧
        (((∃ i, res = .go i res.plugin ∧
              zip_fopen env za entry res.plugin.m_password = (.ok, i)) ∧
            errorCount res.plugin.log = errorCount p.log) ∨
          (res = .ret false res.plugin ∧
            errorCount res.plugin.log = errorCount p.log + 1))) := by
  induction replies with
  | nil =>
    intro firstTry p res hp h
    unfold extractEntry_password at h
    refine ⟨[], ?_⟩
    simp only at h
    split at h
    · rename_i hi
      simp at h; subst h; simp [Flow.plugin, hp, ← hi]
    · split at h
      · simp at h
      · simp at h; subst h
        simp [Flow.plugin, hp, Event.isError, Event.isOverwriteQuery, Event.writesTo]
  | cons a rest ih =>
    intro firstTry p res hp h
    unfold extractEntry_password at h
    simp only at h
    split at h
    · rename_i hi
      simp at h; subst h
      exact ⟨[], by simp [Flow.plugin, hp, ← hi]⟩
    · split at h
      · cases a with
        | cancel =>
          simp at h; subst h
          exact ⟨[.cancel], by simp [Flow.plugin, Event.isError, Event.writesTo,
            Event.isOverwriteQuery]⟩
        | password pw =>
          simp only at h
          obtain ⟨used, h1, h2, h3, h4, h5, h6, h7, h8, h9, h10, h11⟩ := ih _ _ res rfl h
          refine ⟨.password pw :: used, by simp [← h1], by simpa using h2, by simpa using h3,
            by simpa using h4, by simpa using h5, by simpa using h6, by simpa using h7,
            by simpa [Event.isOverwriteQuery] using h8, ?_, ?_, ?_⟩
          · intro f; simpa [Event.writesTo] using h9 f
          · intro hc
            simp at hc
            simpa [Event.isError] using h10 hc
          · intro hc
            simp at hc
            simpa [Event.isError] using h11 hc
      · simp at h; subst h
        exact ⟨[], by simp [Flow.plugin, hp, Event.isError, Event.isOverwriteQuery,
          Event.writesTo]⟩

theorem lookup_append_ne (files : List (QString × List Nat)) (d f : QString) (bytes : List Nat)
    (h : f ≠ d) :
    (files.map (fun x => if x.1 = d then (x.1, x.2 ++ bytes) else x)).lookup f
      = files.lookup f := by
  induction files with
  | nil => rfl
  | cons x xs ih =>
    obtain ⟨a, c⟩ := x
    rw [List.map_cons, List.lookup_cons]
    by_cases ha : a = d
    · have : (f == a) = false := by simpa [ha] using h
      simp only [ha, if_true, this, ih, List.lookup_cons]
      subst ha
      simp only [this]
    · simp only [ha, if_false, ih, List.lookup_cons]

theorem lookup_append_eq (files : List (QString × List Nat)) (d : QString) (bytes : List Nat) :
    (files.map (fun x => if x.1 = d then (x.1, x.2 ++ bytes) else x)).lookup d
      = (files.lookup d).map (fun c => c ++ bytes) := by
  induction files with
  | nil => rfl
  | cons x xs ih =>
    obtain ⟨a, c⟩ := x
    rw [List.map_cons, List.lookup_cons]
    by_cases ha : a = d
    · subst ha
      simp only [if_true, beq_self_eq_true, List.lookup_cons, Option.map_some']
    · have : (d == a) = false := by simpa using fun h => ha h.symm
      simp only [ha, if_false, this, ih, List.lookup_cons]

theorem lookup_filter_ne (files : List (QString × List Nat)) (d f : QString) (h : f ≠ d) :
    (files.filter (fun x => x.1 != d)).lookup f = files.lookup f := by
  induction files with
  | nil => rfl
  | cons x xs ih =>
    obtain ⟨a, c⟩ := x
    by_cases ha : a = d
    · have : (f == a) = false := by simpa [ha] using h
      have hfil : ((a, c) :: xs).filter (fun x => x.1 != d) = xs.filter (fun x => x.1 != d) := by
        simp [List.filter, ha]
      rw [hfil, ih, List.lookup_cons, this]
    · have hfil : ((a, c) :: xs).filter (fun x => x.1 != d)
          = (a, c) :: xs.filter (fun x => x.1 != d) := by
        have hne : (a != d) = true := by simpa using ha
        simp only [List.filter, hne]
      rw [hfil, List.lookup_cons, List.lookup_cons, ih]

theorem append_lookup_ne (fs : FileSystem) (d f : QString) (bytes : List Nat) (h : f ≠ d) :
    (fs.append d bytes).files.lookup f = fs.files.lookup f :=
  lookup_append_ne fs.files d f bytes h

theorem append_lookup_eq (fs : FileSystem) (d : QString) (bytes : List Nat) :
    (fs.append d bytes).files.lookup d = (fs.files.lookup d).map (fun c => c ++ bytes) :=
  lookup_append_eq fs.files d bytes

theorem truncate_lookup_ne (fs : FileSystem) (d f : QString) (h : f ≠ d) :
    (fs.truncate d).files.lookup f = fs.files.lookup f := by
  have : (f == d) = false := by simpa using h
  simp [FileSystem.truncate, List.lookup, this, lookup_filter_ne _ _ _ h]

theorem truncate_lookup_eq (fs : FileSystem) (d : QString) :
    (fs.truncate d).files.lookup d = some [] := by
  simp [FileSystem.truncate, List.lookup]

/-- The copy loop touches nothing but the log and the destination file. -/
theorem copy_frame (env : Env) (index : Nat) (d : QString) (size : Nat) (fuel : Nat) :
    ∀ (k sum : Nat) (p : Plugin) (b : Bool) (p' : Plugin),
    extractEntry_copy env index d size fuel k sum p = some (b, p') →
    p'.overwriteReplies = p.overwriteReplies ∧ p'.passwordReplies = p.passwordReplies ∧
    p'.polls = p.polls ∧ p'.m_overwriteAll = p.m_overwriteAll ∧ p'.m_skipAll = p.m_skipAll ∧
    p'.archiveFile = p.archiveFile ∧
    cancelledCount p'.log = cancelledCount p.log ∧
    overwriteQueryCount p'.log = overwriteQueryCount p.log ∧
    errorCount p'.log = errorCount p.log + (if b then 0 else 1) ∧
    p'.fs.dirs = p.fs.dirs ∧
    (∀ f, f ≠ d → writeCount f p'.log = writeCount f p.log ∧
      p'.fs.files.lookup f = p.fs.files.lookup f) := by
  induction fuel with
  | zero =>
    intro k sum p b p' h
    unfold extractEntry_copy at h
    split at h
    · simp at h; obtain ⟨h1, h2⟩ := h; subst h1; subst h2; simp
    · simp at h
  | succ n ih =>
    intro k sum p b p' h
    unfold extractEntry_copy at h
    split at h
    · simp at h; obtain ⟨h1, h2⟩ := h; subst h1; subst h2; simp
    · simp only at h
      split at h
      · simp at h; obtain ⟨h1, h2⟩ := h; subst h1; subst h2
        simp [Event.isError, Event.isOverwriteQuery, Event.writesTo]
      · split at h
        · simp at h; obtain ⟨h1, h2⟩ := h; subst h1; subst h2
          simp only [emit_log, emit_overwriteReplies, emit_passwordReplies, emit_polls,
            emit_overwriteAll, emit_skipAll, emit_archiveFile, cancelledCount_append,
            cancelledCount_cons, cancelledCount_nil, overwriteQueryCount_append,
            overwriteQueryCount_cons, overwriteQueryCount_nil, errorCount_append,
            errorCount_cons, errorCount_nil, writeCount_append, writeCount_cons, writeCount_nil]
          refine ⟨trivial, trivial, trivial, trivial, trivial, trivial, by simp,
            by simp [Event.isOverwriteQuery], by simp [Event.isError], rfl, ?_⟩
          intro f hf
          have : (d == f) = false := by simpa using fun h => hf h.symm
          exact ⟨by simp [Event.writesTo, this], append_lookup_ne _ _ _ _ hf⟩
        · obtain ⟨h1, h2, h3, h4, h5, h6, h7, h8, h9, h10, h11⟩ := ih _ _ _ _ _ h
          refine ⟨h1, h2, h3, h4, h5, h6, by simpa using h7,
            by simpa [Event.isOverwriteQuery] using h8, by simpa [Event.isError] using h9,
            h10, ?_⟩
          intro f hf
          have : (d == f) = false := by simpa using fun h => hf h.symm
          obtain ⟨g1, g2⟩ := h11 f hf
          exact ⟨by simpa [Event.writesTo, this] using g1,
            by rw [g2]; exact append_lookup_ne _ _ _ _ hf⟩


/-- The write step touches nothing but the log and the destination file. -/
theorem write_frame (fuel : Nat) (env : Env) (za : Zip) (entry d : QString) (size index : Nat)
    (p : Plugin) (b : Bool) (p' : Plugin)
    (h : extractEntry_write fuel env za entry d size index p = some (b, p')) :
    p'.overwriteReplies = p.overwriteReplies ∧ p'.passwordReplies = p.passwordReplies ∧
    p'.polls = p.polls ∧ p'.m_overwriteAll = p.m_overwriteAll ∧ p'.m_skipAll = p.m_skipAll ∧
    p'.archiveFile = p.archiveFile ∧
    cancelledCount p'.log = cancelledCount p.log ∧
    overwriteQueryCount p'.log = overwriteQueryCount p.log ∧
    errorCount p'.log = errorCount p.log + (if b then 0 else 1) ∧
    p'.fs.dirs = p.fs.dirs ∧
    (∀ f, f ≠ d → writeCount f p'.log = writeCount f p.log ∧
      p'.fs.files.lookup f = p.fs.files.lookup f) := by
  unfold extractEntry_write at h
  split at h
  · simp at h; obtain ⟨h1, h2⟩ := h; subst h1; subst h2
    simp [Event.isError, Event.isOverwriteQuery, Event.writesTo]
  · simp only at h
    have key : ∀ (q : Plugin) (c : Bool),
        extractEntry_copy env index d size fuel 0 0 (extractEntry_opened d p) = some (c, q) →
        q.overwriteReplies = p.overwriteReplies ∧ q.passwordReplies = p.passwordReplies ∧
        q.polls = p.polls ∧ q.m_overwriteAll = p.m_overwriteAll ∧ q.m_skipAll = p.m_skipAll ∧
        q.archiveFile = p.archiveFile ∧
        cancelledCount q.log = cancelledCount p.log ∧
        overwriteQueryCount q.log = overwriteQueryCount p.log ∧
        errorCount q.log = errorCount p.log + (if c then 0 else 1) ∧
        q.fs.dirs = p.fs.dirs ∧
        (∀ f, f ≠ d → writeCount f q.log = writeCount f p.log ∧
          q.fs.files.lookup f = p.fs.files.lookup f) := by
      intro q c hq
      obtain ⟨h1, h2, h3, h4, h5, h6, h7, h8, h9, h10, h11⟩ := copy_frame _ _ _ _ _ _ _ _ _ _ hq
      refine ⟨h1, h2, h3, h4, h5, h6, by simpa [extractEntry_opened] using h7,
        by simpa [extractEntry_opened, Event.isOverwriteQuery] using h8,
        by simpa [extractEntry_opened, Event.isError] using h9,
        by simpa [extractEntry_opened, FileSystem.truncate] using h10, ?_⟩
      intro f hf
      have : (d == f) = false := by simpa using fun h => hf h.symm
      obtain ⟨g1, g2⟩ := h11 f hf
      exact ⟨by simpa [extractEntry_opened, Event.writesTo, this] using g1,
        by rw [g2]; exact truncate_lookup_ne _ _ _ hf⟩
    split at h
    · simp at h
    · rename_i q hq
      simp at h; obtain ⟨h1, h2⟩ := h; subst h1; subst h2
      exact key _ _ hq
    · rename_i q hq
      have hk := key _ _ hq
      split at h
      · simp at h; obtain ⟨h1, h2⟩ := h; subst h1; subst h2
        obtain ⟨h1, h2, h3, h4, h5, h6, h7, h8, h9, h10, h11⟩ := hk
        refine ⟨h1, h2, h3, h4, h5, h6, by simpa using h7,
          by simpa [Event.isOverwriteQuery] using h8, by simpa [Event.isError] using h9, h10, ?_⟩
        intro f hf
        obtain ⟨g1, g2⟩ := h11 f hf
        exact ⟨by simpa [Event.writesTo] using g1, g2⟩
      · split at h
        · simp at h; obtain ⟨h1, h2⟩ := h; subst h1; subst h2
          obtain ⟨h1, h2, h3, h4, h5, h6, h7, h8, h9, h10, h11⟩ := hk
          refine ⟨h1, h2, h3, h4, h5, h6, by simpa using h7,
            by simpa [Event.isOverwriteQuery] using h8, by simpa [Event.isError] using h9, h10,
            ?_⟩
          intro f hf
          obtain ⟨g1, g2⟩ := h11 f hf
          exact ⟨by simpa [Event.writesTo] using g1, g2⟩
        · simp at h; obtain ⟨h1, h2⟩ := h; subst h1; subst h2
          exact hk

theorem times_frame (d parentDir : QString) (r : Bool) (m pm : Nat) (p : Plugin) :
    (extractEntry_times d parentDir r m pm p).overwriteReplies = p.overwriteReplies ∧
    (extractEntry_times d parentDir r m pm p).passwordReplies = p.passwordReplies ∧
    (extractEntry_times d parentDir r m pm p).polls = p.polls ∧
    (extractEntry_times d parentDir r m pm p).m_overwriteAll = p.m_overwriteAll ∧
    (extractEntry_times d parentDir r m pm p).m_skipAll = p.m_skipAll ∧
    (extractEntry_times d parentDir r m pm p).archiveFile = p.archiveFile ∧
    (extractEntry_times d parentDir r m pm p).fs = p.fs ∧
    cancelledCount (extractEntry_times d parentDir r m pm p).log = cancelledCount p.log ∧
    overwriteQueryCount (extractEntry_times d parentDir r m pm p).log
      = overwriteQueryCount p.log ∧
    errorCount (extractEntry_times d parentDir r m pm p).log = errorCount p.log ∧
    (∀ f, writeCount f (extractEntry_times d parentDir r m pm p).log = writeCount f p.log) := by
  unfold extractEntry_times
  cases r <;> simp [Event.isError, Event.isOverwriteQuery, Event.writesTo]

/-- The file branch after the destination is settled: what it consumes, emits
and writes. -/
theorem file_frame (fuel : Nat) (env : Env) (za : Zip) (entry d parentDir : QString) (r : Bool)
    (st : ZipStat) (pm : Nat) (p : Plugin) (b : Bool) (p' : Plugin)
    (h : extractEntry_file fuel env za entry d parentDir r st pm p = some (b, p')) :
    ∃ used, p.passwordReplies = used ++ p'.passwordReplies ∧
      p'.overwriteReplies = p.overwriteReplies ∧ p'.polls = p.polls ∧
      p'.m_overwriteAll = p.m_overwriteAll ∧ p'.m_skipAll = p.m_skipAll ∧
      p'.archiveFile = p.archiveFile ∧
      overwriteQueryCount p'.log = overwriteQueryCount p.log ∧
      p'.fs.dirs = p.fs.dirs ∧
      (∀ f, f ≠ d → writeCount f p'.log = writeCount f p.log ∧
        p'.fs.files.lookup f = p.fs.files.lookup f) ∧
      (PasswordReply.cancel ∈ used →
        b = false ∧ cancelledCount p'.log = cancelledCount p.log + 1 ∧
        errorCount p'.log = errorCount p.log ∧ p'.fs = p.fs) ∧
      (PasswordReply.cancel ∉ used →
        cancelledCount p'.log = cancelledCount p.log ∧
        errorCount p'.log = errorCount p.log + (if b then 0 else 1)) := by
  unfold extractEntry_file at h
  cases hpw : extractEntry_password env za entry p.passwordReplies true p with
  | none => simp [hpw] at h
  | some res =>
    obtain ⟨used, h1, h2, h3, h4, h5, h6, h7, h8, h9, h10, h11⟩ :=
      password_frame env za entry _ true p res rfl hpw
    cases res with
    | ret c q =>
      simp [hpw] at h
      obtain ⟨hb, hq⟩ := h
      subst hb; subst hq
      simp only [Flow.plugin] at h1 h2 h3 h4 h5 h6 h7 h8 h9 h10 h11
      refine ⟨used, h1, h2, h3, h5, h6, h7, h8, by rw [h4], fun f _ => ⟨h9 f, by rw [h4]⟩, ?_, ?_⟩
      · intro hc
        obtain ⟨g1, g2, g3⟩ := h10 hc
        simp at g1
        exact ⟨g1, g2, g3, h4⟩
      · intro hc
        obtain ⟨g1, g2⟩ := h11 hc
        refine ⟨g1, ?_⟩
        rcases g2 with ⟨⟨i, hi, _⟩, _⟩ | ⟨g3, g4⟩
        · simp at hi
        · simp at g3
          simp [g3, g4]
    | go i q =>
      simp only [Flow.plugin] at h1 h2 h3 h4 h5 h6 h7 h8 h9 h10 h11
      have hnc : PasswordReply.cancel ∉ used := by
        intro hc
        have := (h10 hc).1
        simp at this
      obtain ⟨g1, g2⟩ := h11 hnc
      have gerr : errorCount q.log = errorCount p.log := by
        rcases g2 with ⟨_, g⟩ | ⟨g3, _⟩
        · exact g
        · simp at g3
      simp only [hpw] at h
      cases hw : extractEntry_write fuel env za entry d st.size i q with
      | none => simp [hw] at h
      | some res2 =>
        obtain ⟨c, q2⟩ := res2
        obtain ⟨w1, w2, w3, w4, w5, w6, w7, w8, w9, w10, w11⟩ :=
          write_frame fuel env za entry d st.size i q c q2 hw
        cases c with
        | false =>
          simp [hw] at h
          obtain ⟨hb, hq⟩ := h
          subst hb; subst hq
          refine ⟨used, by rw [w2]; exact h1, by rw [w1, h2], by rw [w3, h3], by rw [w4, h5],
            by rw [w5, h6], by rw [w6, h7], by rw [w8, h8], by rw [w10, h4], ?_,
            fun hc => absurd hc hnc, fun _ => ⟨by rw [w7, g1], by rw [w9, gerr]⟩⟩
          intro f hf
          obtain ⟨x1, x2⟩ := w11 f hf
          exact ⟨by rw [x1, h9 f], by rw [x2, h4]⟩
        | true =>
          simp [hw] at h
          obtain ⟨hb, hq⟩ := h
          subst hb; subst hq
          obtain ⟨t1, t2, t3, t4, t5, t6, t7, t8, t9, t10, t11⟩ :=
            times_frame d parentDir r st.mtime pm q2
          refine ⟨used, by rw [t2, w2]; exact h1, by rw [t1, w1, h2], by rw [t3, w3, h3],
            by rw [t4, w4, h5], by rw [t5, w5, h6], by rw [t6, w6, h7], by rw [t9, w8, h8],
            by rw [t7, w10, h4], ?_, fun hc => absurd hc hnc,
            fun _ => ⟨by rw [t8, w7, g1], by rw [t10, w9, gerr]⟩⟩
          intro f hf
          obtain ⟨x1, x2⟩ := w11 f hf
          exact ⟨by rw [t11 f, x1, h9 f], by rw [t7, x2, h4]⟩

theorem mkpath_files (fs : FileSystem) (d : QString) : (fs.mkpath d).files = fs.files := by
  unfold FileSystem.mkpath
  split <;> rfl

/-- One call of `extractEntry` past the destination: what it consumes and emits. -/
theorem from_frame (fuel : Nat) (env : Env) (za : Zip) (entry destDir d : QString)
    (p : Plugin) (b : Bool) (p' : Plugin)
    (h : extractEntry_from fuel env za entry destDir d p = some (b, p')) :
    p'.polls = p.polls ∧ p'.archiveFile = p.archiveFile ∧
    ∃ usedO usedP, p.overwriteReplies = usedO ++ p'.overwriteReplies ∧
      p.passwordReplies = usedP ++ p'.passwordReplies ∧
      overwriteQueryCount p'.log = overwriteQueryCount p.log + usedO.length ∧
      (OverwriteReply.cancel ∈ usedO ∨ PasswordReply.cancel ∈ usedP →
        b = false ∧ cancelledCount p'.log = cancelledCount p.log + 1 ∧
        errorCount p'.log = errorCount p.log ∧ p'.fs.files = p.fs.files) ∧
      (b = true → OverwriteReply.cancel ∉ usedO ∧ PasswordReply.cancel ∉ usedP ∧
        cancelledCount p'.log = cancelledCount p.log ∧ errorCount p'.log = errorCount p.log) ∧
      (p.m_overwriteAll = true → p'.m_overwriteAll = true) ∧
      (p.m_skipAll = true → p.m_overwriteAll = false →
        p'.m_skipAll = true ∧ p'.m_overwriteAll = false) ∧
      (p.m_overwriteAll = true ∨ p.m_skipAll = true → usedO = []) ∧
      (OverwriteReply.overwriteAll ∈ usedO → p'.m_overwriteAll = true) ∧
      (OverwriteReply.autoSkip ∈ usedO → p'.m_skipAll = true ∧ p'.m_overwriteAll = false) := by
  unfold extractEntry_from at h
  simp only at h
  split at h
  · simp at h; obtain ⟨h1, h2⟩ := h; subst h1; subst h2
    refine ⟨rfl, rfl, [], [], by simp, by simp, by simp [Event.isOverwriteQuery], by simp,
      by simp, id, fun a b => ⟨a, b⟩, by simp, by simp, by simp⟩
  · generalize hP : extractEntry_mkpath d p = P at h
    have P1 : P.polls = p.polls := by subst hP; rfl
    have P2 : P.archiveFile = p.archiveFile := by subst hP; rfl
    have P3 : P.overwriteReplies = p.overwriteReplies := by subst hP; rfl
    have P4 : P.passwordReplies = p.passwordReplies := by subst hP; rfl
    have P5 : overwriteQueryCount P.log = overwriteQueryCount p.log := by
      subst hP; simp [extractEntry_mkpath, Event.isOverwriteQuery]
    have P6 : cancelledCount P.log = cancelledCount p.log := by
      subst hP; simp [extractEntry_mkpath]
    have P7 : errorCount P.log = errorCount p.log := by
      subst hP; simp [extractEntry_mkpath, Event.isError]
    have P8 : P.fs.files = p.fs.files := by subst hP; exact mkpath_files _ _
    have P9 : P.m_overwriteAll = p.m_overwriteAll := by subst hP; rfl
    have P10 : P.m_skipAll = p.m_skipAll := by subst hP; rfl
    split at h
    · simp at h; obtain ⟨h1, h2⟩ := h; subst h2
      refine ⟨P1, P2, [], [], by simp [P3], by simp [P4], by simp [P5], by simp, ?_,
        by rw [P9]; exact id, by rw [P9, P10]; exact fun a b => ⟨a, b⟩, by simp, by simp,
        by simp⟩
      intro _
      exact ⟨by simp, by simp, P6, P7⟩
    · rename_i st hst
      split at h
      · rw [P3] at h
        cases hov : extractEntry_overwrite entry p.overwriteReplies d entry P with
        | none => simp [hov] at h
        | some res =>
          obtain ⟨usedO, o1, o2, o3, o4, o5, o6, o7, o8, o9, o10, o11, o12, o13, o14, o15, o16⟩ :=
            overwrite_frame entry _ d entry P res P3 hov
          cases res with
          | ret c q =>
            simp [hov] at h
            obtain ⟨hb, hq⟩ := h
            subst hb; subst hq
            simp only [Flow.plugin] at o1 o2 o3 o4 o5 o6 o7 o8 o9 o10 o11 o12 o13 o14 o15
            refine ⟨by rw [o3, P1], by rw [o6, P2], usedO, [], o1,
              by simp [o2, P4], by rw [o11, P5], ?_, ?_, ?_, ?_, ?_, o13, o14⟩
            · intro hc
              simp only [List.not_mem_nil, or_false] at hc
              obtain ⟨g1, g2⟩ := o9 hc
              simp at g1
              exact ⟨g1, by rw [g2, P6], by rw [o7, P7], by rw [o4, P8]⟩
            · intro hb
              subst hb
              have hnc : OverwriteReply.cancel ∉ usedO := by
                intro hc
                have := (o9 hc).1
                simp at this
              exact ⟨hnc, by simp, by rw [(o10 hnc).1, P6], by rw [o7, P7]⟩
            · intro hp; exact o12 (by rw [P9]; exact hp)
            · intro hs ho
              have hu : usedO = [] := o16 (Or.inr (by rw [P10]; exact hs))
              rcases o15 hu with g | g
              · simp at g
              · simp at g
                rw [g.2, P10, P9]; exact ⟨hs, ho⟩
            · intro hp
              exact o16 (by rw [P9, P10]; exact hp)
          | go d2 q =>
            simp only [Flow.plugin] at o1 o2 o3 o4 o5 o6 o7 o8 o9 o10 o11 o12 o13 o14 o15
            have hnc : OverwriteReply.cancel ∉ usedO := by
              intro hc
              have := (o9 hc).1
              simp at this
            simp only [hov] at h
            obtain ⟨usedP, f1, f2, f3, f4, f5, f6, f7, f8, f9, f10, f11⟩ :=
              file_frame _ _ _ _ _ _ _ _ _ _ _ _ h
            refine ⟨by rw [f3, o3, P1], by rw [f6, o6, P2], usedO, usedP,
              by rw [f2]; exact o1, by rw [← P4, ← o2]; exact f1,
              by rw [f7, o11, P5], ?_, ?_, ?_, ?_, ?_, ?_, ?_⟩
            · intro hc
              rcases hc with hc | hc
              · exact absurd hc hnc
              · obtain ⟨g1, g2, g3, g4⟩ := f10 hc
                exact ⟨g1, by rw [g2, (o10 hnc).1, P6], by rw [g3, o7, P7],
                  by rw [g4, o4, P8]⟩
            · intro hb
              subst hb
              have hnp : PasswordReply.cancel ∉ usedP := by
                intro hc
                have := (f10 hc).1
                simp at this
              obtain ⟨g1, g2⟩ := f11 hnp
              exact ⟨hnc, hnp, by rw [g1, (o10 hnc).1, P6], by rw [g2, o7, P7]; simp⟩
            · intro hp; rw [f4]; exact o12 (by rw [P9]; exact hp)
            · intro hs ho
              have hu : usedO = [] := o16 (Or.inr (by rw [P10]; exact hs))
              rcases o15 hu with g | g
              · simp at g
                rw [f5, f4, g.2, P10, P9]; exact ⟨hs, ho⟩
              · simp at g
            · intro hp
              exact o16 (by rw [P9, P10]; exact hp)
            · intro hc; rw [f4]; exact o13 hc
            · intro hc
              have := o14 hc
              rw [f5, f4]; exact this
      · simp at h; obtain ⟨h1, h2⟩ := h; subst h1; subst h2
        obtain ⟨t1, t2, t3, t4, t5, t6, t7, t8, t9, t10, t11⟩ :=
          times_frame d (if endsWithSeparator entry = true then env.cdUpPath d
              else QFileInfo.path d)
            (((if endsWithSeparator entry = true then env.cdUpPath d
              else QFileInfo.path d) ++ [separator] != destDirCorrected destDir))
            st.mtime (env.lastModified (if endsWithSeparator entry = true then env.cdUpPath d
              else QFileInfo.path d)) P
        refine ⟨by rw [t3, P1], by rw [t6, P2], [], [], by simp [t1, P3], by simp [t2, P4],
          by simp [t9, P5], by simp, ?_, by rw [t4, P9]; exact id,
          by rw [t4, t5, P9, P10]; exact fun a b => ⟨a, b⟩, by simp, by simp, by simp⟩
        intro _
        exact ⟨by simp, by simp, by rw [t8, P6], by rw [t10, P7]⟩


/-- One call of `extractEntry`: what it consumes and emits. -/
theorem step_frame (fuel : Nat) (env : Env) (za : Zip) (entry rootNode destDir : QString)
    (pp rr : Bool) (p : Plugin) (b : Bool) (p' : Plugin)
    (h : extractEntry fuel env za entry rootNode destDir pp rr p = some (b, p')) :
    p'.polls = p.polls ∧ p'.archiveFile = p.archiveFile ∧
    ∃ usedO usedP, p.overwriteReplies = usedO ++ p'.overwriteReplies ∧
      p.passwordReplies = usedP ++ p'.passwordReplies ∧
      overwriteQueryCount p'.log = overwriteQueryCount p.log + usedO.length ∧
      (OverwriteReply.cancel ∈ usedO ∨ PasswordReply.cancel ∈ usedP →
        b = false ∧ cancelledCount p'.log = cancelledCount p.log + 1 ∧
        errorCount p'.log = errorCount p.log ∧ p'.fs.files = p.fs.files) ∧
      (b = true → OverwriteReply.cancel ∉ usedO ∧ PasswordReply.cancel ∉ usedP ∧
        cancelledCount p'.log = cancelledCount p.log ∧ errorCount p'.log = errorCount p.log) ∧
      (p.m_overwriteAll = true → p'.m_overwriteAll = true) ∧
      (p.m_skipAll = true → p.m_overwriteAll = false →
        p'.m_skipAll = true ∧ p'.m_overwriteAll = false) ∧
      (p.m_overwriteAll = true ∨ p.m_skipAll = true → usedO = []) ∧
      (OverwriteReply.overwriteAll ∈ usedO → p'.m_overwriteAll = true) ∧
      (OverwriteReply.autoSkip ∈ usedO → p'.m_skipAll = true ∧ p'.m_overwriteAll = false) := by
  unfold extractEntry at h
  split at h
  · simp at h; obtain ⟨h1, h2⟩ := h; subst h1; subst h2
    exact ⟨rfl, rfl, [], [], by simp, by simp, by simp, by simp, by simp, id,
      fun a b => ⟨a, b⟩, by simp, by simp, by simp⟩
  · exact from_frame _ _ _ _ _ _ _ _ _ h

@[simp] theorem poll_snd_polls (env : Env) (p : Plugin) : (p.poll env).2.polls = p.polls + 1 := rfl
@[simp] theorem poll_snd_log (env : Env) (p : Plugin) : (p.poll env).2.log = p.log := rfl
@[simp] theorem poll_snd_fs (env : Env) (p : Plugin) : (p.poll env).2.fs = p.fs := rfl
@[simp] theorem poll_snd_archiveFile (env : Env) (p : Plugin) :
    (p.poll env).2.archiveFile = p.archiveFile := rfl
@[simp] theorem poll_snd_overwriteReplies (env : Env) (p : Plugin) :
    (p.poll env).2.overwriteReplies = p.overwriteReplies := rfl
@[simp] theorem poll_snd_passwordReplies (env : Env) (p : Plugin) :
    (p.poll env).2.passwordReplies = p.passwordReplies := rfl
@[simp] theorem poll_snd_overwriteAll (env : Env) (p : Plugin) :
    (p.poll env).2.m_overwriteAll = p.m_overwriteAll := rfl
@[simp] theorem poll_snd_skipAll (env : Env) (p : Plugin) :
    (p.poll env).2.m_skipAll = p.m_skipAll := rfl
@[simp] theorem poll_fst (env : Env) (p : Plugin) :
    (p.poll env).1 = env.interruptionRequested p.polls := rfl

/-- One iteration of the loop of `extractFiles`. -/
theorem extractLoop_cons (fuel : Nat) (env : Env) (za : Zip) (D : QString) (pp rr : Bool)
    (n : Nat) (it : ExtractItem) (rest : List ExtractItem) (i : Nat) (p : Plugin) :
    extractLoop fuel env za D pp rr n (it :: rest) i p =
      if env.interruptionRequested p.polls then some (true, (p.poll env).2)
      else
        match extractEntry fuel env za it.entry it.rootNode D pp rr (p.poll env).2 with
        | none => none
        | some (false, q) => some (false, q)
        | some (true, q) =>
          extractLoop fuel env za D pp rr n rest (i + 1)
            ((q.emit (.progress ⟨i + 1, n⟩)).emit (.progress_filename it.name)) := by
  rw [extractLoop]
  rfl

/-- The entries before the k-th, when they are all processed. -/
theorem extractLoop_append (fuel : Nat) (env : Env) (za : Zip) (D : QString) (pp rr : Bool)
    (n : Nat) (pre : List ExtractItem) :
    ∀ (rest : List ExtractItem) (i : Nat) (p0 p1 : Plugin),
    (∀ j, j < pre.length → env.interruptionRequested (p0.polls + j) = false) →
    extractLoop fuel env za D pp rr n pre i p0 = some (true, p1) →
    extractLoop fuel env za D pp rr n (pre ++ rest) i p0
        = extractLoop fuel env za D pp rr n rest (i + pre.length) p1 ∧
      p1.polls = p0.polls + pre.length ∧ cancelledCount p1.log = cancelledCount p0.log ∧
      errorCount p1.log = errorCount p0.log ∧ p1.archiveFile = p0.archiveFile := by
  induction pre with
  | nil =>
    intro rest i p0 p1 _ h
    simp [extractLoop] at h
    subst h
    simp
  | cons it pre ih =>
    intro rest i p0 p1 hpoll h
    have h0 : env.interruptionRequested p0.polls = false := by
      simpa using hpoll 0 (by simp)
    rw [extractLoop_cons, h0] at h
    rw [List.cons_append, extractLoop_cons, h0]
    simp only [Bool.false_eq_true, if_false] at h ⊢
    cases hs : extractEntry fuel env za it.entry it.rootNode D pp rr (p0.poll env).2 with
    | none => simp [hs] at h
    | some res =>
      obtain ⟨b, q⟩ := res
      cases b with
      | false => simp [hs] at h
      | true =>
        simp only [hs] at h ⊢
        obtain ⟨s1, s2, _, _, _, _, _, _, s3, _⟩ := step_frame _ _ _ _ _ _ _ _ _ _ _ hs
        obtain ⟨_, _, s4, s5⟩ := s3 rfl
        have hq : ∀ j, j < pre.length → env.interruptionRequested
            (((q.emit (.progress ⟨i + 1, n⟩)).emit (.progress_filename it.name)).polls + j)
              = false := by
          intro j hj
          have := hpoll (j + 1) (by simp; omega)
          simp only [emit_polls, s1, poll_snd_polls]
          rw [← this]; congr 1; omega
        obtain ⟨g1, g2, g3, g4, g5⟩ := ih rest (i + 1) _ p1 hq h
        refine ⟨?_, ?_, ?_, ?_, ?_⟩
        · rw [g1]; congr 1; simp; omega
        · rw [g2]; simp [s1]; omega
        · rw [g3]; simpa using s4
        · rw [g4]; simpa [Event.isError] using s5
        · rw [g5]; simpa using s2


theorem contains_cons_eq (x z : QString) (l : List QString) :
    (x :: l).contains z = (z == x || l.contains z) := by
  exact List.contains_cons

theorem pathExists_mkpath (fs : FileSystem) (x y : QString) :
    (fs.mkpath x).pathExists y =
      (fs.pathExists y || y == x || (endsWithSeparator y && y.dropLast == x)) := by
  unfold FileSystem.mkpath FileSystem.pathExists
  by_cases h : fs.dirs.contains x = true
  · simp only [h, if_true]
    have h1 : (y == x) = true → fs.dirs.contains y = true := by
      intro e; rw [eq_of_beq e]; exact h
    have h2 : (y.dropLast == x) = true → fs.dirs.contains y.dropLast = true := by
      intro e; rw [eq_of_beq e]; exact h
    revert h1 h2
    generalize (fs.files.lookup y).isSome = a
    generalize fs.dirs.contains y = b
    generalize fs.dirs.contains y.dropLast = c
    generalize endsWithSeparator y = e
    generalize (y == x) = f
    generalize (y.dropLast == x) = g
    cases a <;> cases b <;> cases c <;> cases e <;> cases f <;> cases g <;> simp
  · simp only [h, Bool.false_eq_true, if_false, contains_cons_eq]
    generalize (fs.files.lookup y).isSome = a
    generalize fs.dirs.contains y = b
    generalize fs.dirs.contains y.dropLast = c
    generalize endsWithSeparator y = e
    generalize (y == x) = f
    generalize (y.dropLast == x) = g
    cases a <;> cases b <;> cases c <;> cases e <;> cases f <;> cases g <;> rfl

/-- A path that exists still exists once a directory is made. -/
theorem pathExists_mkpath_of (fs : FileSystem) (x y : QString) (h : fs.pathExists y = true) :
    (fs.mkpath x).pathExists y = true := by
  rw [pathExists_mkpath, h]
  rfl

/-- With OverwriteAll in force the loop over existing files is passed without
a query: the step is the file extraction onto the computed destination. -/
theorem from_overwriteAll (fuel : Nat) (env : Env) (za : Zip) (e D d : QString) (st : ZipStat)
    (p : Plugin) (hfile : endsWithSeparator e = false)
    (hmk : env.mkpath_ok (QFileInfo.path d) = true) (hst : zip_stat za e = some st)
    (hoa : p.m_overwriteAll = true) :
    extractEntry_from fuel env za e D d p =
      extractEntry_file fuel env za e d (QFileInfo.path d)
        (QFileInfo.path d ++ [separator] != destDirCorrected D) st
        (env.lastModified (QFileInfo.path d)) (extractEntry_mkpath d p) := by
  unfold extractEntry_from
  simp only [hfile, hmk, hst, Bool.not_true, Bool.false_eq_true, if_false, Bool.not_false,
    if_true]
  have : (extractEntry_mkpath d p).m_overwriteAll = true := hoa
  unfold extractEntry_overwrite
  simp [this]

/-- With SkipAll in force a file whose destination exists is passed over. -/
theorem from_skipAll (fuel : Nat) (env : Env) (za : Zip) (e D d : QString) (st : ZipStat)
    (p : Plugin) (hfile : endsWithSeparator e = false)
    (hmk : env.mkpath_ok (QFileInfo.path d) = true) (hst : zip_stat za e = some st)
    (hoa : p.m_overwriteAll = false) (hsa : p.m_skipAll = true)
    (hex : p.fs.pathExists d = true) :
    extractEntry_from fuel env za e D d p = some (true, extractEntry_mkpath d p) := by
  unfold extractEntry_from
  simp only [hfile, hmk, hst, Bool.not_true, Bool.false_eq_true, if_false, Bool.not_false,
    if_true]
  have h1 : (extractEntry_mkpath d p).m_overwriteAll = false := hoa
  have h2 : (extractEntry_mkpath d p).m_skipAll = true := hsa
  have h3 : (extractEntry_mkpath d p).fs.pathExists d = true := by
    exact pathExists_mkpath_of _ _ _ hex
  unfold extractEntry_overwrite
  simp [h1, h2, h3]

theorem copy_done (env : Env) (index : Nat) (d : QString) (size fuel k : Nat) (p : Plugin) :
    extractEntry_copy env index d size fuel k size p = some (true, p) := by
  unfold extractEntry_copy
  simp

/-- Once OverwriteAll or SkipAll is in force no later entry raises an
overwrite query, and the decision stays in force. -/
theorem loop_flags (fuel : Nat) (env : Env) (za : Zip) (D : QString) (pp rr : Bool) (n : Nat)
    (items : List ExtractItem) :
    ∀ (i : Nat) (q : Plugin) (b' : Bool) (q' : Plugin),
    (q.m_overwriteAll = true ∨ (q.m_skipAll = true ∧ q.m_overwriteAll = false)) →
    extractLoop fuel env za D pp rr n items i q = some (b', q') →
    (q.m_overwriteAll = true → q'.m_overwriteAll = true) ∧
    (q.m_skipAll = true ∧ q.m_overwriteAll = false →
      q'.m_skipAll = true ∧ q'.m_overwriteAll = false) ∧
    overwriteQueryCount q'.log = overwriteQueryCount q.log ∧
    q'.overwriteReplies = q.overwriteReplies := by
  induction items with
  | nil =>
    intro i q b' q' _ h
    simp [extractLoop] at h
    obtain ⟨_, h⟩ := h
    subst h
    exact ⟨id, id, rfl, rfl⟩
  | cons it items ih =>
    intro i q b' q' hq h
    rw [extractLoop_cons] at h
    split at h
    · simp at h
      obtain ⟨_, h⟩ := h
      subst h
      exact ⟨id, id, rfl, rfl⟩
    · cases hs : extractEntry fuel env za it.entry it.rootNode D pp rr (q.poll env).2 with
      | none => simp [hs] at h
      | some res =>
        obtain ⟨c, q1⟩ := res
        obtain ⟨_, _, usedO, usedP, s3, _, s5, _, _, s8, s9, s10, _, _⟩ :=
          step_frame _ _ _ _ _ _ _ _ _ _ _ hs
        have hu : usedO = [] := by
          apply s10
          rcases hq with hq | hq
          · exact Or.inl hq
          · exact Or.inr hq.1
        subst hu
        simp only [List.nil_append, poll_snd_overwriteReplies, List.length_nil, Nat.add_zero,
          poll_snd_log, poll_snd_overwriteAll, poll_snd_skipAll] at s3 s5 s8 s9
        cases c with
        | false =>
          simp [hs] at h
          obtain ⟨_, h⟩ := h
          subst h
          exact ⟨s8, fun hh => s9 hh.1 hh.2, s5, s3.symm⟩
        | true =>
          simp only [hs] at h
          have hq1 : ((q1.emit (.progress ⟨i + 1, n⟩)).emit (.progress_filename it.name)).m_overwriteAll
                = true ∨
              (((q1.emit (.progress ⟨i + 1, n⟩)).emit (.progress_filename it.name)).m_skipAll = true ∧
               ((q1.emit (.progress ⟨i + 1, n⟩)).emit (.progress_filename it.name)).m_overwriteAll
                = false) := by
            rcases hq with hq | hq
            · exact Or.inl (s8 hq)
            · exact Or.inr (s9 hq.1 hq.2)
          obtain ⟨g1, g2, g3, g4⟩ := ih _ _ _ _ hq1 h
          refine ⟨fun hh => g1 (s8 hh), fun hh => g2 (s9 hh.1 hh.2), ?_, ?_⟩
          · rw [g3]; simpa [Event.isOverwriteQuery] using s5
          · rw [g4]; simpa using s3.symm


/-! ## Lemmas: an entry delivered in several reads -/

/-- The copy loop when the store delivers what is left of the entry in the
non-empty chunks `chunks`, one at a read, and each is written completely: it
ends with the chunks appended to the destination file. -/
theorem copy_chunks (env : Env) (index : Nat) (d : QString) (size : Nat) :
    ∀ (chunks : List (List Nat)) (fuel k sum : Nat) (p : Plugin) (content : List Nat),
    chunks.length ≤ fuel →
    (∀ j c, chunks[j]? = some c →
      env.zip_fread index (k + j) 1000 = .bytes c ∧ env.writeRawData d c = c.length) →
    (∀ c ∈ chunks, c ≠ []) →
    sum + chunks.flatten.length = size → size < 18446744073709551616 →
    p.fs.files.lookup d = some content →
    ∃ Q, extractEntry_copy env index d size fuel k sum p = some (true, Q) ∧
      Q.fs.files.lookup d = some (content ++ chunks.flatten) := by
  intro chunks
  induction chunks with
  | nil =>
    intro fuel k sum p content _ _ _ hsum _ hc
    have : sum = size := by simpa using hsum
    subst this
    exact ⟨p, copy_done _ _ _ _ _ _ _, by simpa using hc⟩
  | cons c cs ih =>
    intro fuel k sum p content hfuel hread hne hsum hlt hc
    have hc0 : c ≠ [] := hne c (List.mem_cons_self _ _)
    have hlen : 0 < c.length := List.length_pos.mpr hc0
    simp only [List.flatten_cons, List.length_append] at hsum
    obtain ⟨n, hn⟩ : ∃ n, fuel = n + 1 := ⟨fuel - 1, by simp at hfuel; omega⟩
    subst hn
    obtain ⟨hr, hw⟩ := hread 0 c (by simp)
    rw [Nat.add_zero] at hr
    unfold extractEntry_copy
    have hneq : ¬ (sum = size) := by omega
    simp only [hneq, if_false, hr, ReadResult.ret, ReadResult.data, hw]
    have hnn : ¬ ((c.length : Int) < 0) := by omega
    simp only [hnn, if_false, bne_self_eq_false, Bool.false_eq_true, Int.toNat_ofNat,
      List.take_length]
    have hmod : (sum + c.length) % 18446744073709551616 = sum + c.length :=
      Nat.mod_eq_of_lt (by omega)
    rw [hmod]
    obtain ⟨Q, hQ1, hQ2⟩ := ih n (k + 1) (sum + c.length)
      { p.emit (.fileWrite d c) with fs := p.fs.append d c } (content ++ c)
      (by simp at hfuel; omega)
      (fun j c' hj => by
        have := hread (j + 1) c' (by simpa using hj)
        rw [show k + (j + 1) = k + 1 + j by omega] at this
        exact this)
      (fun c' hc' => hne c' (List.mem_cons_of_mem _ hc'))
      (by omega) hlt
      (by
        show (p.fs.append d c).files.lookup d = some (content ++ c)
        rw [append_lookup_eq, hc]; rfl)
    exact ⟨Q, hQ1, by rw [hQ2]; simp⟩

/-- The file extraction when the store opens the entry, the destination opens
for writing, and the reads deliver the declared size in non-empty chunks, each
written completely: it succeeds and the destination holds exactly the bytes
read, in order. -/
theorem file_chunks (fuel : Nat) (env : Env) (za : Zip) (e d parentDir : QString) (r : Bool)
    (st : ZipStat) (pm : Nat) (P : Plugin) (idx : Nat) (chunks : List (List Nat))
    (hfuel : chunks.length ≤ fuel)
    (hopen : zip_fopen env za e P.m_password = (.ok, idx))
    (hfile : env.open_ok d = true)
    (hread : ∀ j c, chunks[j]? = some c →
      env.zip_fread idx j 1000 = .bytes c ∧ env.writeRawData d c = c.length)
    (hne : ∀ c ∈ chunks, c ≠ [])
    (hsize : chunks.flatten.length = st.size) (hlt : st.size < 18446744073709551616) :
    ∃ Q, extractEntry_file fuel env za e d parentDir r st pm P = some (true, Q) ∧
      Q.fs.files.lookup d = some chunks.flatten := by
  have hloc : zip_name_locate za e = some idx := by
    unfold zip_fopen at hopen
    cases hl : zip_name_locate za e with
    | none => simp [hl] at hopen
    | some i => simp [hl] at hopen; rw [hopen.2]
  obtain ⟨slot, hslot, _, _⟩ := zip_name_locate_spec za e idx hloc
  have hattr : zip_file_get_external_attributes za idx = some (slot.opsys, slot.attributes) := by
    simp [zip_file_get_external_attributes, hslot]
  have hpw : extractEntry_password env za e P.passwordReplies true P = some (.go idx P) := by
    unfold extractEntry_password
    simp [hopen]
  obtain ⟨Q, hQ1, hQ2⟩ := copy_chunks env idx d st.size chunks fuel 0 0
    (extractEntry_opened d P) [] hfuel
    (fun j c hj => by rw [Nat.zero_add]; exact hread j c hj) hne
    (by rw [Nat.zero_add]; exact hsize) hlt (truncate_lookup_eq _ _)
  refine ⟨extractEntry_times d parentDir r st.mtime pm Q, ?_, ?_⟩
  · unfold extractEntry_file
    simp only [hpw]
    unfold extractEntry_write
    simp [hfile, hQ1, hloc, hattr]
  · rw [(times_frame d parentDir r st.mtime pm Q).2.2.2.2.2.2.1]
    simpa using hQ2


/-- The answers the loop of `extractFiles` consumes on a part of the batch:
once OverwriteAll or SkipAll is among them, the decision is in force. -/
theorem extractLoop_used (fuel : Nat) (env : Env) (za : Zip) (D : QString) (pp rr : Bool)
    (n : Nat) (items : List ExtractItem) :
    ∀ (i : Nat) (p : Plugin) (b : Bool) (q : Plugin),
    extractLoop fuel env za D pp rr n items i p = some (b, q) →
    ∃ used, p.overwriteReplies = used ++ q.overwriteReplies ∧
      (p.m_overwriteAll = true → q.m_overwriteAll = true) ∧
      (p.m_skipAll = true → p.m_overwriteAll = false →
        q.m_skipAll = true ∧ q.m_overwriteAll = false) ∧
      (OverwriteReply.overwriteAll ∈ used → q.m_overwriteAll = true) ∧
      (OverwriteReply.autoSkip ∈ used → q.m_skipAll = true ∧ q.m_overwriteAll = false) := by
  induction items with
  | nil =>
    intro i p b q h
    simp [extractLoop] at h
    obtain ⟨_, h⟩ := h
    subst h
    exact ⟨[], by simp, id, fun a b => ⟨a, b⟩, by simp, by simp⟩
  | cons it items ih =>
    intro i p b q h
    rw [extractLoop_cons] at h
    split at h
    · simp at h
      obtain ⟨_, h⟩ := h
      subst h
      exact ⟨[], by simp, id, fun a b => ⟨a, b⟩, by simp, by simp⟩
    · cases hs : extractEntry fuel env za it.entry it.rootNode D pp rr (p.poll env).2 with
      | none => simp [hs] at h
      | some res =>
        obtain ⟨c, q1⟩ := res
        obtain ⟨_, _, usedO, usedP, s3, _, _, _, _, s8, s9, _, s11, s12⟩ :=
          step_frame _ _ _ _ _ _ _ _ _ _ _ hs
        simp only [poll_snd_overwriteReplies, poll_snd_overwriteAll, poll_snd_skipAll]
          at s3 s8 s9
        cases c with
        | false =>
          simp [hs] at h
          obtain ⟨_, h⟩ := h
          subst h
          exact ⟨usedO, s3, s8, s9, s11, s12⟩
        | true =>
          simp only [hs] at h
          obtain ⟨used, g1, g2, g3, g4, g5⟩ := ih _ _ _ _ h
          simp only [emit_overwriteReplies, emit_overwriteAll, emit_skipAll] at g1 g2 g3
          refine ⟨usedO ++ used, by rw [List.append_assoc, ← g1]; exact s3,
            fun hh => g2 (s8 hh), fun h1 h2 => ?_, ?_, ?_⟩
          · obtain ⟨a, b⟩ := s9 h1 h2
            exact g3 a b
          · intro hm
            rcases List.mem_append.mp hm with hm | hm
            · exact g2 (s11 hm)
            · exact g4 hm
          · intro hm
            rcases List.mem_append.mp hm with hm | hm
            · obtain ⟨a, b⟩ := s12 hm
              exact g3 a b
            · exact g5 hm


/-! ## Lemmas: the Rename answers of one call -/

/-- A Rename keeps the directory of the destination. -/
theorem path_renamed (earlier : List OverwriteReply) :
    ∀ (d : QString), QFileInfo.path (extractEntry_renamed d earlier) = QFileInfo.path d := by
  induction earlier with
  | nil => intro d; rfl
  | cons a rest ih =>
    intro d
    cases a <;> simp only [extractEntry_renamed, ih]
    exact path_rename d _ (fileName_spec _).1

/-- One Rename answer, whatever the state of the loop over existing
destination files: the loop goes on with the new destination. -/
theorem overwrite_rename (entry newName : QString) (rest : List OverwriteReply)
    (c ren : QString) (P : Plugin)
    (hoa : P.m_overwriteAll = false) (hsa : P.m_skipAll = false)
    (hex : P.fs.pathExists c = true) :
    extractEntry_overwrite entry (.rename newName :: rest) c ren P =
      extractEntry_overwrite entry rest
        (QFileInfo.path c ++ [separator] ++ QFileInfo.fileName newName)
        (QFileInfo.path entry ++ [separator] ++ QFileInfo.fileName newName)
        { P.emit (.userQuery (.overwrite ren)) with overwriteReplies := rest } := by
  conv_lhs => unfold extractEntry_overwrite
  simp [hoa, hsa, hex]

/-- An answer of no known kind: the loop asks again about the same destination. -/
theorem overwrite_other (entry : QString) (rest : List OverwriteReply)
    (c ren : QString) (P : Plugin)
    (hoa : P.m_overwriteAll = false) (hsa : P.m_skipAll = false)
    (hex : P.fs.pathExists c = true) :
    extractEntry_overwrite entry (.other :: rest) c ren P =
      extractEntry_overwrite entry rest c ren
        { P.emit (.userQuery (.overwrite ren)) with overwriteReplies := rest } := by
  conv_lhs => unfold extractEntry_overwrite
  simp [hoa, hsa, hex]

/-- A destination that does not exist ends the loop without a query. -/
theorem overwrite_free (entry : QString) (replies : List OverwriteReply) (c ren : QString)
    (P : Plugin) (hex : P.fs.pathExists c = false) :
    extractEntry_overwrite entry replies c ren P = some (.go c P) := by
  unfold extractEntry_overwrite
  simp [hex]

/-- The answers `earlier`, each of which makes the loop ask again, lead the
loop to the destination `extractEntry_renamed d earlier`; nothing but the log
and the pending answers has changed. -/
theorem overwrite_trail (entry : QString) (tail : List OverwriteReply) :
    ∀ (earlier : List OverwriteReply) (d ren : QString) (P : Plugin),
    P.m_overwriteAll = false → P.m_skipAll = false →
    (∀ a ∈ earlier, a = .other ∨ ∃ n, a = .rename n) →
    (∀ k, k ≤ earlier.length →
      P.fs.pathExists (extractEntry_renamed d (earlier.take k)) = true) →
    ∃ ren' P', extractEntry_overwrite entry (earlier ++ tail) d ren P
        = extractEntry_overwrite entry tail (extractEntry_renamed d earlier) ren' P' ∧
      P'.fs = P.fs ∧ P'.m_overwriteAll = false ∧ P'.m_skipAll = false ∧
      P'.m_password = P.m_password ∧ P'.passwordReplies = P.passwordReplies ∧
      (∀ f, writeCount f P'.log = writeCount f P.log) ∧
      overwriteQueryCount P'.log = overwriteQueryCount P.log + earlier.length := by
  intro earlier
  induction earlier with
  | nil =>
    intro d ren P hoa hsa _ _
    exact ⟨ren, P, rfl, rfl, hoa, hsa, rfl, rfl, fun _ => rfl, rfl⟩
  | cons a rest ih =>
    intro d ren P hoa hsa hk ht
    have hex : P.fs.pathExists d = true := by simpa [extractEntry_renamed] using ht 0 (by simp)
    have hk' : ∀ b ∈ rest, b = OverwriteReply.other ∨ ∃ n, b = OverwriteReply.rename n :=
      fun b hb => hk b (List.mem_cons_of_mem _ hb)
    rcases hk a (List.mem_cons_self _ _) with ha | ⟨n, ha⟩
    · subst ha
      obtain ⟨ren', P', h1, h2, h3, h4, h5, h6, h7, h8⟩ := ih d ren
        { P.emit (.userQuery (.overwrite ren)) with overwriteReplies := rest ++ tail } hoa hsa hk'
        (fun k hk0 => by simpa [extractEntry_renamed] using ht (k + 1) (by simpa using hk0))
      refine ⟨ren', P', ?_, h2, h3, h4, h5, h6, ?_, ?_⟩
      · rw [List.cons_append, overwrite_other entry _ d ren P hoa hsa hex, h1]
        rfl
      · intro f; rw [h7 f]; simp [Event.writesTo]
      · rw [h8]; simp [Event.isOverwriteQuery]; omega
    · subst ha
      obtain ⟨ren', P', h1, h2, h3, h4, h5, h6, h7, h8⟩ := ih
        (QFileInfo.path d ++ [separator] ++ QFileInfo.fileName n)
        (QFileInfo.path entry ++ [separator] ++ QFileInfo.fileName n)
        { P.emit (.userQuery (.overwrite ren)) with overwriteReplies := rest ++ tail } hoa hsa hk'
        (fun k hk0 => by simpa [extractEntry_renamed] using ht (k + 1) (by simpa using hk0))
      refine ⟨ren', P', ?_, h2, h3, h4, h5, h6, ?_, ?_⟩
      · rw [List.cons_append, overwrite_rename entry n _ d ren P hoa hsa hex, h1]
        rfl
      · intro f; rw [h7 f]; simp [Event.writesTo]
      · rw [h8]; simp [Event.isOverwriteQuery]; omega

/-! ## Lemmas: progress values and errors of the listing and of the commit -/

@[simp] theorem progressValues_append (l l' : List Event) :
    progressValues (l ++ l') = progressValues l ++ progressValues l' := by
  simp [progressValues, List.filterMap_append]

@[simp] theorem progressValues_nil : progressValues [] = [] := rfl

@[simp] theorem progressValues_cons (ev : Event) (l : List Event) :
    progressValues (ev :: l) =
      (match ev with
        | .progress f => [f]
        | _ => []) ++ progressValues l := by
  cases ev <;> rfl

theorem statHints_quiet (st : ZipStat) :
    progressValues (statHints st) = [] ∧ errorCount (statHints st) = 0 := by
  unfold statHints
  constructor <;> (split <;> split <;> (try split) <;> (try split) <;> simp [Event.isError])

/-- What `emitEntryForIndex` does to the plugin, whatever it returns: it adds
events to the log, none of them a progress value or an error. -/
theorem emitEntryForIndex_log (za : Zip) (i : Nat) (p : Plugin) :
    ∃ evs, (emitEntryForIndex za i p).2 = { p with log := p.log ++ evs } ∧
      progressValues evs = [] ∧ errorCount evs = 0 := by
  unfold emitEntryForIndex zip_stat_index zip_file_get_external_attributes
  cases h : za.entries[i]? with
  | none => exact ⟨[], by simp, rfl, rfl⟩
  | some e =>
    by_cases hd : e.deleted = true
    · simp only [hd, if_true]
      exact ⟨[], by simp, rfl, rfl⟩
    · simp only [hd, Bool.false_eq_true, if_false]
      refine ⟨statHints e.stat ++ [Event.entry (withPermissions (statEntry e.stat) e.opsys
        e.attributes)], ?_, ?_, ?_⟩
      · simp [Plugin.emit, List.append_assoc]
      · simp [(statHints_quiet e.stat).1]
      · simp [(statHints_quiet e.stat).2, Event.isError]

/-- The loop of `list`, no interruption being requested: one progress value
`(i + 1) / nofEntries` for each index, no error, one poll each. -/
theorem listLoop_progress (env : Env) (za : Zip) (n : Nat) (idxs : List Nat) :
    ∀ (p : Plugin),
    (∀ j, j < idxs.length → env.interruptionRequested (p.polls + j) = false) →
    progressValues (listLoop env za n idxs p).log =
      progressValues p.log ++ idxs.map (fun i => (⟨i + 1, n⟩ : Fraction)) ∧
    errorCount (listLoop env za n idxs p).log = errorCount p.log ∧
    (listLoop env za n idxs p).polls = p.polls + idxs.length := by
  induction idxs with
  | nil => intro p _; simp [listLoop]
  | cons i rest ih =>
    intro p hint
    have h0 : env.interruptionRequested p.polls = false := by
      simpa using hint 0 (by simp)
    obtain ⟨evs, he, hp, hr⟩ := emitEntryForIndex_log za i (p.poll env).2
    unfold listLoop
    simp only [poll_fst, h0, Bool.false_eq_true, if_false, he]
    obtain ⟨i1, i2, i3⟩ := ih (Plugin.emit { (p.poll env).2 with log := (p.poll env).2.log ++ evs }
      (.progress ⟨i + 1, n⟩)) (by
        intro j hj
        have := hint (j + 1) (by simp; omega)
        simpa [Nat.add_assoc, Nat.add_comm 1 j] using this)
    rw [i1, i2, i3]
    simp only [emit_log, poll_snd_log, progressValues_append, hp, errorCount_append, hr,
      emit_polls, poll_snd_polls, List.map_cons, List.length_cons, List.append_nil,
      List.append_assoc]
    refine ⟨rfl, ?_, by omega⟩
    simp [errorCount, Event.isError]

/-- The progress values of a whole listing, no interruption being requested. -/
theorem list_progress (env : Env) (p : Plugin) (za : Zip) (hopen : p.archiveFile = some za)
    (hint : ∀ j, j < za.entries.length → env.interruptionRequested (p.polls + j) = false) :
    (list env p).1 = true ∧
    progressValues (list env p).2.log =
      progressValues p.log ++
        (List.range za.entries.length).map (fun i => (⟨i + 1, za.entries.length⟩ : Fraction)) ∧
    errorCount (list env p).2.log = errorCount p.log := by
  obtain ⟨h1, h2, _⟩ := listLoop_progress env za za.entries.length (List.range za.entries.length)
    { p with m_numberOfEntries := 0, m_comment := za.comment } (by simpa using hint)
  unfold list
  simp only [zip_get_num_entries]
  split
  · rename_i h0
    rw [hopen] at h0
    exact absurd h0 (by simp)
  · rename_i za' h0
    rw [hopen] at h0
    injection h0 with h0
    subst h0
    exact ⟨rfl, h1, h2⟩

/-- One call of `emitProgress`: the value goes out as it came in. -/
theorem emitProgress_log (f : Fraction) (p : Plugin) :
    ∃ evs, emitProgress f p = { p with log := p.log ++ evs } ∧
      progressValues evs = [f] ∧ errorCount evs = 0 := by
  unfold emitProgress
  dsimp only
  split
  · rename_i za _
    exact ⟨[.progress_filename (zip_get_name za (p.m_filesize * f.num / f.den)), .progress f],
      by simp [Plugin.emit], rfl, rfl⟩
  · exact ⟨[.progress f], rfl, rfl, rfl⟩

/-- The calls of the progress callback during a commit: the values of the
store go out unchanged, in order. -/
theorem commitProgress_log (env : Env) (p : Plugin) :
    ∃ evs, commitProgress env p = { p with log := p.log ++ evs } ∧
      progressValues evs = env.writeProgress ∧ errorCount evs = 0 := by
  unfold commitProgress progressCallback
  generalize env.writeProgress = fs
  induction fs generalizing p with
  | nil => exact ⟨[], by simp, rfl, rfl⟩
  | cons f rest ih =>
    obtain ⟨e1, h1, p1, r1⟩ := emitProgress_log f p
    obtain ⟨e2, h2, p2, r2⟩ := ih { p with log := p.log ++ e1 }
    refine ⟨e1 ++ e2, ?_, ?_, ?_⟩
    · simp only [List.foldl_cons, h1, h2, List.append_assoc]
    · simp [p1, p2]
    · simp [r1, r2]

/-! ## Lemmas: failures of `addFiles` -/

@[simp] theorem lastIsError_snoc (l : List Event) (k : ErrorKind) :
    lastIsError (l ++ [Event.error k]) = true := by
  simp [lastIsError]

/-- Emitting an error from a state that has seen no new error is a failure
with exactly one error, the last event. -/
theorem failedWithError_emit (p q : Plugin) (k : ErrorKind)
    (h : errorCount q.log = errorCount p.log) : failedWithError p (q.emit (.error k)) := by
  unfold failedWithError
  simp [h, Event.isError]

theorem failedWithError_log (p p' : Plugin) (l : List Event) (k : ErrorKind)
    (h : p'.log = l ++ [Event.error k]) (hl : errorCount l = errorCount p.log) :
    failedWithError p p' := by
  unfold failedWithError
  rw [h]
  simp [hl, Event.isError]

/-- The two ways `writeEntry` ends: true with the plugin untouched, or false
after one error. -/
theorem writeEntry_log (env : Env) (za : Zip) (file : QString) (destination : Option Entry)
    (options : CompressionOptions) (isDir : Bool) (p : Plugin) :
    (∃ zb, writeEntry env za file destination options isDir p = (true, zb, p)) ∨
    (∃ zb k, writeEntry env za file destination options isDir p
      = (false, zb, p.emit (.error k))) := by
  unfold writeEntry
  dsimp only
  split
  · split
    · exact Or.inl ⟨_, rfl⟩
    · exact Or.inr ⟨_, _, rfl⟩
  · split
    · exact Or.inr ⟨_, _, rfl⟩
    · exact Or.inl ⟨_, rfl⟩

/-- The loop over the content of a directory: it only polls, unless it fails,
and then the failure is one error emitted last. -/
theorem addFiles_dir_frame (env : Env) (destination : Option Entry)
    (options : CompressionOptions) (paths : List QString) :
    ∀ (i : Nat) (za : Zip) (p : Plugin) (r : Option Zip) (i' : Nat) (p' : Plugin),
    addFiles_dir env destination options paths i za p = (r, i', p') →
    p.polls ≤ p'.polls ∧ p'.archiveFile = p.archiveFile ∧
    (r ≠ none → p'.log = p.log) ∧
    (r = none → ∃ k, p'.log = p.log ++ [Event.error k]) := by
  induction paths with
  | nil =>
    intro i za p r i' p' h
    unfold addFiles_dir at h
    simp only [Plugin.poll] at h
    split at h <;>
    · simp only [Prod.mk.injEq] at h
      obtain ⟨h1, _, h3⟩ := h
      subst h1; subst h3
      exact ⟨by simp, rfl, fun _ => rfl, fun hn => by simp at hn⟩
  | cons path rest ih =>
    intro i za p r i' p' h
    unfold addFiles_dir at h
    simp only [Plugin.poll] at h
    split at h
    · simp only [Prod.mk.injEq] at h
      obtain ⟨h1, _, h3⟩ := h
      subst h1; subst h3
      exact ⟨by simp, rfl, fun _ => rfl, fun hn => by simp at hn⟩
    · rcases writeEntry_log env za path destination options (env.isDir path)
        { p with polls := p.polls + 1 } with ⟨zb, hw⟩ | ⟨zb, k, hw⟩
      · rw [hw] at h
        simp only at h
        obtain ⟨g1, g2, g3, g4⟩ := ih _ _ _ _ _ _ h
        exact ⟨by simp at g1; omega, g2, g3, g4⟩
      · rw [hw] at h
        simp only [Prod.mk.injEq] at h
        obtain ⟨h1, _, h3⟩ := h
        subst h1; subst h3
        exact ⟨by simp, rfl, fun hn => by simp at hn, fun _ => ⟨k, rfl⟩⟩

/-- The loop of `addFiles`: it only polls, unless it fails, and then the
failure is one error emitted last. -/
theorem addFiles_loop_frame (env : Env) (destination : Option Entry)
    (options : CompressionOptions) (files : List Entry) :
    ∀ (i : Nat) (za : Zip) (p : Plugin) (r : Option Zip) (i' : Nat) (p' : Plugin),
    addFiles_loop env destination options files i za p = (r, i', p') →
    p.polls ≤ p'.polls ∧ p'.archiveFile = p.archiveFile ∧
    (r ≠ none → p'.log = p.log) ∧
    (r = none → ∃ k, p'.log = p.log ++ [Event.error k]) := by
  induction files with
  | nil =>
    intro i za p r i' p' h
    unfold addFiles_loop at h
    simp only [Prod.mk.injEq] at h
    obtain ⟨h1, _, h3⟩ := h
    subst h1; subst h3
    exact ⟨le_refl _, rfl, fun _ => rfl, fun hn => by simp at hn⟩
  | cons e rest ih =>
    intro i za p r i' p' h
    unfold addFiles_loop at h
    simp only [Plugin.poll] at h
    split at h
    · simp only [Prod.mk.injEq] at h
      obtain ⟨h1, _, h3⟩ := h
      subst h1; subst h3
      exact ⟨by simp, rfl, fun _ => rfl, fun hn => by simp at hn⟩
    · split at h
      · rcases writeEntry_log env za e.fullPath destination options true
          { p with polls := p.polls + 1 } with ⟨zb, hw⟩ | ⟨zb, k, hw⟩
        · rw [hw] at h
          simp only at h
          cases hd : addFiles_dir env destination options (env.dirIterator e.fullPath) i zb
            { p with polls := p.polls + 1 } with
          | mk rd rest2 =>
            obtain ⟨id, pd⟩ := rest2
            obtain ⟨d1, d2, d3, d4⟩ := addFiles_dir_frame env destination options _ _ _ _ _ _ _ hd
            rw [hd] at h
            cases rd with
            | none =>
              simp only [Prod.mk.injEq] at h
              obtain ⟨h1, _, h3⟩ := h
              subst h1; subst h3
              exact ⟨by simp at d1; omega, d2, fun hn => by simp at hn, fun _ => d4 rfl⟩
            | some zc =>
              simp only at h
              obtain ⟨g1, g2, g3, g4⟩ := ih _ _ _ _ _ _ h
              have hlog : pd.log = p.log := d3 (by simp)
              exact ⟨by simp at d1; omega, by rw [g2, d2], fun hn => by rw [g3 hn, hlog],
                fun hn => by obtain ⟨k, hk⟩ := g4 hn; exact ⟨k, by rw [hk, hlog]⟩⟩
        · rw [hw] at h
          simp only [Prod.mk.injEq] at h
          obtain ⟨h1, _, h3⟩ := h
          subst h1; subst h3
          exact ⟨by simp, rfl, fun hn => by simp at hn, fun _ => ⟨k, rfl⟩⟩
      · rcases writeEntry_log env za e.fullPath destination options false
          { p with polls := p.polls + 1 } with ⟨zb, hw⟩ | ⟨zb, k, hw⟩
        · rw [hw] at h
          simp only at h
          obtain ⟨g1, g2, g3, g4⟩ := ih _ _ _ _ _ _ h
          exact ⟨by simp at g1; omega, g2, g3, g4⟩
        · rw [hw] at h
          simp only [Prod.mk.injEq] at h
          obtain ⟨h1, _, h3⟩ := h
          subst h1; subst h3
          exact ⟨by simp, rfl, fun hn => by simp at hn, fun _ => ⟨k, rfl⟩⟩

/-- The end of `addFiles` fails only when the commit fails, with one error
emitted last. -/
theorem addFiles_finish_fail (env : Env) (za : Zip) (i : Nat) (p : Plugin)
    (h : (addFiles_finish env za i p).1 = false) :
    failedWithError p (addFiles_finish env za i p).2 := by
  obtain ⟨evs, he, _, hr⟩ := commitProgress_log env
    { p with m_filesize := i, m_addarchive := some za }
  unfold addFiles_finish zip_close_progress zip_close at h ⊢
  by_cases hc : env.zip_close_ok = true
  · simp [hc] at h
  · simp only [hc, Bool.false_eq_true, if_false]
    apply failedWithError_emit
    rw [he]
    simp [hr]

/-- A failing `addFiles` has emitted exactly one error, as its last event. -/
theorem addFiles_fail (env : Env) (files : List Entry) (destination : Option Entry)
    (options : CompressionOptions) (p : Plugin)
    (h : (addFiles env files destination options p).1 = false) :
    failedWithError p (addFiles env files destination options p).2 := by
  unfold addFiles at h ⊢
  cases ho : zip_open_create env p with
  | none => exact failedWithError_emit p p _ rfl
  | some za =>
    simp only [ho] at h ⊢
    cases hl : addFiles_loop env destination options files 0 za p with
    | mk r rest =>
      obtain ⟨i1, p1⟩ := rest
      obtain ⟨_, _, g3, g4⟩ := addFiles_loop_frame env destination options files _ _ _ _ _ _ hl
      rw [hl] at h
      cases r with
      | none =>
        obtain ⟨k, hk⟩ := g4 rfl
        exact failedWithError_log p p1 p.log k hk rfl
      | some zb =>
        simp only at h ⊢
        have hlog : p1.log = p.log := g3 (by simp)
        have := addFiles_finish_fail env zb i1 p1 h
        unfold failedWithError at this ⊢
        rw [← hlog]
        exact this

/-- The loop of `addFiles` over a list that starts with `pre`: when `pre` is
worked through without failure and no poll made on the way finds the
interruption requested, the loop goes on with the rest from the state `pre`
has led to. -/
theorem addFiles_loop_append (env : Env) (destination : Option Entry)
    (options : CompressionOptions) (pre : List Entry) :
    ∀ (rest : List Entry) (i : Nat) (za : Zip) (p : Plugin) (za1 : Zip) (i1 : Nat) (p1 : Plugin),
    addFiles_loop env destination options pre i za p = (some za1, i1, p1) →
    (∀ j, p.polls ≤ j → j < p1.polls → env.interruptionRequested j = false) →
    addFiles_loop env destination options (pre ++ rest) i za p
      = addFiles_loop env destination options rest i1 za1 p1 := by
  induction pre with
  | nil =>
    intro rest i za p za1 i1 p1 h _
    unfold addFiles_loop at h
    simp only [Prod.mk.injEq, Option.some.injEq] at h
    obtain ⟨h1, h2, h3⟩ := h
    subst h1; subst h2; subst h3
    rfl
  | cons e pre ih =>
    intro rest i za p za1 i1 p1 h hq
    have hmono := (addFiles_loop_frame env destination options (e :: pre) _ _ _ _ _ _ h).1
    rw [List.cons_append]
    unfold addFiles_loop at h
    conv_lhs => unfold addFiles_loop
    simp only [Plugin.poll] at h ⊢
    by_cases hs : env.interruptionRequested p.polls = true
    · simp only [hs, if_true, Prod.mk.injEq, Option.some.injEq] at h
      obtain ⟨_, _, h3⟩ := h
      subst h3
      have := hq p.polls (le_refl _) (by simp)
      rw [hs] at this
      exact absurd this (by simp)
    · simp only [hs, Bool.false_eq_true, if_false] at h ⊢
      split at h
      · rename_i hdir
        simp only [hdir, if_true]
        rcases writeEntry_log env za e.fullPath destination options true
          { p with polls := p.polls + 1 } with ⟨zb, hw⟩ | ⟨zb, k, hw⟩
        · rw [hw] at h ⊢
          simp only at h ⊢
          cases hd : addFiles_dir env destination options (env.dirIterator e.fullPath) i zb
            { p with polls := p.polls + 1 } with
          | mk rd rest2 =>
            obtain ⟨id, pd⟩ := rest2
            obtain ⟨d1, _, _, _⟩ := addFiles_dir_frame env destination options _ _ _ _ _ _ _ hd
            rw [hd] at h
            cases rd with
            | none => simp at h
            | some zc =>
              simp only at h ⊢
              exact ih rest _ _ _ _ _ _ h
                (fun j hj1 hj2 => hq j (by simp at d1; omega) hj2)
        · rw [hw] at h
          simp at h
      · rename_i hdir
        simp only [hdir, Bool.false_eq_true, if_false]
        rcases writeEntry_log env za e.fullPath destination options false
          { p with polls := p.polls + 1 } with ⟨zb, hw⟩ | ⟨zb, k, hw⟩
        · rw [hw] at h ⊢
          simp only at h ⊢
          exact ih rest _ _ _ _ _ _ h (fun j hj1 hj2 => hq j (by simp at hj1; omega) hj2)
        · rw [hw] at h
          simp at h

/-- The loop of `addFiles` about to work on an entry while the interruption is
requested: it stops there. -/
theorem addFiles_loop_interrupted (env : Env) (destination : Option Entry)
    (options : CompressionOptions) (e : Entry) (rest : List Entry) (i : Nat) (za : Zip)
    (p : Plugin) (h : env.interruptionRequested p.polls = true) :
    addFiles_loop env destination options (e :: rest) i za p = (some za, i, (p.poll env).2) := by
  unfold addFiles_loop
  simp [Plugin.poll, h]

/-- The loop over the content of a directory, finding the interruption
requested: it stops there, whatever is left of the directory. -/
theorem addFiles_dir_interrupted (env : Env) (destination : Option Entry)
    (options : CompressionOptions) (paths : List QString) (i : Nat) (za : Zip) (p : Plugin)
    (h : env.interruptionRequested p.polls = true) :
    addFiles_dir env destination options paths i za p = (some za, i, (p.poll env).2) := by
  cases paths <;>
  · unfold addFiles_dir
    simp [Plugin.poll, h]

/-! ## Lemmas: failures and interruption of the loops of `list`, `deleteFiles`,
`testArchive`, `moveFiles`, `copyFiles`, and of `addComment` -/

/-- A failure counted from a state is a failure counted from any state that
has seen as many errors. -/
theorem failedWithError_of_count (p q p' : Plugin) (h : errorCount q.log = errorCount p.log)
    (hf : failedWithError q p') : failedWithError p p' := by
  unfold failedWithError at hf ⊢
  rw [← h]
  exact hf

/-- One round of the loop of `deleteFiles`. -/
theorem deleteLoop_cons (env : Env) (total : Nat) (e : Entry) (rest : List Entry) (i : Nat)
    (za : Zip) (p : Plugin) :
    deleteLoop env total (e :: rest) i za p =
      if env.interruptionRequested p.polls then (some za, (p.poll env).2)
      else
        match zip_name_locate za e.fullPath with
        | none => (none, (p.poll env).2.emit (.error .deleteEntry))
        | some index =>
          match zip_delete env za index with
          | none => (none, (p.poll env).2.emit (.error .deleteEntry))
          | some za =>
            deleteLoop env total rest (i + 1) za
              (((p.poll env).2.emit (.entryRemoved e.fullPath)).emit (.progress ⟨i + 1, total⟩)) := by
  conv_lhs => unfold deleteLoop
  rfl

/-- One round of the loop of `testArchive`. -/
theorem testLoop_cons (env : Env) (za : Zip) (n : Int) (i : Nat) (rest : List Nat)
    (p : Plugin) :
    testLoop env za n (i :: rest) p =
      if env.interruptionRequested p.polls then (false, (p.poll env).2)
      else
        match zip_stat_index za i with
        | none => (false, (p.poll env).2)
        | some st =>
          if testEntryOk st (testRead env i st.size) then
            testLoop env za n rest ((p.poll env).2.emit (.progress ⟨i, n.toNat⟩))
          else (false, (p.poll env).2) := by
  conv_lhs => unfold testLoop
  rfl

/-- The loop of `deleteFiles`: a failure is one error emitted last. -/
theorem deleteLoop_frame (env : Env) (total : Nat) (files : List Entry) :
    ∀ (i : Nat) (za : Zip) (p : Plugin) (r : Option Zip) (p' : Plugin),
    deleteLoop env total files i za p = (r, p') →
    (r ≠ none → errorCount p'.log = errorCount p.log) ∧
    (r = none → failedWithError p p') := by
  induction files with
  | nil =>
    intro i za p r p' h
    unfold deleteLoop at h
    simp only [Prod.mk.injEq] at h
    obtain ⟨h1, h2⟩ := h
    subst h1; subst h2
    exact ⟨fun _ => rfl, fun hn => by simp at hn⟩
  | cons e rest ih =>
    intro i za p r p' h
    unfold deleteLoop at h
    simp only [Plugin.poll] at h
    split at h
    · simp only [Prod.mk.injEq] at h
      obtain ⟨h1, h2⟩ := h
      subst h1; subst h2
      exact ⟨fun _ => rfl, fun hn => by simp at hn⟩
    · split at h
      · simp only [Prod.mk.injEq] at h
        obtain ⟨h1, h2⟩ := h
        subst h1; subst h2
        exact ⟨fun hn => by simp at hn, fun _ => failedWithError_emit p _ _ rfl⟩
      · split at h
        · simp only [Prod.mk.injEq] at h
          obtain ⟨h1, h2⟩ := h
          subst h1; subst h2
          exact ⟨fun hn => by simp at hn, fun _ => failedWithError_emit p _ _ rfl⟩
        · obtain ⟨g1, g2⟩ := ih _ _ _ _ _ h
          have hc : errorCount (Plugin.emit (Plugin.emit { p with polls := p.polls + 1 }
              (.entryRemoved e.fullPath)) (.progress ⟨i + 1, total⟩)).log = errorCount p.log := by
            simp [Event.isError]
          exact ⟨fun hn => by rw [g1 hn, hc], fun hn => failedWithError_of_count _ _ _ hc (g2 hn)⟩

/-- The loop of `deleteFiles` over a list that starts with `pre`: when `pre` is
worked through without failure and without interruption, the loop goes on with
the rest from the state `pre` has led to. -/
theorem deleteLoop_append (env : Env) (total : Nat) (pre : List Entry) :
    ∀ (rest : List Entry) (i : Nat) (za : Zip) (p : Plugin) (za1 : Zip) (p1 : Plugin),
    deleteLoop env total pre i za p = (some za1, p1) →
    (∀ j, j < pre.length → env.interruptionRequested (p.polls + j) = false) →
    deleteLoop env total (pre ++ rest) i za p
      = deleteLoop env total rest (i + pre.length) za1 p1 ∧
    p1.polls = p.polls + pre.length := by
  induction pre with
  | nil =>
    intro rest i za p za1 p1 h _
    unfold deleteLoop at h
    simp only [Prod.mk.injEq, Option.some.injEq] at h
    obtain ⟨h1, h2⟩ := h
    subst h1; subst h2
    exact ⟨rfl, rfl⟩
  | cons e pre ih =>
    intro rest i za p za1 p1 h hq
    have h0 : env.interruptionRequested p.polls = false := by
      simpa using hq 0 (by simp)
    rw [List.cons_append, deleteLoop_cons]
    rw [deleteLoop_cons] at h
    simp only [h0, Bool.false_eq_true, if_false] at h ⊢
    cases hloc : zip_name_locate za e.fullPath with
    | none => simp [hloc] at h
    | some index =>
      simp only [hloc] at h ⊢
      cases hdel : zip_delete env za index with
      | none => simp [hdel] at h
      | some zb =>
        simp only [hdel] at h ⊢
        obtain ⟨g1, g2⟩ := ih rest _ _ _ _ _ h (by
          intro j hj
          have := hq (j + 1) (by simp; omega)
          simpa [Nat.add_assoc, Nat.add_comm 1 j] using this)
        refine ⟨?_, ?_⟩
        · rw [g1]
          simp only [List.length_cons]
          rw [Nat.add_assoc, Nat.add_comm 1 pre.length]
        · rw [g2]
          simp only [emit_polls, poll_snd_polls, List.length_cons]
          omega

/-- The loop of `deleteFiles` about to work on an entry while the interruption
is requested: it stops there. -/
theorem deleteLoop_interrupted (env : Env) (total : Nat) (e : Entry) (rest : List Entry)
    (i : Nat) (za : Zip) (p : Plugin) (h : env.interruptionRequested p.polls = true) :
    deleteLoop env total (e :: rest) i za p = (some za, (p.poll env).2) := by
  unfold deleteLoop
  simp [Plugin.poll, h]

/-- The loop of `list` over indices that start with `pre`, no interruption
being requested during `pre`. -/
theorem listLoop_append (env : Env) (za : Zip) (n : Nat) (pre : List Nat) :
    ∀ (rest : List Nat) (p : Plugin),
    (∀ j, j < pre.length → env.interruptionRequested (p.polls + j) = false) →
    listLoop env za n (pre ++ rest) p = listLoop env za n rest (listLoop env za n pre p) := by
  induction pre with
  | nil => intro rest p _; rfl
  | cons i pre ih =>
    intro rest p hq
    have h0 : env.interruptionRequested p.polls = false := by
      simpa using hq 0 (by simp)
    rw [List.cons_append]
    conv_lhs => unfold listLoop
    conv_rhs => rw [listLoop]
    simp only [Plugin.poll, h0, Bool.false_eq_true, if_false]
    apply ih
    intro j hj
    obtain ⟨evs, he, _, _⟩ := emitEntryForIndex_log za i { p with polls := p.polls + 1 }
    rw [he]
    have := hq (j + 1) (by simp; omega)
    simpa [Nat.add_assoc, Nat.add_comm 1 j] using this

/-- The loop of `list` about to work on an index while the interruption is
requested: it stops there. -/
theorem listLoop_interrupted (env : Env) (za : Zip) (n i : Nat) (rest : List Nat)
    (p : Plugin) (h : env.interruptionRequested p.polls = true) :
    listLoop env za n (i :: rest) p = (p.poll env).2 := by
  unfold listLoop
  simp [Plugin.poll, h]

/-- The loop of `testArchive` never emits an error. -/
theorem testLoop_errors (env : Env) (za : Zip) (n : Int) (idxs : List Nat) :
    ∀ p : Plugin, errorCount (testLoop env za n idxs p).2.log = errorCount p.log := by
  induction idxs with
  | nil => intro p; rfl
  | cons i rest ih =>
    intro p
    unfold testLoop
    simp only [Plugin.poll]
    split
    · rfl
    · split
      · rfl
      · split
        · rw [ih]
          simp [Event.isError]
        · rfl

/-- The loop of `testArchive` over indices that start with `pre`, worked
through without failure and without interruption. -/
theorem testLoop_append (env : Env) (za : Zip) (n : Int) (pre : List Nat) :
    ∀ (rest : List Nat) (p p1 : Plugin),
    testLoop env za n pre p = (true, p1) →
    (∀ j, j < pre.length → env.interruptionRequested (p.polls + j) = false) →
    testLoop env za n (pre ++ rest) p = testLoop env za n rest p1 ∧
    p1.polls = p.polls + pre.length := by
  induction pre with
  | nil =>
    intro rest p p1 h _
    unfold testLoop at h
    simp only [Prod.mk.injEq, true_and] at h
    subst h
    exact ⟨rfl, rfl⟩
  | cons i pre ih =>
    intro rest p p1 h hq
    have h0 : env.interruptionRequested p.polls = false := by
      simpa using hq 0 (by simp)
    rw [List.cons_append, testLoop_cons]
    rw [testLoop_cons] at h
    simp only [h0, Bool.false_eq_true, if_false] at h ⊢
    cases hst : zip_stat_index za i with
    | none => simp [hst] at h
    | some st =>
      simp only [hst] at h ⊢
      by_cases hok : testEntryOk st (testRead env i st.size) = true
      · simp only [hok, if_true] at h ⊢
        obtain ⟨g1, g2⟩ := ih rest _ _ h (by
          intro j hj
          have := hq (j + 1) (by simp; omega)
          simpa [Nat.add_assoc, Nat.add_comm 1 j] using this)
        refine ⟨g1, ?_⟩
        rw [g2]
        simp only [emit_polls, poll_snd_polls, List.length_cons]
        omega
      · simp [hok] at h

/-- The loop of `testArchive` about to work on an entry while the interruption
is requested: the function returns false there. -/
theorem testLoop_interrupted (env : Env) (za : Zip) (n : Int) (i : Nat) (rest : List Nat)
    (p : Plugin) (h : env.interruptionRequested p.polls = true) :
    testLoop env za n (i :: rest) p = (false, (p.poll env).2) := by
  unfold testLoop
  simp [Plugin.poll, h]

/-! ## Lemmas: failures of whole operations -/

/-- A failing `list` has emitted exactly one error, as its last event. -/
theorem list_fail (env : Env) (p : Plugin) (h : (list env p).1 = false) :
    failedWithError p (list env p).2 := by
  unfold list at h ⊢
  dsimp only at h ⊢
  split
  · exact failedWithError_emit p _ _ rfl
  · rename_i za hz
    simp [hz] at h

/-- A failing `deleteFiles` has emitted exactly one error, as its last event. -/
theorem deleteFiles_fail (env : Env) (files : List Entry) (p : Plugin)
    (h : (deleteFiles env files p).1 = false) :
    failedWithError p (deleteFiles env files p).2 := by
  unfold deleteFiles at h ⊢
  cases ho : p.archiveFile with
  | none => exact failedWithError_emit p p _ rfl
  | some za =>
    simp only [ho] at h ⊢
    cases hl : deleteLoop env files.length files 0 za p with
    | mk r p1 =>
      obtain ⟨g1, g2⟩ := deleteLoop_frame env _ files _ _ _ _ _ hl
      rw [hl] at h
      cases r with
      | none => exact g2 rfl
      | some zb =>
        simp only at h ⊢
        unfold zip_close at h ⊢
        by_cases hc : env.zip_close_ok = true
        · simp [hc] at h
        · simp only [hc, Bool.false_eq_true, if_false]
          exact failedWithError_emit p p1 _ (g1 (by simp))

/-- The loop of `moveFiles`: it never polls, and a failure is one error
emitted last. -/
theorem moveFiles_loop_frame (env : Env) (destPaths : List QString) (count : Nat)
    (paths : List QString) :
    ∀ (i : Nat) (za : Zip) (p : Plugin) (r : Option Zip) (p' : Plugin),
    moveFiles_loop env destPaths count paths i za p = (r, p') →
    p'.polls = p.polls ∧
    (r ≠ none → errorCount p'.log = errorCount p.log) ∧
    (r = none → failedWithError p p') := by
  induction paths with
  | nil =>
    intro i za p r p' h
    unfold moveFiles_loop at h
    simp only [Prod.mk.injEq] at h
    obtain ⟨h1, h2⟩ := h
    subst h1; subst h2
    exact ⟨rfl, fun _ => rfl, fun hn => by simp at hn⟩
  | cons path rest ih =>
    intro i za p r p' h
    unfold moveFiles_loop at h
    dsimp only at h
    split_ifs at h
    · simp only [Prod.mk.injEq] at h
      obtain ⟨h1, h2⟩ := h
      subst h1; subst h2
      exact ⟨rfl, fun hn => by simp at hn, fun _ => failedWithError_emit p _ _ rfl⟩
    · split at h
      · simp only [Prod.mk.injEq] at h
        obtain ⟨h1, h2⟩ := h
        subst h1; subst h2
        exact ⟨rfl, fun hn => by simp at hn, fun _ => failedWithError_emit p _ _ rfl⟩
      · rename_i zb _
        obtain ⟨evs, he, _, hr⟩ := emitEntryForIndex_log zb (toUInt64 (locateInt za path))
          (p.emit (.entryRemoved path))
        rw [he] at h
        obtain ⟨g0, g1, g2⟩ := ih _ _ _ _ _ h
        have hc : errorCount (Plugin.emit { p.emit (.entryRemoved path) with
            log := (p.emit (.entryRemoved path)).log ++ evs }
              (.progress ⟨i / count, 1⟩)).log = errorCount p.log := by
          simp [Event.isError, hr]
        exact ⟨by rw [g0]; rfl, fun hn => by rw [g1 hn, hc],
          fun hn => failedWithError_of_count _ _ _ hc (g2 hn)⟩

/-- A failing `moveFiles` has emitted exactly one error, as its last event. -/
theorem moveFiles_fail (env : Env) (filePaths destPaths : List QString) (p : Plugin)
    (h : (moveFiles env filePaths destPaths p).1 = false) :
    failedWithError p (moveFiles env filePaths destPaths p).2 := by
  unfold moveFiles at h ⊢
  cases ho : p.archiveFile with
  | none => exact failedWithError_emit p p _ rfl
  | some za =>
    simp only [ho] at h ⊢
    cases hl : moveFiles_loop env destPaths filePaths.length filePaths 0 za p with
    | mk r p1 =>
      obtain ⟨_, g1, g2⟩ := moveFiles_loop_frame env _ _ filePaths _ _ _ _ _ hl
      rw [hl] at h
      cases r with
      | none => exact g2 rfl
      | some zb =>
        simp only at h ⊢
        unfold zip_close at h ⊢
        by_cases hc : env.zip_close_ok = true
        · simp [hc] at h
        · simp only [hc, Bool.false_eq_true, if_false]
          exact failedWithError_emit p p1 _ (g1 (by simp))

/-- One entry of `copyFiles`: it leaves the plugin as it is, unless it fails;
a failure is one error emitted last, or the silent return after
`zip_source_zip` has given no source. -/
theorem copyFiles_entry_frame (env : Env) (za : Zip) (path dest : QString) (p : Plugin)
    (r : Option Zip) (p' : Plugin) (h : copyFiles_entry env za path dest p = (r, p')) :
    (r ≠ none → p' = p) ∧
    (r = none → failedWithError p p' ∨
      (locateInt za path ≠ -1 ∧ zip_source_zip env za (toUInt64 (locateInt za path)) = none)) := by
  unfold copyFiles_entry at h
  dsimp only at h
  split_ifs at h with hloc
  · simp only [Prod.mk.injEq] at h
    obtain ⟨h1, h2⟩ := h
    subst h1; subst h2
    exact ⟨fun hn => by simp at hn, fun _ => Or.inl (failedWithError_emit p p _ rfl)⟩
  · split at h
    · rename_i hsrc
      simp only [Prod.mk.injEq] at h
      obtain ⟨h1, h2⟩ := h
      subst h1; subst h2
      exact ⟨fun hn => by simp at hn, fun _ => Or.inr ⟨hloc, hsrc⟩⟩
    · split_ifs at h
      · simp only [Prod.mk.injEq] at h
        obtain ⟨h1, h2⟩ := h
        subst h1; subst h2
        exact ⟨fun hn => by simp at hn, fun _ => Or.inl (failedWithError_emit p p _ rfl)⟩
      · split at h
        · simp only [Prod.mk.injEq] at h
          obtain ⟨h1, h2⟩ := h
          subst h1; subst h2
          exact ⟨fun hn => by simp at hn, fun _ => Or.inl (failedWithError_emit p p _ rfl)⟩
        · split at h
          · simp only [Prod.mk.injEq] at h
            obtain ⟨h1, h2⟩ := h
            subst h1; subst h2
            exact ⟨fun hn => by simp at hn, fun _ => Or.inl (failedWithError_emit p p _ rfl)⟩
          · simp only [Prod.mk.injEq] at h
            obtain ⟨h1, h2⟩ := h
            subst h1; subst h2
            exact ⟨fun _ => rfl, fun hn => by simp at hn⟩

/-- The loop of `copyFiles`: it leaves the plugin as it is, unless it fails. -/
theorem copyFiles_loop_frame (env : Env) (destPaths : List QString) (paths : List QString) :
    ∀ (i : Nat) (za : Zip) (p : Plugin) (r : Option Zip) (p' : Plugin),
    copyFiles_loop env destPaths paths i za p = (r, p') →
    r ≠ none → p' = p := by
  induction paths with
  | nil =>
    intro i za p r p' h _
    unfold copyFiles_loop at h
    simp only [Prod.mk.injEq] at h
    exact h.2.symm
  | cons path rest ih =>
    intro i za p r p' h hr
    unfold copyFiles_loop at h
    dsimp only at h
    split at h
    · exact ih _ _ _ _ _ h hr
    · rename_i zc _
      cases he : copyFiles_entry env zc path (destPaths.getD i []) p with
      | mk r1 p1 =>
        obtain ⟨e1, _⟩ := copyFiles_entry_frame env zc path _ p r1 p1 he
        rw [he] at h
        cases r1 with
        | none =>
          simp only [Prod.mk.injEq] at h
          exact absurd h.1.symm hr
        | some zd =>
          simp only at h
          have hp1 : p1 = p := e1 (by simp)
          subst hp1
          exact ih _ _ _ _ _ h hr

/-- A failing `addComment` has emitted exactly one error, as its last event,
unless it returned silently after the store had refused the comment. -/
theorem addComment_fail (env : Env) (comment : QString) (p : Plugin)
    (h : (addComment env comment p).1 = false) :
    failedWithError p (addComment env comment p).2 ∨
    ∃ za, p.archiveFile = some za ∧
      zip_set_archive_comment env za (toUtf8 comment) (QString.length16 comment) = none := by
  unfold addComment at h ⊢
  cases ho : p.archiveFile with
  | none => exact Or.inl (failedWithError_emit p p _ rfl)
  | some za =>
    simp only [ho] at h ⊢
    cases hs : zip_set_archive_comment env za (toUtf8 comment) (QString.length16 comment) with
    | none => exact Or.inr ⟨za, rfl, hs⟩
    | some zb =>
      simp only [hs] at h ⊢
      unfold zip_close at h ⊢
      by_cases hc : env.zip_close_ok = true
      · simp [hc] at h
      · simp only [hc, Bool.false_eq_true, if_false]
        exact Or.inl (failedWithError_emit p p _ rfl)

/-- The call `testArchive` never emits an error. -/
theorem testArchive_errors (env : Env) (p : Plugin) :
    errorCount (testArchive env p).2.log = errorCount p.log := by
  unfold testArchive
  split
  · rfl
  · rename_i za _
    have := testLoop_errors env za (toInt32 (zip_get_num_entries za))
      (List.range (toInt32 (zip_get_num_entries za)).toNat) p
    dsimp only
    cases ht : testLoop env za (toInt32 (zip_get_num_entries za))
      (List.range (toInt32 (zip_get_num_entries za)).toNat) p with
    | mk b q =>
      rw [ht] at this
      cases b with
      | false => exact this
      | true =>
        simp only [emit_log, errorCount_append, this]
        rfl

/-! ## Lemmas: failures of `extractFiles` -/

theorem endedByCancel_of_count (p q p' : Plugin)
    (hc : cancelledCount q.log = cancelledCount p.log)
    (he : errorCount q.log = errorCount p.log) (h : endedByCancel q p') :
    endedByCancel p p' := by
  unfold endedByCancel at h ⊢
  rw [← hc, ← he]
  exact h

/-- The password loop: it goes on without a new error or cancellation, or
returns false after one error or one cancellation. -/
theorem password_outcome (env : Env) (za : Zip) (entry : QString)
    (replies : List PasswordReply) :
    ∀ (firstTry : Bool) (p : Plugin) (res : Flow Nat),
    extractEntry_password env za entry replies firstTry p = some res →
    (∀ i q, res = .go i q →
      errorCount q.log = errorCount p.log ∧ cancelledCount q.log = cancelledCount p.log) ∧
    (∀ b q, res = .ret b q → b = false ∧ (failedWithError p q ∨ endedByCancel p q)) := by
  induction replies with
  | nil =>
    intro firstTry p res h
    unfold extractEntry_password at h
    dsimp only at h
    split_ifs at h <;> (try simp only [Option.some.injEq] at h) <;> (try subst h)
    · refine ⟨fun i q hq => ?_, fun b q hq => by simp at hq⟩
      simp only [Flow.go.injEq] at hq
      obtain ⟨_, hq⟩ := hq
      subst hq
      exact ⟨rfl, rfl⟩
    · refine ⟨fun i q hq => by simp at hq, fun b q hq => ?_⟩
      simp only [Flow.ret.injEq] at hq
      obtain ⟨hb, hq⟩ := hq
      subst hb; subst hq
      exact ⟨rfl, Or.inl (failedWithError_emit p p _ rfl)⟩
  | cons r rest ih =>
    intro firstTry p res h
    unfold extractEntry_password at h
    dsimp only at h
    split_ifs at h
    · simp only [Option.some.injEq] at h
      subst h
      refine ⟨fun i q hq => ?_, fun b q hq => by simp at hq⟩
      simp only [Flow.go.injEq] at hq
      obtain ⟨_, hq⟩ := hq
      subst hq
      exact ⟨rfl, rfl⟩
    · cases r with
      | cancel =>
        simp only [Option.some.injEq] at h
        subst h
        refine ⟨fun i q hq => by simp at hq, fun b q hq => ?_⟩
        simp only [Flow.ret.injEq] at hq
        obtain ⟨hb, hq⟩ := hq
        subst hb; subst hq
        refine ⟨rfl, Or.inr ?_⟩
        unfold endedByCancel
        simp [Plugin.emit, Event.isError]
      | password pw =>
        simp only at h
        obtain ⟨g1, g2⟩ := ih _ _ _ h
        have he : errorCount ({ { p.emit (.userQuery (.passwordNeeded (!firstTry))) with
            passwordReplies := rest } with m_password := pw } : Plugin).log = errorCount p.log := by
          simp [Plugin.emit, Event.isError]
        have hc : cancelledCount ({ { p.emit (.userQuery (.passwordNeeded (!firstTry))) with
            passwordReplies := rest } with m_password := pw } : Plugin).log
              = cancelledCount p.log := by
          simp [Plugin.emit]
        refine ⟨fun i q hq => ?_, fun b q hq => ?_⟩
        · obtain ⟨a1, a2⟩ := g1 i q hq
          exact ⟨by rw [a1, he], by rw [a2, hc]⟩
        · obtain ⟨a1, a2⟩ := g2 b q hq
          refine ⟨a1, ?_⟩
          rcases a2 with a2 | a2
          · exact Or.inl (failedWithError_of_count _ _ _ he a2)
          · exact Or.inr (endedByCancel_of_count _ _ _ hc he a2)
    · simp only [Option.some.injEq] at h
      subst h
      refine ⟨fun i q hq => by simp at hq, fun b q hq => ?_⟩
      simp only [Flow.ret.injEq] at hq
      obtain ⟨hb, hq⟩ := hq
      subst hb; subst hq
      exact ⟨rfl, Or.inl (failedWithError_emit p p _ rfl)⟩

/-- The copy loop, when it returns false, has just emitted an error. -/
theorem copy_last (env : Env) (index : Nat) (d : QString) (size : Nat) (fuel : Nat) :
    ∀ (k sum : Nat) (p q : Plugin),
    extractEntry_copy env index d size fuel k sum p = some (false, q) →
    lastIsError q.log = true := by
  induction fuel with
  | zero =>
    intro k sum p q h
    unfold extractEntry_copy at h
    split_ifs at h
    simp at h
  | succ n ih =>
    intro k sum p q h
    unfold extractEntry_copy at h
    dsimp only at h
    split_ifs at h
    · simp at h
    · simp only [Option.some.injEq, Prod.mk.injEq, true_and] at h
      subst h
      simp [lastIsError]
    · simp only [Option.some.injEq, Prod.mk.injEq, true_and] at h
      subst h
      simp [lastIsError]
    · exact ih _ _ _ _ h

/-- Writing the file: true without a new error, or false after one error
emitted last; no cancellation either way. -/
theorem write_outcome (fuel : Nat) (env : Env) (za : Zip) (entry d : QString) (size index : Nat)
    (p : Plugin) (b : Bool) (q : Plugin)
    (h : extractEntry_write fuel env za entry d size index p = some (b, q)) :
    cancelledCount q.log = cancelledCount p.log ∧
    (b = true → errorCount q.log = errorCount p.log) ∧
    (b = false → failedWithError p q) := by
  obtain ⟨_, _, _, _, _, _, hc, _, he, _⟩ := write_frame fuel env za entry d size index p b q h
  refine ⟨hc, fun hb => by simpa [hb] using he, fun hb => ?_⟩
  subst hb
  refine ⟨by simpa using he, ?_⟩
  unfold extractEntry_write at h
  split_ifs at h
  · simp only [Option.some.injEq, Prod.mk.injEq, true_and] at h
    subst h
    simp
  · dsimp only at h
    split at h
    · simp at h
    · rename_i q' hq'
      simp only [Option.some.injEq, Prod.mk.injEq, true_and] at h
      subst h
      exact copy_last _ _ _ _ _ _ _ _ _ hq'
    · split at h
      · simp only [Option.some.injEq, Prod.mk.injEq, true_and] at h
        subst h
        simp
      · split at h
        · simp only [Option.some.injEq, Prod.mk.injEq, true_and] at h
          subst h
          simp
        · simp at h

/-- The file branch, when it returns false: one error emitted last, or a
cancellation. -/
theorem file_outcome (fuel : Nat) (env : Env) (za : Zip) (entry d parentDir : QString)
    (r : Bool) (st : ZipStat) (pm : Nat) (p : Plugin) (q : Plugin)
    (h : extractEntry_file fuel env za entry d parentDir r st pm p = some (false, q)) :
    failedWithError p q ∨ endedByCancel p q := by
  unfold extractEntry_file at h
  cases hp : extractEntry_password env za entry p.passwordReplies true p with
  | none => simp [hp] at h
  | some res =>
    obtain ⟨g1, g2⟩ := password_outcome env za entry _ _ _ _ hp
    rw [hp] at h
    cases res with
    | ret b q' =>
      simp only [Option.some.injEq, Prod.mk.injEq] at h
      obtain ⟨hb, hq⟩ := h
      subst hq
      exact (g2 b q' rfl).2
    | go index q' =>
      obtain ⟨a1, a2⟩ := g1 index q' rfl
      simp only at h
      cases hw : extractEntry_write fuel env za entry d st.size index q' with
      | none => simp [hw] at h
      | some res2 =>
        obtain ⟨b2, q2⟩ := res2
        obtain ⟨_, _, w3⟩ := write_outcome fuel env za entry d st.size index q' b2 q2 hw
        rw [hw] at h
        cases b2 with
        | true => simp at h
        | false =>
          simp only [Option.some.injEq, Prod.mk.injEq, true_and] at h
          subst h
          exact Or.inl (failedWithError_of_count _ _ _ a1 (w3 rfl))

/-- The body of `extractEntry`, when it returns false: one error emitted last,
a cancellation, or the silent return after a failed stat of a file entry. -/
theorem from_outcome (fuel : Nat) (env : Env) (za : Zip) (entry destDir d : QString)
    (p : Plugin) (q : Plugin)
    (h : extractEntry_from fuel env za entry destDir d p = some (false, q)) :
    failedWithError p q ∨ endedByCancel p q ∨
      (endsWithSeparator entry = false ∧ zip_stat za entry = none) := by
  unfold extractEntry_from at h
  dsimp only at h
  by_cases hmk : env.mkpath_ok (QFileInfo.path d) = true
  · simp only [hmk, Bool.not_true, Bool.false_eq_true, if_false] at h
    have hm1 : errorCount (extractEntry_mkpath d p).log = errorCount p.log := by
      simp [extractEntry_mkpath, Plugin.emit, Event.isError]
    have hm2 : cancelledCount (extractEntry_mkpath d p).log = cancelledCount p.log := by
      simp [extractEntry_mkpath, Plugin.emit]
    cases hs : zip_stat za entry with
    | none =>
      rw [hs] at h
      simp only [Option.some.injEq, Prod.mk.injEq] at h
      exact Or.inr (Or.inr ⟨h.1, rfl⟩)
    | some st =>
      rw [hs] at h
      by_cases hdir : endsWithSeparator entry = true
      · simp [hdir] at h
      · simp only [hdir, Bool.false_eq_true, if_false, Bool.not_false, if_true] at h
        cases ho : extractEntry_overwrite entry (extractEntry_mkpath d p).overwriteReplies d entry
          (extractEntry_mkpath d p) with
        | none => simp [ho] at h
        | some res =>
          obtain ⟨used, _, _, _, _, _, _, o1, _, o2, o3, _⟩ :=
            overwrite_frame entry _ d entry (extractEntry_mkpath d p) res rfl ho
          rw [ho] at h
          cases res with
          | ret b q' =>
            simp only [Option.some.injEq, Prod.mk.injEq] at h
            obtain ⟨hb, hq⟩ := h
            subst hb; subst hq
            by_cases hcu : OverwriteReply.cancel ∈ used
            · refine Or.inr (Or.inl ?_)
              have := (o2 hcu).2
              exact ⟨by simpa [Flow.plugin, hm2] using this, by simpa [Flow.plugin, hm1] using o1⟩
            · exact absurd rfl ((o3 hcu).2 q')
          | go d' q' =>
            simp only at h
            have hcu : OverwriteReply.cancel ∉ used := by
              intro hcu
              have := (o2 hcu).1
              simp at this
            have e1 : errorCount q'.log = errorCount p.log := by
              simpa [Flow.plugin, hm1] using o1
            have e2 : cancelledCount q'.log = cancelledCount p.log := by
              simpa [Flow.plugin, hm2] using (o3 hcu).1
            rcases file_outcome fuel env za entry d' _ _ st _ q' q h with hf | hf
            · exact Or.inl (failedWithError_of_count _ _ _ e1 hf)
            · exact Or.inr (Or.inl (endedByCancel_of_count _ _ _ e2 e1 hf))
  · simp only [hmk, Bool.not_false, if_true, Option.some.injEq, Prod.mk.injEq, true_and] at h
    subst h
    exact Or.inl (failedWithError_emit p p _ rfl)

/-! ## Lemmas: interruption of whole operations -/

theorem range_split (n k : Nat) (h : k < n) :
    List.range n = List.range k ++ k :: List.range' (k + 1) (n - k - 1) := by
  have h2 : List.range' k (n - k) = k :: List.range' (k + 1) (n - k - 1) := by
    have : n - k = (n - k - 1) + 1 := by omega
    rw [this, List.range'_succ]
    rfl
  have h1 : List.range' 0 k ++ List.range' (0 + k) (n - k) = List.range' 0 (n - k + k) :=
    List.range'_append_1 0 k (n - k)
  rw [List.range_eq_range', List.range_eq_range', ← h2]
  rw [Nat.zero_add] at h1
  rw [h1]
  congr 1
  omega

/-- An interruption found by `list` when it is about to work on the entry of
index `k`: the call returns true in the state the entries before `k` have led
to, one poll later. -/
theorem list_interrupted (env : Env) (p : Plugin) (za : Zip) (k : Nat)
    (hopen : p.archiveFile = some za) (hk : k < za.entries.length)
    (hquiet : ∀ j, j < k → env.interruptionRequested (p.polls + j) = false)
    (hint : env.interruptionRequested (p.polls + k) = true) :
    list env p = (true,
      { ((listLoop env za za.entries.length (List.range k)
          { p with m_numberOfEntries := 0, m_comment := za.comment }).poll env).2 with
        m_listAfterAdd := false }) := by
  have hq : ∀ j, j < (List.range k).length → env.interruptionRequested
      (({ p with m_numberOfEntries := 0, m_comment := za.comment } : Plugin).polls + j)
        = false := by
    intro j hj
    exact hquiet j (by simpa using hj)
  obtain ⟨_, _, hp⟩ := listLoop_progress env za za.entries.length (List.range k)
    { p with m_numberOfEntries := 0, m_comment := za.comment } hq
  have happ := listLoop_append env za za.entries.length (List.range k)
    (k :: List.range' (k + 1) (za.entries.length - k - 1))
    { p with m_numberOfEntries := 0, m_comment := za.comment } hq
  rw [← range_split _ _ hk] at happ
  have hstop := listLoop_interrupted env za za.entries.length k
    (List.range' (k + 1) (za.entries.length - k - 1))
    (listLoop env za za.entries.length (List.range k)
      { p with m_numberOfEntries := 0, m_comment := za.comment })
    (by rw [hp]; simpa using hint)
  unfold list
  simp only [zip_get_num_entries]
  split
  · rename_i h0
    rw [hopen] at h0
    exact absurd h0 (by simp)
  · rename_i za' h0
    rw [hopen] at h0
    injection h0 with h0
    subst h0
    rw [happ, hstop]

/-- An interruption found by `deleteFiles` when it is about to work on the
entry after `pre`. -/
theorem deleteFiles_interrupted (env : Env) (pre : List Entry) (e : Entry) (post : List Entry)
    (p : Plugin) (za za1 : Zip) (p1 : Plugin)
    (hopen : p.archiveFile = some za)
    (hpre : deleteLoop env (pre ++ e :: post).length pre 0 za p = (some za1, p1))
    (hquiet : ∀ j, j < pre.length → env.interruptionRequested (p.polls + j) = false)
    (hint : env.interruptionRequested (p.polls + pre.length) = true)
    (hclose : env.zip_close_ok = true) :
    deleteFiles env (pre ++ e :: post) p = (true, (zip_close env za1 (p1.poll env).2).2) ∧
    (deleteFiles env (pre ++ e :: post) p).2.log = p1.log := by
  obtain ⟨g1, g2⟩ := deleteLoop_append env _ pre (e :: post) 0 za p za1 p1 hpre hquiet
  have hstop := deleteLoop_interrupted env (pre ++ e :: post).length e post (0 + pre.length)
    za1 p1 (by rw [g2]; exact hint)
  have hres : deleteFiles env (pre ++ e :: post) p
      = (true, (zip_close env za1 (p1.poll env).2).2) := by
    unfold deleteFiles
    simp only [hopen, g1, hstop]
    unfold zip_close
    simp [hclose]
  refine ⟨hres, ?_⟩
  rw [hres]
  unfold zip_close
  simp [hclose]

/-- An interruption found by `extractFiles` when it is about to work on the
entry after `pre`. -/
theorem extractFiles_interrupted (fuel : Nat) (env : Env) (files : List Entry) (D : QString)
    (pp dnd : Bool) (p : Plugin) (za : Zip) (pre : List ExtractItem) (it : ExtractItem)
    (post : List ExtractItem) (p1 : Plugin)
    (hopen : p.archiveFile = some za)
    (hitems : extractItems za files = pre ++ it :: post)
    (hpre : extractLoop fuel env za D pp dnd (pre ++ it :: post).length pre 0
      { p with m_overwriteAll := false, m_skipAll := false } = some (true, p1))
    (hquiet : ∀ j, j < pre.length → env.interruptionRequested (p.polls + j) = false)
    (hint : env.interruptionRequested (p.polls + pre.length) = true) :
    extractFiles fuel env files D pp dnd p = some (true, (p1.poll env).2) := by
  obtain ⟨g1, g2, _⟩ := extractLoop_append fuel env za D pp dnd
    (pre ++ it :: post).length pre (it :: post) 0
    { p with m_overwriteAll := false, m_skipAll := false } p1 hquiet hpre
  unfold extractFiles
  split
  · rename_i h0
    rw [hopen] at h0
    exact absurd h0 (by simp)
  · rename_i za' h0
    rw [hopen] at h0
    injection h0 with h0
    subst h0
    simp only [hitems]
    rw [g1, extractLoop_cons, g2]
    simp [hint]

/-- An interruption found by `addFiles` when it is about to work on the entry
after `pre`: nothing has been emitted, and the call goes on with the commit
of what is staged. -/
theorem addFiles_interrupted (env : Env) (pre : List Entry) (e : Entry) (post : List Entry)
    (destination : Option Entry) (options : CompressionOptions) (p : Plugin)
    (za za1 : Zip) (i1 : Nat) (p1 : Plugin)
    (hopen : zip_open_create env p = some za)
    (hpre : addFiles_loop env destination options pre 0 za p = (some za1, i1, p1))
    (hquiet : ∀ j, p.polls ≤ j → j < p1.polls → env.interruptionRequested j = false)
    (hint : env.interruptionRequested p1.polls = true) :
    addFiles env (pre ++ e :: post) destination options p
      = addFiles_finish env za1 i1 (p1.poll env).2 ∧
    p1.log = p.log ∧
    (addFiles env (pre ++ e :: post) destination options p).1 = env.zip_close_ok := by
  have g1 := addFiles_loop_append env destination options pre (e :: post) 0 za p za1 i1 p1
    hpre hquiet
  have hstop := addFiles_loop_interrupted env destination options e post i1 za1 p1 hint
  have hlog := (addFiles_loop_frame env destination options pre _ _ _ _ _ _ hpre).2.2.1
    (by simp)
  have hres : addFiles env (pre ++ e :: post) destination options p
      = addFiles_finish env za1 i1 (p1.poll env).2 := by
    unfold addFiles
    simp only [hopen, g1, hstop]
  refine ⟨hres, hlog, ?_⟩
  rw [hres]
  unfold addFiles_finish zip_close_progress zip_close
  by_cases hc : env.zip_close_ok = true
  · simp [hc]
  · simp [hc]

/-- An interruption found by `testArchive` when it is about to work on the
entry of index `k`: the call stops there, and returns false. -/
theorem testArchive_interrupted (env : Env) (p : Plugin) (za : Zip) (k : Nat) (p1 : Plugin)
    (hopen : p.archiveFile = some za) (hcons : env.zip_checkcons = true)
    (hk : k < (toInt32 (zip_get_num_entries za)).toNat)
    (hpre : testLoop env za (toInt32 (zip_get_num_entries za)) (List.range k) p = (true, p1))
    (hquiet : ∀ j, j < k → env.interruptionRequested (p.polls + j) = false)
    (hint : env.interruptionRequested (p.polls + k) = true) :
    testArchive env p = (false, (p1.poll env).2) := by
  obtain ⟨g1, g2⟩ := testLoop_append env za _ (List.range k)
    (k :: List.range' (k + 1) ((toInt32 (zip_get_num_entries za)).toNat - k - 1)) p p1 hpre
    (by intro j hj; exact hquiet j (by simpa using hj))
  rw [← range_split _ _ hk] at g1
  have hstop := testLoop_interrupted env za (toInt32 (zip_get_num_entries za)) k
    (List.range' (k + 1) ((toInt32 (zip_get_num_entries za)).toNat - k - 1)) p1
    (by rw [g2]; simpa using hint)
  unfold testArchive
  simp only [hcons, if_true, hopen, g1, hstop]

/-! ## Lemmas: the progress values of `addFiles`, `deleteFiles`, `moveFiles` -/

/-- The progress values of a whole `addFiles` that succeeds: the values of the
store as they come, then `(i + 1) / n` for the `n` entries of the listing. -/
theorem addFiles_progress (env : Env) (files : List Entry) (destination : Option Entry)
    (options : CompressionOptions) (p : Plugin) (za za1 : Zip) (i1 : Nat) (p1 : Plugin)
    (hopen : zip_open_create env p = some za)
    (hloop : addFiles_loop env destination options files 0 za p = (some za1, i1, p1))
    (hclose : env.zip_close_ok = true)
    (hlive : (committed za1).entries ≠ [])
    (hint : ∀ j, j < (committed za1).entries.length →
      env.interruptionRequested (p1.polls + j) = false) :
    (addFiles env files destination options p).1 = true ∧
    progressValues (addFiles env files destination options p).2.log =
      progressValues p.log ++ env.writeProgress ++
        (List.range (committed za1).entries.length).map
          (fun i => (⟨i + 1, (committed za1).entries.length⟩ : Fraction)) := by
  have hlog : p1.log = p.log :=
    (addFiles_loop_frame env destination options files _ _ _ _ _ _ hloop).2.2.1 (by simp)
  obtain ⟨evs, he, hp, _⟩ := commitProgress_log env
    { p1 with m_filesize := i1, m_addarchive := some za1 }
  have hne : (committed za1).entries.isEmpty = false := by
    cases h : (committed za1).entries with
    | nil => exact absurd h hlive
    | cons _ _ => rfl
  obtain ⟨l1, l2, _⟩ := list_progress env
    { ({ p1 with m_filesize := i1, m_addarchive := some za1,
                 log := p1.log ++ evs } : Plugin) with
      archiveFile := some (committed za1), m_listAfterAdd := true }
    (committed za1) rfl hint
  unfold addFiles
  simp only [hopen, hloop]
  unfold addFiles_finish zip_close_progress zip_close
  simp only [hclose, if_true, he, hne, Bool.false_eq_true, if_false]
  refine ⟨trivial, ?_⟩
  rw [l2]
  simp only [progressValues_append, hp, hlog]

/-- The loop of `deleteFiles`, worked through without failure and without
interruption: one progress value `(i + 1) / total` for each entry. -/
theorem deleteLoop_progress (env : Env) (total : Nat) (files : List Entry) :
    ∀ (i : Nat) (za : Zip) (p : Plugin) (za1 : Zip) (p1 : Plugin),
    deleteLoop env total files i za p = (some za1, p1) →
    (∀ j, j < files.length → env.interruptionRequested (p.polls + j) = false) →
    progressValues p1.log =
      progressValues p.log ++
        (List.range files.length).map (fun j => (⟨i + j + 1, total⟩ : Fraction)) := by
  induction files with
  | nil =>
    intro i za p za1 p1 h _
    unfold deleteLoop at h
    simp only [Prod.mk.injEq, Option.some.injEq] at h
    obtain ⟨_, h2⟩ := h
    subst h2
    simp
  | cons e rest ih =>
    intro i za p za1 p1 h hq
    have h0 : env.interruptionRequested p.polls = false := by
      simpa using hq 0 (by simp)
    rw [deleteLoop_cons] at h
    simp only [h0, Bool.false_eq_true, if_false] at h
    cases hloc : zip_name_locate za e.fullPath with
    | none => simp [hloc] at h
    | some index =>
      simp only [hloc] at h
      cases hdel : zip_delete env za index with
      | none => simp [hdel] at h
      | some zb =>
        simp only [hdel] at h
        rw [ih _ _ _ _ _ h (by
          intro j hj
          have := hq (j + 1) (by simp; omega)
          simpa [Nat.add_assoc, Nat.add_comm 1 j] using this)]
        simp only [emit_log, poll_snd_log, progressValues_append, progressValues_cons,
          progressValues_nil, List.append_nil, List.nil_append, List.length_cons,
          List.append_assoc, List.singleton_append]
        rw [List.range_succ_eq_map, List.map_cons, List.map_map]
        congr 2
        apply List.map_congr_left
        intro j _
        simp only [Function.comp, Nat.succ_eq_add_one]
        congr 1
        omega

/-- The progress values of a whole `deleteFiles` that returns true, no
interruption being requested: `(j + 1) / n` for `j` from 0 to `n - 1`. -/
theorem deleteFiles_progress (env : Env) (files : List Entry) (p : Plugin)
    (hret : (deleteFiles env files p).1 = true)
    (hint : ∀ j, j < files.length → env.interruptionRequested (p.polls + j) = false) :
    progressValues (deleteFiles env files p).2.log =
      progressValues p.log ++
        (List.range files.length).map (fun j => (⟨j + 1, files.length⟩ : Fraction)) := by
  unfold deleteFiles at hret ⊢
  cases ho : p.archiveFile with
  | none => simp [ho] at hret
  | some za =>
    simp only [ho] at hret ⊢
    cases hl : deleteLoop env files.length files 0 za p with
    | mk r p1 =>
      rw [hl] at hret
      cases r with
      | none => simp at hret
      | some zb =>
        have := deleteLoop_progress env files.length files 0 za p zb p1 hl hint
        simp only [Nat.zero_add] at this
        simp only at hret ⊢
        unfold zip_close at hret ⊢
        by_cases hc : env.zip_close_ok = true
        · simp only [hc, if_true]
          exact this
        · simp [hc] at hret

/-- The loop of `moveFiles`, worked through without failure: one progress
value for each entry, the whole quotient `(i + j) / count`. -/
theorem moveFiles_loop_progress (env : Env) (destPaths : List QString) (count : Nat)
    (paths : List QString) :
    ∀ (i : Nat) (za : Zip) (p : Plugin) (za1 : Zip) (p1 : Plugin),
    moveFiles_loop env destPaths count paths i za p = (some za1, p1) →
    progressValues p1.log =
      progressValues p.log ++
        (List.range paths.length).map (fun j => (⟨(i + j) / count, 1⟩ : Fraction)) := by
  induction paths with
  | nil =>
    intro i za p za1 p1 h
    unfold moveFiles_loop at h
    simp only [Prod.mk.injEq, Option.some.injEq] at h
    obtain ⟨_, h2⟩ := h
    subst h2
    simp
  | cons path rest ih =>
    intro i za p za1 p1 h
    unfold moveFiles_loop at h
    dsimp only at h
    split_ifs at h
    · simp at h
    · split at h
      · simp at h
      · rename_i zb _
        obtain ⟨evs, he, hp, _⟩ := emitEntryForIndex_log zb (toUInt64 (locateInt za path))
          (p.emit (.entryRemoved path))
        rw [he] at h
        rw [ih _ _ _ _ _ h]
        simp only [emit_log, progressValues_append, progressValues_cons, progressValues_nil,
          List.append_nil, List.nil_append, List.length_cons, List.append_assoc, hp,
          List.singleton_append]
        rw [List.range_succ_eq_map, List.map_cons, List.map_map]
        congr 2
        apply List.map_congr_left
        intro j _
        simp only [Function.comp, Nat.succ_eq_add_one]
        congr 2
        omega

/-- The progress values of a whole `moveFiles` that returns true: the value 0
for every entry. -/
theorem moveFiles_progress (env : Env) (filePaths destPaths : List QString) (p : Plugin)
    (hret : (moveFiles env filePaths destPaths p).1 = true) :
    progressValues (moveFiles env filePaths destPaths p).2.log =
      progressValues p.log ++ List.replicate filePaths.length (⟨0, 1⟩ : Fraction) := by
  unfold moveFiles at hret ⊢
  cases ho : p.archiveFile with
  | none => simp [ho] at hret
  | some za =>
    simp only [ho] at hret ⊢
    cases hl : moveFiles_loop env destPaths filePaths.length filePaths 0 za p with
    | mk r p1 =>
      rw [hl] at hret
      cases r with
      | none => simp at hret
      | some zb =>
        have h1 := moveFiles_loop_progress env destPaths filePaths.length filePaths 0 za p zb p1 hl
        have h2 : (List.range filePaths.length).map
            (fun j => (⟨(0 + j) / filePaths.length, 1⟩ : Fraction))
              = List.replicate filePaths.length ⟨0, 1⟩ := by
          rw [List.eq_replicate_iff]
          refine ⟨by simp, ?_⟩
          intro f hf
          simp only [List.mem_map, List.mem_range] at hf
          obtain ⟨j, hj, rfl⟩ := hf
          simp [Nat.div_eq_of_lt hj]
        rw [h2] at h1
        simp only at hret ⊢
        unfold zip_close at hret ⊢
        by_cases hc : env.zip_close_ok = true
        · simp only [hc, if_true]
          exact h1
        · simp [hc] at hret

/-- The values `(i + 1) / n` for `i` from 0 to `n - 1`, as `list`,
`deleteFiles` and `extractFiles` emit them: strictly increasing, each at most 1,
the last one `n / n`. -/
theorem progress_steps (n : Nat) (hn : 0 < n) :
    List.Pairwise Fraction.lt ((List.range n).map (fun i => (⟨i + 1, n⟩ : Fraction))) ∧
    (∀ f ∈ (List.range n).map (fun i => (⟨i + 1, n⟩ : Fraction)), Fraction.le f ⟨1, 1⟩) ∧
    ((List.range n).map (fun i => (⟨i + 1, n⟩ : Fraction))).getLast? = some ⟨n, n⟩ := by
  refine ⟨?_, ?_, ?_⟩
  · rw [List.pairwise_map]
    refine List.Pairwise.imp ?_ (List.pairwise_lt_range n)
    intro a b hab
    unfold Fraction.lt
    simp only
    exact Nat.mul_lt_mul_of_pos_right (by omega) hn
  · intro f hf
    simp only [List.mem_map, List.mem_range] at hf
    obtain ⟨j, hj, rfl⟩ := hf
    unfold Fraction.le
    simp only
    omega
  · obtain ⟨m, rfl⟩ : ∃ m, n = m + 1 := ⟨n - 1, by omega⟩
    rw [List.range_succ, List.map_append]
    simp

/-! ## Lemmas: the progress values of `extractFiles` -/

theorem overwrite_progress (entry : QString) (replies : List OverwriteReply) :
    ∀ (d r : QString) (p : Plugin) (res : Flow QString),
    extractEntry_overwrite entry replies d r p = some res →
    progressValues res.plugin.log = progressValues p.log := by
  induction replies with
  | nil =>
    intro d r p res h
    unfold extractEntry_overwrite at h
    split_ifs at h <;> (try simp only [Option.some.injEq] at h) <;> (try subst h) <;> rfl
  | cons x rest ih =>
    intro d r p res h
    unfold extractEntry_overwrite at h
    split_ifs at h
    · simp only [Option.some.injEq] at h
      subst h
      rfl
    · cases x <;> simp only [Option.some.injEq] at h <;>
        first
        | (subst h; simp [Flow.plugin, Plugin.emit])
        | (rw [ih _ _ _ _ h]; simp [Plugin.emit])
    · simp only [Option.some.injEq] at h
      subst h
      rfl

theorem password_progress (env : Env) (za : Zip) (entry : QString)
    (replies : List PasswordReply) :
    ∀ (firstTry : Bool) (p : Plugin) (res : Flow Nat),
    extractEntry_password env za entry replies firstTry p = some res →
    progressValues res.plugin.log = progressValues p.log := by
  induction replies with
  | nil =>
    intro firstTry p res h
    unfold extractEntry_password at h
    dsimp only at h
    split_ifs at h <;> (try simp only [Option.some.injEq] at h) <;> (try subst h) <;>
      first | rfl | simp [Flow.plugin, Plugin.emit]
  | cons x rest ih =>
    intro firstTry p res h
    unfold extractEntry_password at h
    dsimp only at h
    split_ifs at h
    · simp only [Option.some.injEq] at h
      subst h
      rfl
    · cases x <;> simp only [Option.some.injEq] at h <;>
        first
        | (subst h; simp [Flow.plugin, Plugin.emit])
        | (rw [ih _ _ _ h]; simp [Plugin.emit])
    · simp only [Option.some.injEq] at h
      subst h
      simp [Flow.plugin, Plugin.emit]

theorem copy_progress (env : Env) (index : Nat) (d : QString) (size : Nat) (fuel : Nat) :
    ∀ (k sum : Nat) (p : Plugin) (b : Bool) (q : Plugin),
    extractEntry_copy env index d size fuel k sum p = some (b, q) →
    progressValues q.log = progressValues p.log := by
  induction fuel with
  | zero =>
    intro k sum p b q h
    unfold extractEntry_copy at h
    split_ifs at h
    simp only [Option.some.injEq, Prod.mk.injEq] at h
    rw [← h.2]
  | succ n ih =>
    intro k sum p b q h
    unfold extractEntry_copy at h
    dsimp only at h
    split_ifs at h
    · simp only [Option.some.injEq, Prod.mk.injEq] at h
      rw [← h.2]
    · simp only [Option.some.injEq, Prod.mk.injEq] at h
      rw [← h.2]
      simp [Plugin.emit]
    · simp only [Option.some.injEq, Prod.mk.injEq] at h
      rw [← h.2]
      simp [Plugin.emit]
    · rw [ih _ _ _ _ _ h]
      simp [Plugin.emit]

theorem write_progress (fuel : Nat) (env : Env) (za : Zip) (entry d : QString)
    (size index : Nat) (p : Plugin) (b : Bool) (q : Plugin)
    (h : extractEntry_write fuel env za entry d size index p = some (b, q)) :
    progressValues q.log = progressValues p.log := by
  have ho : progressValues (extractEntry_opened d p).log = progressValues p.log := by
    simp [extractEntry_opened, Plugin.emit]
  unfold extractEntry_write at h
  split_ifs at h
  · simp only [Option.some.injEq, Prod.mk.injEq] at h
    rw [← h.2]
    simp [Plugin.emit]
  · dsimp only at h
    cases hc : extractEntry_copy env index d size fuel 0 0 (extractEntry_opened d p) with
    | none => simp [hc] at h
    | some res =>
      obtain ⟨b1, q1⟩ := res
      have hq1 := copy_progress env index d size fuel 0 0 _ b1 q1 hc
      rw [hc] at h
      cases b1 with
      | false =>
        simp only [Option.some.injEq, Prod.mk.injEq] at h
        rw [← h.2, hq1, ho]
      | true =>
        simp only at h
        split at h
        · simp only [Option.some.injEq, Prod.mk.injEq] at h
          rw [← h.2]
          simp [Plugin.emit, hq1, ho]
        · split at h
          · simp only [Option.some.injEq, Prod.mk.injEq] at h
            rw [← h.2]
            simp [Plugin.emit, hq1, ho]
          · simp only [Option.some.injEq, Prod.mk.injEq] at h
            rw [← h.2, hq1, ho]

theorem times_progress (d parentDir : QString) (r : Bool) (m pm : Nat) (p : Plugin) :
    progressValues (extractEntry_times d parentDir r m pm p).log = progressValues p.log := by
  unfold extractEntry_times
  dsimp only
  split_ifs <;> simp [Plugin.emit]

theorem file_progress (fuel : Nat) (env : Env) (za : Zip) (entry d parentDir : QString)
    (r : Bool) (st : ZipStat) (pm : Nat) (p : Plugin) (b : Bool) (q : Plugin)
    (h : extractEntry_file fuel env za entry d parentDir r st pm p = some (b, q)) :
    progressValues q.log = progressValues p.log := by
  unfold extractEntry_file at h
  cases hp : extractEntry_password env za entry p.passwordReplies true p with
  | none => simp [hp] at h
  | some res =>
    have g := password_progress env za entry _ _ _ _ hp
    rw [hp] at h
    cases res with
    | ret b' q' =>
      simp only [Option.some.injEq, Prod.mk.injEq] at h
      rw [← h.2]
      exact g
    | go index q' =>
      simp only at h
      cases hw : extractEntry_write fuel env za entry d st.size index q' with
      | none => simp [hw] at h
      | some res2 =>
        obtain ⟨b2, q2⟩ := res2
        have g2 := write_progress fuel env za entry d st.size index q' b2 q2 hw
        rw [hw] at h
        cases b2 with
        | false =>
          simp only [Option.some.injEq, Prod.mk.injEq] at h
          rw [← h.2, g2]
          exact g
        | true =>
          simp only [Option.some.injEq, Prod.mk.injEq] at h
          rw [← h.2, times_progress, g2]
          exact g

theorem from_progress (fuel : Nat) (env : Env) (za : Zip) (entry destDir d : QString)
    (p : Plugin) (b : Bool) (q : Plugin)
    (h : extractEntry_from fuel env za entry destDir d p = some (b, q)) :
    progressValues q.log = progressValues p.log := by
  have hm : progressValues (extractEntry_mkpath d p).log = progressValues p.log := by
    simp [extractEntry_mkpath, Plugin.emit]
  unfold extractEntry_from at h
  dsimp only at h
  by_cases hmk : env.mkpath_ok (QFileInfo.path d) = true
  · simp only [hmk, Bool.not_true, Bool.false_eq_true, if_false] at h
    cases hs : zip_stat za entry with
    | none =>
      rw [hs] at h
      simp only [Option.some.injEq, Prod.mk.injEq] at h
      rw [← h.2]
      exact hm
    | some st =>
      rw [hs] at h
      by_cases hdir : endsWithSeparator entry = true
      · simp only [hdir, Bool.not_true, Bool.false_eq_true, if_false, if_true,
          Option.some.injEq, Prod.mk.injEq] at h
        rw [← h.2, times_progress]
        exact hm
      · simp only [hdir, Bool.false_eq_true, if_false, Bool.not_false, if_true] at h
        cases ho : extractEntry_overwrite entry (extractEntry_mkpath d p).overwriteReplies d entry
          (extractEntry_mkpath d p) with
        | none => simp [ho] at h
        | some res =>
          have g := overwrite_progress entry _ _ _ _ _ ho
          rw [ho] at h
          cases res with
          | ret b' q' =>
            simp only [Option.some.injEq, Prod.mk.injEq] at h
            rw [← h.2]
            exact g.trans hm
          | go d' q' =>
            simp only at h
            rw [file_progress fuel env za entry d' _ _ st _ q' b q h]
            exact g.trans hm
  · simp only [hmk, Bool.not_false, if_true, Option.some.injEq, Prod.mk.injEq] at h
    rw [← h.2]
    simp [Plugin.emit]

/-- A call of `extractEntry` emits no progress value. -/
theorem entry_progress (fuel : Nat) (env : Env) (za : Zip) (entry rootNode destDir : QString)
    (pp rr : Bool) (p : Plugin) (b : Bool) (q : Plugin)
    (h : extractEntry fuel env za entry rootNode destDir pp rr p = some (b, q)) :
    progressValues q.log = progressValues p.log := by
  unfold extractEntry at h
  split at h
  · simp only [Option.some.injEq, Prod.mk.injEq] at h
    rw [← h.2]
  · exact from_progress fuel env za entry destDir _ p b q h

/-- The loop of `extractFiles`, worked through with every entry extracted and
without interruption: one progress value `(i + 1) / nofEntries` for each entry. -/
theorem extractLoop_progress (fuel : Nat) (env : Env) (za : Zip) (D : QString) (pp rr : Bool)
    (n : Nat) (items : List ExtractItem) :
    ∀ (i : Nat) (p p1 : Plugin),
    extractLoop fuel env za D pp rr n items i p = some (true, p1) →
    (∀ j, j < items.length → env.interruptionRequested (p.polls + j) = false) →
    progressValues p1.log =
      progressValues p.log ++
        (List.range items.length).map (fun j => (⟨i + j + 1, n⟩ : Fraction)) := by
  induction items with
  | nil =>
    intro i p p1 h _
    unfold extractLoop at h
    simp only [Option.some.injEq, Prod.mk.injEq, true_and] at h
    subst h
    simp
  | cons it rest ih =>
    intro i p p1 h hq
    have h0 : env.interruptionRequested p.polls = false := by
      simpa using hq 0 (by simp)
    rw [extractLoop_cons] at h
    simp only [h0, Bool.false_eq_true, if_false] at h
    cases hs : extractEntry fuel env za it.entry it.rootNode D pp rr (p.poll env).2 with
    | none => simp [hs] at h
    | some res =>
      obtain ⟨b, q⟩ := res
      have g := entry_progress fuel env za _ _ _ _ _ _ b q hs
      have gp := (step_frame _ _ _ _ _ _ _ _ _ _ _ hs).1
      rw [hs] at h
      cases b with
      | false => simp at h
      | true =>
        simp only at h
        rw [ih _ _ _ h (by
          intro j hj
          have := hq (j + 1) (by simp; omega)
          simpa [gp, Nat.add_assoc, Nat.add_comm 1 j] using this)]
        simp only [emit_log, poll_snd_log, progressValues_append, progressValues_cons,
          progressValues_nil, List.append_nil, List.nil_append, List.length_cons,
          List.append_assoc, List.singleton_append, g]
        rw [List.range_succ_eq_map, List.map_cons, List.map_map]
        congr 2
        apply List.map_congr_left
        intro j _
        simp only [Function.comp, Nat.succ_eq_add_one]
        congr 1
        omega

/-- The progress values of a whole `extractFiles` that returns true, no
interruption being requested: `(j + 1) / n` for `j` from 0 to `n - 1`. -/
theorem extractFiles_progress (fuel : Nat) (env : Env) (files : List Entry) (D : QString)
    (pp dnd : Bool) (p q : Plugin) (za : Zip)
    (hopen : p.archiveFile = some za)
    (hret : extractFiles fuel env files D pp dnd p = some (true, q))
    (hint : ∀ j, j < (extractItems za files).length →
      env.interruptionRequested (p.polls + j) = false) :
    progressValues q.log =
      progressValues p.log ++
        (List.range (extractItems za files).length).map
          (fun j => (⟨j + 1, (extractItems za files).length⟩ : Fraction)) := by
  unfold extractFiles at hret
  dsimp only at hret
  split at hret
  next => simp at hret
  next zb h0 =>
    rw [hopen] at h0
    injection h0 with h0
    subst h0
    have := extractLoop_progress fuel env za D pp dnd _ _ 0 _ q hret hint
    simpa using this


/-! ## Lemmas: the entry a failing call stops at -/

/-- The body of `extractEntry`, when it returns false: one error emitted last,
a cancellation, or the silent return after a failed stat of a file entry, in
the state the making of the directory has left. -/
theorem from_silent (fuel : Nat) (env : Env) (za : Zip) (entry destDir d : QString)
    (p : Plugin) (q : Plugin)
    (h : extractEntry_from fuel env za entry destDir d p = some (false, q)) :
    failedWithError p q ∨ endedByCancel p q ∨
      (endsWithSeparator entry = false ∧ zip_stat za entry = none ∧
        env.mkpath_ok (QFileInfo.path d) = true ∧ q = extractEntry_mkpath d p) := by
  rcases from_outcome fuel env za entry destDir d p q h with hf | hf | ⟨h1, h2⟩
  · exact Or.inl hf
  · exact Or.inr (Or.inl hf)
  · unfold extractEntry_from at h
    dsimp only at h
    by_cases hmk : env.mkpath_ok (QFileInfo.path d) = true
    · simp only [hmk, Bool.not_true, Bool.false_eq_true, if_false, h2, Option.some.injEq,
        Prod.mk.injEq] at h
      exact Or.inr (Or.inr ⟨h1, h2, hmk, h.2.symm⟩)
    · simp only [hmk, Bool.not_false, if_true, Option.some.injEq, Prod.mk.injEq, true_and] at h
      subst h
      exact Or.inl (failedWithError_emit p p _ rfl)

/-- A call of `extractEntry` that returns false: one error emitted last, a
cancellation, or the silent return after a failed stat of a file entry. -/
theorem entry_silent (fuel : Nat) (env : Env) (za : Zip) (entry rootNode destDir : QString)
    (pp rr : Bool) (p : Plugin) (q : Plugin)
    (h : extractEntry fuel env za entry rootNode destDir pp rr p = some (false, q)) :
    failedWithError p q ∨ endedByCancel p q ∨
      (endsWithSeparator entry = false ∧ zip_stat za entry = none ∧
        ∃ d, extractEntry_destination entry rootNode destDir pp rr = some d ∧
          env.mkpath_ok (QFileInfo.path d) = true ∧ q = extractEntry_mkpath d p) := by
  unfold extractEntry at h
  split at h
  · simp at h
  · rename_i d hd
    rcases from_silent fuel env za entry destDir d p q h with hf | hf | ⟨h1, h2, h3, h4⟩
    · exact Or.inl hf
    · exact Or.inr (Or.inl hf)
    · exact Or.inr (Or.inr ⟨h1, h2, d, hd, h3, h4⟩)

/-- The loop of `extractFiles`, when it returns false: the entries before the
failing one were worked through without interruption, and the call of
`extractEntry` for the failing one has returned false in the final state. -/
theorem extractLoop_fail_split (fuel : Nat) (env : Env) (za : Zip) (D : QString) (pp rr : Bool)
    (n : Nat) (items : List ExtractItem) :
    ∀ (i : Nat) (p q : Plugin),
    extractLoop fuel env za D pp rr n items i p = some (false, q) →
    ∃ pre it post p1, items = pre ++ it :: post ∧
      extractLoop fuel env za D pp rr n pre i p = some (true, p1) ∧
      (∀ j, j ≤ pre.length → env.interruptionRequested (p.polls + j) = false) ∧
      extractEntry fuel env za it.entry it.rootNode D pp rr (p1.poll env).2 = some (false, q) ∧
      errorCount p1.log = errorCount p.log ∧ cancelledCount p1.log = cancelledCount p.log := by
  induction items with
  | nil =>
    intro i p q h
    unfold extractLoop at h
    simp at h
  | cons it rest ih =>
    intro i p q h
    rw [extractLoop_cons] at h
    by_cases h0 : env.interruptionRequested p.polls = true
    · simp [h0] at h
    · have h0' : env.interruptionRequested p.polls = false := by simpa using h0
      simp only [h0', Bool.false_eq_true, if_false] at h
      cases hs : extractEntry fuel env za it.entry it.rootNode D pp rr (p.poll env).2 with
      | none => simp [hs] at h
      | some res =>
        obtain ⟨b, q1⟩ := res
        rw [hs] at h
        cases b with
        | false =>
          simp only [Option.some.injEq, Prod.mk.injEq, true_and] at h
          subst h
          refine ⟨[], it, rest, p, rfl, by simp [extractLoop], ?_, hs, rfl, rfl⟩
          intro j hj
          have : j = 0 := by simpa using hj
          subst this
          exact h0'
        | true =>
          simp only at h
          obtain ⟨s1, _, _, _, _, _, _, _, s5, _⟩ := step_frame _ _ _ _ _ _ _ _ _ _ _ hs
          obtain ⟨_, _, c1, c2⟩ := s5 rfl
          obtain ⟨pre, x, post, p1, e1, e2, e3, e4, e5, e6⟩ := ih _ _ _ h
          refine ⟨it :: pre, x, post, p1, by rw [e1]; rfl, ?_, ?_, e4, ?_, ?_⟩
          · rw [extractLoop_cons, h0']
            simp only [Bool.false_eq_true, if_false, hs]
            exact e2
          · intro j hj
            cases j with
            | zero => exact h0'
            | succ j =>
              have := e3 j (by simpa using hj)
              simp only [emit_polls, s1, poll_snd_polls] at this
              rw [← this]; congr 1; omega
          · rw [e5]; simp only [emit_log, errorCount_append, c2, poll_snd_log]
            simp [Event.isError]
          · rw [e6]; simp only [emit_log, cancelledCount_append, c1, poll_snd_log]
            simp

/-- One entry of `copyFiles` that makes it return false: one error emitted
last, or the silent return after `zip_source_zip` has given no source, the
plugin being left as it was. -/
theorem copyFiles_entry_silent (env : Env) (za : Zip) (path dest : QString) (p p' : Plugin)
    (h : copyFiles_entry env za path dest p = (none, p')) :
    failedWithError p p' ∨
      (p' = p ∧ locateInt za path ≠ -1 ∧
        zip_source_zip env za (toUInt64 (locateInt za path)) = none) := by
  rcases (copyFiles_entry_frame env za path dest p none p' h).2 rfl with hf | ⟨h1, h2⟩
  · exact Or.inl hf
  · right
    unfold copyFiles_entry at h
    dsimp only at h
    simp only [h1, if_false, h2, Prod.mk.injEq, true_and] at h
    exact ⟨h.symm, h1, h2⟩

/-- One iteration of the loop of `copyFiles`. -/
theorem copyFiles_loop_cons (env : Env) (destPaths : List QString) (path : QString)
    (rest : List QString) (i : Nat) (za : Zip) (p : Plugin) :
    copyFiles_loop env destPaths (path :: rest) i za p =
      match (if endsWithSeparator (destPaths.getD i []) then
          (zip_dir_add za (destPaths.getD i [])).map (fun r => r.2) else some za) with
      | none => copyFiles_loop env destPaths rest (i + 1) za p
      | some zc =>
        match copyFiles_entry env zc path (destPaths.getD i []) p with
        | (none, p) => (none, p)
        | (some zd, p) => copyFiles_loop env destPaths rest (i + 1) zd p := by
  conv_lhs => unfold copyFiles_loop

/-- The loop of `copyFiles`, when it makes the function return false: one
error emitted last, or the silent return at the entry that follows a part
`pre` of the batch, worked through without failure. -/
theorem copyFiles_loop_silent (env : Env) (destPaths : List QString) (paths : List QString) :
    ∀ (i : Nat) (za : Zip) (p p' : Plugin),
    copyFiles_loop env destPaths paths i za p = (none, p') →
    failedWithError p p' ∨
      (p' = p ∧ ∃ pre path post zb zc, paths = pre ++ path :: post ∧
        copyFiles_loop env destPaths pre i za p = (some zb, p) ∧
        (if endsWithSeparator (destPaths.getD (i + pre.length) []) then
            (zip_dir_add zb (destPaths.getD (i + pre.length) [])).map (fun r => r.2)
          else some zb) = some zc ∧
        locateInt zc path ≠ -1 ∧
        zip_source_zip env zc (toUInt64 (locateInt zc path)) = none) := by
  induction paths with
  | nil =>
    intro i za p p' h
    unfold copyFiles_loop at h
    simp at h
  | cons path rest ih =>
    intro i za p p' h
    rw [copyFiles_loop_cons] at h
    cases ha : (if endsWithSeparator (destPaths.getD i []) then
        (zip_dir_add za (destPaths.getD i [])).map (fun r => r.2) else some za) with
    | none =>
      rw [ha] at h
      simp only at h
      rcases ih _ _ _ _ h with hf | ⟨hp, pre, x, post, zb, zc, e1, e2, e3, e4, e5⟩
      · exact Or.inl hf
      · refine Or.inr ⟨hp, path :: pre, x, post, zb, zc, by rw [e1]; rfl, ?_, ?_, e4, e5⟩
        · rw [copyFiles_loop_cons, ha]
          exact e2
        · rw [show i + (path :: pre).length = i + 1 + pre.length by simp; omega]
          exact e3
    | some zc =>
      rw [ha] at h
      simp only at h
      cases he : copyFiles_entry env zc path (destPaths.getD i []) p with
      | mk r1 p1 =>
        rw [he] at h
        cases r1 with
        | none =>
          simp only [Prod.mk.injEq, true_and] at h
          subst h
          rcases copyFiles_entry_silent env zc path _ p p1 he with hf | ⟨hp, h1, h2⟩
          · exact Or.inl hf
          · refine Or.inr ⟨hp, [], path, rest, za, zc, rfl, by simp [copyFiles_loop], ?_, h1, h2⟩
            simpa using ha
        | some zd =>
          simp only at h
          have hp1 : p1 = p := (copyFiles_entry_frame env zc path _ p _ p1 he).1 (by simp)
          subst hp1
          rcases ih _ _ _ _ h with hf | ⟨hp, pre, x, post, zb, zc', e1, e2, e3, e4, e5⟩
          · exact Or.inl hf
          · refine Or.inr ⟨hp, path :: pre, x, post, zb, zc', by rw [e1]; rfl, ?_, ?_, e4, e5⟩
            · rw [copyFiles_loop_cons, ha]
              simp only [he]
              exact e2
            · rw [show i + (path :: pre).length = i + 1 + pre.length by simp; omega]
              exact e3


/-! ## Lemmas: the silent returns -/

/-- The loop of `copyFiles` over a list that starts with `pre`, worked through
without failure. -/
theorem copyFiles_loop_append (env : Env) (destPaths : List QString) (pre : List QString) :
    ∀ (rest : List QString) (i : Nat) (za : Zip) (p : Plugin) (zb : Zip) (p1 : Plugin),
    copyFiles_loop env destPaths pre i za p = (some zb, p1) →
    copyFiles_loop env destPaths (pre ++ rest) i za p
      = copyFiles_loop env destPaths rest (i + pre.length) zb p1 := by
  induction pre with
  | nil =>
    intro rest i za p zb p1 h
    unfold copyFiles_loop at h
    simp only [Prod.mk.injEq, Option.some.injEq] at h
    obtain ⟨h1, h2⟩ := h
    subst h1; subst h2
    rfl
  | cons path pre ih =>
    intro rest i za p zb p1 h
    rw [copyFiles_loop_cons] at h
    rw [List.cons_append, copyFiles_loop_cons]
    rw [show i + (path :: pre).length = i + 1 + pre.length by simp; omega]
    cases ha : (if endsWithSeparator (destPaths.getD i []) then
        (zip_dir_add za (destPaths.getD i [])).map (fun r => r.2) else some za) with
    | none =>
      rw [ha] at h
      simp only at h ⊢
      exact ih rest _ _ _ _ _ h
    | some zc =>
      rw [ha] at h
      simp only at h ⊢
      cases he : copyFiles_entry env zc path (destPaths.getD i []) p with
      | mk r1 q =>
        rw [he] at h
        cases r1 with
        | none => simp at h
        | some zd =>
          simp only at h ⊢
          exact ih rest _ _ _ _ _ h

/-- The silent return of `copyFiles`: the entries `pre` are worked through,
and `zip_source_zip` gives no source for the entry that follows. The function
returns false and the plugin is as it was: nothing has been emitted. -/
theorem copyFiles_source_failure (env : Env) (filePaths destPaths : List QString) (p : Plugin)
    (za : Zip) (pre : List QString) (path : QString) (post : List QString) (zb zc : Zip)
    (hopen : p.archiveFile = some za)
    (hpaths : filePaths = pre ++ path :: post)
    (hpre : copyFiles_loop env destPaths pre 0 za p = (some zb, p))
    (hdest : (if endsWithSeparator (destPaths.getD pre.length []) then
        (zip_dir_add zb (destPaths.getD pre.length [])).map (fun r => r.2)
      else some zb) = some zc)
    (hloc : locateInt zc path ≠ -1)
    (hsrc : zip_source_zip env zc (toUInt64 (locateInt zc path)) = none) :
    copyFiles env filePaths destPaths p = (false, p) := by
  have happ := copyFiles_loop_append env destPaths pre (path :: post) 0 za p zb p hpre
  rw [Nat.zero_add] at happ
  have hent : copyFiles_entry env zc path (destPaths.getD pre.length []) p = (none, p) := by
    unfold copyFiles_entry
    simp [hloc, hsrc]
  unfold copyFiles
  simp only [hopen, hpaths, happ]
  rw [copyFiles_loop_cons, hdest]
  simp only [hent]

/-- The silent return of `extractFiles`: the entries `pre` are worked through
without interruption, and the stat of the file entry that follows fails. The
function returns false in the state the making of the directory has left, and
neither an error nor `cancelled` has been emitted. -/
theorem extractFiles_stat_failure (fuel : Nat) (env : Env) (files : List Entry) (D : QString)
    (pp dnd : Bool) (p : Plugin) (za : Zip) (pre : List ExtractItem) (it : ExtractItem)
    (post : List ExtractItem) (p1 : Plugin) (d : QString)
    (hza : p.archiveFile = some za)
    (hitems : extractItems za files = pre ++ it :: post)
    (hpoll : ∀ j, j ≤ pre.length → env.interruptionRequested (p.polls + j) = false)
    (hpre : extractLoop fuel env za D pp dnd (extractItems za files).length pre 0
      { p with m_overwriteAll := false, m_skipAll := false } = some (true, p1))
    (hfile : endsWithSeparator it.entry = false)
    (hstat : zip_stat za it.entry = none)
    (hdest : extractEntry_destination it.entry it.rootNode D pp dnd = some d)
    (hmk : env.mkpath_ok (QFileInfo.path d) = true) :
    extractFiles fuel env files D pp dnd p
      = some (false, extractEntry_mkpath d (p1.poll env).2) ∧
    errorCount (extractEntry_mkpath d (p1.poll env).2).log = errorCount p.log ∧
    cancelledCount (extractEntry_mkpath d (p1.poll env).2).log = cancelledCount p.log := by
  obtain ⟨g1, g2, g3, g4, _⟩ := extractLoop_append fuel env za D pp dnd
    (extractItems za files).length pre (it :: post) 0
    { p with m_overwriteAll := false, m_skipAll := false } p1
    (fun j hj => hpoll j (Nat.le_of_lt hj)) hpre
  have hk : env.interruptionRequested p1.polls = false := by
    rw [g2]; exact hpoll pre.length (le_refl _)
  have hstep : extractEntry fuel env za it.entry it.rootNode D pp dnd (p1.poll env).2
      = some (false, extractEntry_mkpath d (p1.poll env).2) := by
    unfold extractEntry
    simp only [hdest]
    unfold extractEntry_from
    simp [hfile, hmk, hstat]
  refine ⟨?_, ?_, ?_⟩
  · unfold extractFiles
    split
    · rename_i h0
      rw [hza] at h0
      exact absurd h0 (by simp)
    · rename_i za' h0
      rw [hza] at h0
      injection h0 with h0
      subst h0
      dsimp only
      rw [← hitems] at g1
      rw [g1, extractLoop_cons, hk]
      simp [hstep]
  · simp only [extractEntry_mkpath, emit_log, poll_snd_log, errorCount_append, g4]
    simp [Event.isError]
  · simp only [extractEntry_mkpath, emit_log, poll_snd_log, cancelledCount_append, g3]
    simp


/-! ## Lemmas: failures, with the entry they stop at -/

/-- A failing `extractFiles` has emitted exactly one error, as its last event,
unless the user has cancelled, or the entries before a file entry were worked
through and the stat of that entry has failed. -/
theorem extractFiles_fail_at (fuel : Nat) (env : Env) (files : List Entry) (D : QString)
    (pp dnd : Bool) (p q : Plugin)
    (h : extractFiles fuel env files D pp dnd p = some (false, q)) :
    failedWithError p q ∨ endedByCancel p q ∨
      ∃ za pre it post p1 d, p.archiveFile = some za ∧
        extractItems za files = pre ++ it :: post ∧
        (∀ j, j ≤ pre.length → env.interruptionRequested (p.polls + j) = false) ∧
        extractLoop fuel env za D pp dnd (extractItems za files).length pre 0
          { p with m_overwriteAll := false, m_skipAll := false } = some (true, p1) ∧
        endsWithSeparator it.entry = false ∧ zip_stat za it.entry = none ∧
        extractEntry_destination it.entry it.rootNode D pp dnd = some d ∧
        env.mkpath_ok (QFileInfo.path d) = true ∧
        q = extractEntry_mkpath d (p1.poll env).2 := by
  unfold extractFiles at h
  dsimp only at h
  split at h
  · simp only [Option.some.injEq, Prod.mk.injEq, true_and] at h
    subst h
    exact Or.inl (failedWithError_emit p p _ rfl)
  · rename_i za hz
    obtain ⟨pre, it, post, p1, e1, e2, e3, e4, e5, e6⟩ :=
      extractLoop_fail_split fuel env za D pp dnd _ _ _ _ _ h
    have c1 : errorCount (p1.poll env).2.log = errorCount p.log := by
      rw [poll_snd_log, e5]
    have c2 : cancelledCount (p1.poll env).2.log = cancelledCount p.log := by
      rw [poll_snd_log, e6]
    rcases entry_silent fuel env za _ _ _ _ _ _ _ e4 with hf | hf | ⟨h1, h2, d, h3, h4, h5⟩
    · exact Or.inl (failedWithError_of_count p _ _ c1 hf)
    · exact Or.inr (Or.inl (endedByCancel_of_count p _ _ c2 c1 hf))
    · exact Or.inr (Or.inr ⟨za, pre, it, post, p1, d, hz, e1, e3, e2, h1, h2, h3, h4, h5⟩)

/-- A failing `copyFiles` has emitted exactly one error, as its last event,
unless the entries before an entry were worked through and `zip_source_zip`
has given no source for that entry; then nothing has been emitted. -/
theorem copyFiles_fail_at (env : Env) (filePaths destPaths : List QString) (p : Plugin)
    (h : (copyFiles env filePaths destPaths p).1 = false) :
    failedWithError p (copyFiles env filePaths destPaths p).2 ∨
      ((copyFiles env filePaths destPaths p).2 = p ∧
        ∃ za pre path post zb zc, p.archiveFile = some za ∧
          filePaths = pre ++ path :: post ∧
          copyFiles_loop env destPaths pre 0 za p = (some zb, p) ∧
          (if endsWithSeparator (destPaths.getD pre.length []) then
              (zip_dir_add zb (destPaths.getD pre.length [])).map (fun r => r.2)
            else some zb) = some zc ∧
          locateInt zc path ≠ -1 ∧
          zip_source_zip env zc (toUInt64 (locateInt zc path)) = none) := by
  unfold copyFiles at h ⊢
  cases ho : p.archiveFile with
  | none => exact Or.inl (failedWithError_emit p p _ rfl)
  | some za =>
    simp only [ho] at h ⊢
    cases hl : copyFiles_loop env destPaths filePaths 0 za p with
    | mk r p1 =>
      rw [hl] at h
      cases r with
      | none =>
        simp only
        rcases copyFiles_loop_silent env destPaths filePaths 0 za p p1 hl with
          hf | ⟨hp, pre, path, post, zb, zc, e1, e2, e3, e4, e5⟩
        · exact Or.inl hf
        · rw [Nat.zero_add] at e3
          exact Or.inr ⟨hp, za, pre, path, post, zb, zc, rfl, e1, e2, e3, e4, e5⟩
      | some zb =>
        simp only at h ⊢
        have hp1 : p1 = p := copyFiles_loop_frame env _ filePaths _ _ _ _ _ hl (by simp)
        subst hp1
        obtain ⟨evs, he, _, hr⟩ := commitProgress_log env p1
        unfold zip_close_progress zip_close at h ⊢
        by_cases hc : env.zip_close_ok = true
        · simp [hc] at h
        · simp only [hc, Bool.false_eq_true, if_false]
          left
          apply failedWithError_emit
          rw [he]
          simp [hr]

/-- A failing `addComment` has emitted exactly one error, as its last event,
unless the store has refused the comment; then nothing has been emitted. -/
theorem addComment_fail_at (env : Env) (comment : QString) (p : Plugin)
    (h : (addComment env comment p).1 = false) :
    failedWithError p (addComment env comment p).2 ∨
      ((addComment env comment p).2 = p ∧
        ∃ za, p.archiveFile = some za ∧
          zip_set_archive_comment env za (toUtf8 comment) (QString.length16 comment) = none) := by
  rcases addComment_fail env comment p h with hf | ⟨za, h1, h2⟩
  · exact Or.inl hf
  · refine Or.inr ⟨?_, za, h1, h2⟩
    unfold addComment
    simp only [h1, h2]


/-! ## Lemmas: errors of the listing and of the end of `addFiles` -/

/-- The loop of `list` emits no error, interrupted or not. -/
theorem listLoop_errors (env : Env) (za : Zip) (n : Nat) (idxs : List Nat) :
    ∀ (p : Plugin), errorCount (listLoop env za n idxs p).log = errorCount p.log := by
  induction idxs with
  | nil => intro p; simp [listLoop]
  | cons i rest ih =>
    intro p
    obtain ⟨evs, he, _, hr⟩ := emitEntryForIndex_log za i (p.poll env).2
    unfold listLoop
    by_cases h0 : env.interruptionRequested p.polls = true
    · simp [poll_fst, h0]
    · simp only [poll_fst, h0, Bool.false_eq_true, if_false, he]
      rw [ih]
      simp [hr, Event.isError]

/-- A listing of an archive that opens returns true and emits no error. -/
theorem list_errors (env : Env) (p : Plugin) (za : Zip) (hopen : p.archiveFile = some za) :
    (list env p).1 = true ∧ errorCount (list env p).2.log = errorCount p.log := by
  have h := listLoop_errors env za za.entries.length (List.range za.entries.length)
    { p with m_numberOfEntries := 0, m_comment := za.comment }
  unfold list
  simp only [zip_get_num_entries]
  split
  · rename_i h0
    rw [hopen] at h0
    exact absurd h0 (by simp)
  · rename_i za' h0
    rw [hopen] at h0
    injection h0 with h0
    subst h0
    exact ⟨rfl, h⟩

/-- The end of `addFiles` when the commit succeeds and leaves an archive with
an entry in it: it returns true and emits no error. -/
theorem addFiles_finish_quiet (env : Env) (za : Zip) (i : Nat) (p : Plugin)
    (hclose : env.zip_close_ok = true) (hlive : (committed za).entries ≠ []) :
    (addFiles_finish env za i p).1 = true ∧
    errorCount (addFiles_finish env za i p).2.log = errorCount p.log := by
  obtain ⟨evs, he, _, hr⟩ := commitProgress_log env
    { p with m_filesize := i, m_addarchive := some za }
  have hne : (committed za).entries.isEmpty = false := by
    cases hc : (committed za).entries with
    | nil => exact absurd hc hlive
    | cons a l => rfl
  unfold addFiles_finish zip_close_progress zip_close
  simp only [hclose, if_true, hne, Bool.false_eq_true, if_false, he]
  refine ⟨trivial, ?_⟩
  rw [(list_errors env _ (committed za) rfl).2]
  simp [hr]

/-! ## The claims -/

/-- C9: for every mode value the rendering has exactly ten characters.
Character 0 is `d` when the file-type bits (bits 12 to 15) are 4, a directory,
`l` when they are 10, a symbolic link, and `-` otherwise; characters 1, 2, 4,
5, 7, 8 are `r` or `w` exactly when the owner, group or other read or write
bit (bits 8, 7, 5, 4, 2, 1) is set; characters 3, 6, 9 render the pairs
(setuid, owner execute), (setgid, group execute), (sticky, other execute),
bits (11, 6), (10, 3), (9, 0), as `s`, `s`, `t` when both are set, `S`, `S`,
`T` when only the special bit is set, `x` when only the execute bit is set
and `-` when neither is. -/
theorem permissionsToString_format (m : Nat) :
    (permissionsToString m).length = 10 ∧
    permissionsToString m =
      [ if (m >>> 12) % 16 = 4 then 'd' else if (m >>> 12) % 16 = 10 then 'l' else '-',
        if m.testBit 8 then 'r' else '-',
        if m.testBit 7 then 'w' else '-',
        match m.testBit 11, m.testBit 6 with
          | true, true => 's' | true, false => 'S' | false, true => 'x' | false, false => '-',
        if m.testBit 5 then 'r' else '-',
        if m.testBit 4 then 'w' else '-',
        match m.testBit 10, m.testBit 3 with
          | true, true => 's' | true, false => 'S' | false, true => 'x' | false, false => '-',
        if m.testBit 2 then 'r' else '-',
        if m.testBit 1 then 'w' else '-',
        match m.testBit 9, m.testBit 0 with
          | true, true => 't' | true, false => 'T' | false, true => 'x' | false, false => '-' ] := by
  refine ⟨?_, permissionsToString_chars m⟩
  rw [permissionsToString_chars]
  rfl

/-- C8: for a file mode `m` below 2^16 the external-attributes word
`m << 16` (32-bit) has its low 16 bits zero and gives `m` back when shifted
right by 16; the slot `writeEntry` has written carries that word tagged as
Unix origin, and `emitEntryForIndex`, on any archive holding that slot,
succeeds and emits one entry whose permission string is
`permissionsToString m`. -/
theorem writeEntry_mode_roundtrip (env : Env) (za : Zip) (file : QString)
    (destination : Option Entry) (options : CompressionOptions) (isDir : Bool) (p : Plugin)
    (m index : Nat) (za1 : Zip)
    (hm : m < 65536) (hstat : env.st_mode file = some m)
    (hadd : writeEntry_add env za (writeEntry_destFile file destination) isDir
      = some (index, za1)) :
    writeEntry_attributes m % 65536 = 0 ∧ writeEntry_attributes m >>> 16 = m ∧
    ∃ slot, (writeEntry env za file destination options isDir p).2.1.entries[index]? = some slot ∧
      slot.deleted = false ∧ slot.opsys = ZIP_OPSYS_UNIX ∧
      slot.attributes = writeEntry_attributes m ∧
      ∀ (zb : Zip) (j : Nat) (q : Plugin), zb.entries[j]? = some slot →
        ∃ e, emitEntryForIndex zb j q =
            (true, { q with log := q.log ++ statHints slot.stat ++ [Event.entry e] }) ∧
          e.permissions = some (permissionsToString m) := by
  obtain ⟨hlow, hhigh⟩ := writeEntry_attributes_bits m hm
  obtain ⟨slot0, h0, hd0⟩ := writeEntry_add_slot env za _ isDir index za1 hadd
  obtain ⟨slot, hs, hdel, _, hattr, _⟩ :=
    writeEntry_slot env za file destination options isDir p index za1 slot0 hadd h0
  obtain ⟨hop, hat⟩ := hattr m hstat
  refine ⟨hlow, hhigh, slot, hs, by rw [hdel, hd0], hop, hat, ?_⟩
  intro zb j q hj
  refine ⟨slotEntry slot, emitEntryForIndex_live zb j q slot hj (by rw [hdel, hd0]), ?_⟩
  simp [slotEntry, withPermissions, hop, hat, hhigh]

/-- A regular file of mode 0644 added to an empty archive: the slot holds
`0100644 << 16` and lists as `-rw-r--r--`. -/
theorem writeEntry_mode_roundtrip_witness :
    writeEntry_attributes 0o100644 >>> 16 = 0o100644 ∧
    ∃ slot, (writeEntry { st_mode := fun _ => some 0o100644 } {} "f".toList none {} false
        {}).2.1.entries[0]? = some slot ∧
      slot.deleted = false ∧ slot.opsys = ZIP_OPSYS_UNIX ∧
      slot.attributes = writeEntry_attributes 0o100644 ∧
      ∀ (zb : Zip) (j : Nat) (q : Plugin), zb.entries[j]? = some slot →
        ∃ e, emitEntryForIndex zb j q =
            (true, { q with log := q.log ++ statHints slot.stat ++ [Event.entry e] }) ∧
          e.permissions = some (permissionsToString 0o100644) :=
  (writeEntry_mode_roundtrip { st_mode := fun _ => some 0o100644 } {} "f".toList none {} false {}
    0o100644 0 { entries := [{ stat := { valid := ZIP_STAT_NAME, name := "f".toList } }] }
    (by decide) rfl rfl).2

/-- C10, as stated, fails: with the password "pw" and the non-empty
encryption option "ZipCrypto", `writeEntry` writes the entry "f" (it returns
true) and sets no encryption on it: the method stays `ZIP_EM_NONE` and no
password is attached. -/
theorem writeEntry_unknown_method_not_encrypted :
    (writeEntry {} {} "f".toList none { encryptionMethod := "ZipCrypto".toList } false
        { m_password := "pw".toList }).1 = true ∧
    (writeEntry {} {} "f".toList none { encryptionMethod := "ZipCrypto".toList } false
        { m_password := "pw".toList }).2.1.entries =
      [{ stat := { valid := ZIP_STAT_NAME, name := "f".toList, comp_method := ZIP_CM_DEFAULT,
                   encryption_method := ZIP_EM_NONE },
         password := [], comp_flags := 6 }] := by
  decide

/-- C10, amended: when the password is not empty and the encryption option is
"AES128", "AES192" or "AES256", the slot `writeEntry` has written carries the
matching AES method and that password; when the password is not empty and the
option is not empty and none of the three names, the encryption method and
password of the slot are those the add step left, so `writeEntry` sets no
encryption; when the password is empty it sets none either, whatever the
option. -/
theorem writeEntry_encryption_by_option (env : Env) (za : Zip) (file : QString)
    (destination : Option Entry) (options : CompressionOptions) (isDir : Bool) (p : Plugin)
    (index : Nat) (za1 : Zip)
    (hadd : writeEntry_add env za (writeEntry_destFile file destination) isDir
      = some (index, za1)) :
    ∃ slot0 slot, za1.entries[index]? = some slot0 ∧
      (writeEntry env za file destination options isDir p).1 = env.zip_compression_ok
        (writeEntry_compMethod options) ∧
      (writeEntry env za file destination options isDir p).2.1.entries[index]? = some slot ∧
      (p.m_password ≠ [] → options.encryptionMethod = "AES128".toList →
        slot.stat.encryption_method = ZIP_EM_AES_128 ∧ slot.password = p.m_password) ∧
      (p.m_password ≠ [] → options.encryptionMethod = "AES192".toList →
        slot.stat.encryption_method = ZIP_EM_AES_192 ∧ slot.password = p.m_password) ∧
      (p.m_password ≠ [] → options.encryptionMethod = "AES256".toList →
        slot.stat.encryption_method = ZIP_EM_AES_256 ∧ slot.password = p.m_password) ∧
      (p.m_password ≠ [] → options.encryptionMethod ≠ [] →
        options.encryptionMethod ≠ "AES128".toList →
        options.encryptionMethod ≠ "AES192".toList →
        options.encryptionMethod ≠ "AES256".toList →
        slot.stat.encryption_method = slot0.stat.encryption_method ∧
        slot.password = slot0.password) ∧
      (p.m_password = [] →
        slot.stat.encryption_method = slot0.stat.encryption_method ∧
        slot.password = slot0.password) := by
  obtain ⟨slot0, h0, _⟩ := writeEntry_add_slot env za _ isDir index za1 hadd
  obtain ⟨slot, hs, _, _, _, h1, h2, h3, h4⟩ :=
    writeEntry_slot env za file destination options isDir p index za1 slot0 hadd h0
  refine ⟨slot0, slot, h0, ?_, hs, h1, h2, h3,
    fun _ _ a b c => h4 (Or.inr ⟨a, b, c⟩), fun hp => h4 (Or.inl hp)⟩
  unfold writeEntry
  simp only [hadd]
  unfold zip_set_file_compression
  by_cases hc : env.zip_compression_ok (writeEntry_compMethod options) = true
  · simp [hc]
  · simp [hc]

/-- The file "f" added to an empty archive under the password "pw" with the
option "AES256": the slot is encrypted with AES-256 under "pw". -/
theorem writeEntry_encryption_by_option_witness :
    ∃ slot,
      (writeEntry {} {} "f".toList none { encryptionMethod := "AES256".toList } false
        { m_password := "pw".toList }).2.1.entries[0]? = some slot ∧
      slot.stat.encryption_method = ZIP_EM_AES_256 ∧ slot.password = "pw".toList := by
  obtain ⟨_, slot, _, _, hs, _, _, h, _⟩ :=
    writeEntry_encryption_by_option {} {} "f".toList none
      { encryptionMethod := "AES256".toList } false { m_password := "pw".toList } 0
      { entries := [{ stat := { valid := ZIP_STAT_NAME, name := "f".toList } }] } rfl
  exact ⟨slot, hs, h (by decide) rfl⟩


/-- C5: a run of `extractFiles` has worked through the entries `pre`, which
has led to the state `p1`, and among the answers consumed on the way is
OverwriteAll (or SkipAll, the answer `autoSkip`); no interruption is requested
up to the next entry `it`. Then the run goes on with `it` from `p1`; whatever
the run returns, no overwrite query has been raised and no answer consumed
after `p1`, and the call of `extractEntry` for `it` raises none either. When
`it` is a file entry of the archive whose destination `d` exists, the
directory of `d` being there: after OverwriteAll, when the store opens the
entry, `d` opens for writing and the reads deliver the declared size in
non-empty chunks that are written completely, that call returns true, `d`
holds exactly the bytes read, and the run goes on with the entries after `it`;
after SkipAll that call returns true, opens and writes nothing, leaves every
file as it was, and the run goes on with the entries after `it`. -/
theorem extractFiles_overwriteAll_skipAll (fuel : Nat) (env : Env) (files : List Entry)
    (D : QString) (pp dnd : Bool) (p : Plugin) (za : Zip) (pre : List ExtractItem)
    (it : ExtractItem) (post : List ExtractItem) (p1 : Plugin) (all : OverwriteReply)
    (hza : p.archiveFile = some za)
    (hitems : extractItems za files = pre ++ it :: post)
    (hpoll : ∀ j, j ≤ pre.length → env.interruptionRequested (p.polls + j) = false)
    (hpre : extractLoop fuel env za D pp dnd (pre ++ it :: post).length pre 0
      { p with m_overwriteAll := false, m_skipAll := false } = some (true, p1))
    (hall : all = .overwriteAll ∨ all = .autoSkip)
    (hused : ∃ used, p.overwriteReplies = used ++ p1.overwriteReplies ∧ all ∈ used) :
    extractFiles fuel env files D pp dnd p
      = extractLoop fuel env za D pp dnd (pre ++ it :: post).length (it :: post) pre.length p1 ∧
    (∀ b q, extractFiles fuel env files D pp dnd p = some (b, q) →
      overwriteQueryCount q.log = overwriteQueryCount p1.log ∧
      q.overwriteReplies = p1.overwriteReplies) ∧
    (∀ b p2, extractEntry fuel env za it.entry it.rootNode D pp dnd (p1.poll env).2
        = some (b, p2) →
      overwriteQueryCount p2.log = overwriteQueryCount p1.log ∧
      p2.overwriteReplies = p1.overwriteReplies) ∧
    ∀ (d : QString) (st : ZipStat),
    endsWithSeparator it.entry = false →
    extractEntry_destination it.entry it.rootNode D pp dnd = some d →
    p1.fs.pathExists d = true →
    env.mkpath_ok (QFileInfo.path d) = true →
    zip_stat za it.entry = some st →
    (all = .overwriteAll →
      ∀ (idx : Nat) (chunks : List (List Nat)),
        chunks.length ≤ fuel →
        zip_fopen env za it.entry p1.m_password = (.ok, idx) →
        env.open_ok d = true →
        (∀ j c, chunks[j]? = some c →
          env.zip_fread idx j 1000 = .bytes c ∧ env.writeRawData d c = c.length) →
        (∀ c ∈ chunks, c ≠ []) →
        chunks.flatten.length = st.size → st.size < 18446744073709551616 →
        ∃ p2, extractEntry fuel env za it.entry it.rootNode D pp dnd (p1.poll env).2
            = some (true, p2) ∧
          p2.fs.files.lookup d = some chunks.flatten ∧
          extractFiles fuel env files D pp dnd p =
            extractLoop fuel env za D pp dnd (pre ++ it :: post).length post (pre.length + 1)
              ((p2.emit (.progress ⟨pre.length + 1, (pre ++ it :: post).length⟩)).emit
                (.progress_filename it.name))) ∧
    (all = .autoSkip →
      ∃ p2, extractEntry fuel env za it.entry it.rootNode D pp dnd (p1.poll env).2
          = some (true, p2) ∧
        p2.fs.files = p1.fs.files ∧
        (∀ f, writeCount f p2.log = writeCount f p1.log) ∧
        extractFiles fuel env files D pp dnd p =
          extractLoop fuel env za D pp dnd (pre ++ it :: post).length post (pre.length + 1)
            ((p2.emit (.progress ⟨pre.length + 1, (pre ++ it :: post).length⟩)).emit
              (.progress_filename it.name))) := by
  obtain ⟨g1, g2, _⟩ := extractLoop_append fuel env za D pp dnd
    (pre ++ it :: post).length pre (it :: post) 0
    { p with m_overwriteAll := false, m_skipAll := false } p1
    (fun j hj => hpoll j (Nat.le_of_lt hj)) hpre
  rw [Nat.zero_add] at g1
  have hk : env.interruptionRequested p1.polls = false := by
    rw [g2]; exact hpoll pre.length (le_refl _)
  have hrun : extractFiles fuel env files D pp dnd p
      = extractLoop fuel env za D pp dnd (pre ++ it :: post).length (it :: post)
          pre.length p1 := by
    unfold extractFiles
    split
    · rename_i h0
      rw [hza] at h0
      exact absurd h0 (by simp)
    · rename_i za' h0
      rw [hza] at h0
      injection h0 with h0
      subst h0
      simp only [hitems]
      rw [g1]
  obtain ⟨usedO, u1, _, _, u4, u5⟩ := extractLoop_used fuel env za D pp dnd _ pre 0 _ _ _ hpre
  obtain ⟨used, hu, hm⟩ := hused
  have hused' : usedO = used := List.append_cancel_right (by rw [← u1, ← hu])
  subst hused'
  have hq : p1.m_overwriteAll = true ∨ (p1.m_skipAll = true ∧ p1.m_overwriteAll = false) := by
    rcases hall with h | h
    · subst h; exact Or.inl (u4 hm)
    · subst h; exact Or.inr (u5 hm)
  have hnoquery : ∀ b p2, extractEntry fuel env za it.entry it.rootNode D pp dnd (p1.poll env).2
      = some (b, p2) →
      overwriteQueryCount p2.log = overwriteQueryCount p1.log ∧
      p2.overwriteReplies = p1.overwriteReplies := by
    intro b p2 h
    obtain ⟨_, _, uO, _, t3, _, t5, _, _, _, _, t10, _, _⟩ :=
      step_frame _ _ _ _ _ _ _ _ _ _ _ h
    have : uO = [] := by
      apply t10
      rcases hq with hq | hq
      · exact Or.inl hq
      · exact Or.inr hq.1
    subst this
    exact ⟨by simpa using t5, by simpa using t3.symm⟩
  have hnext : ∀ p2, extractEntry fuel env za it.entry it.rootNode D pp dnd (p1.poll env).2
      = some (true, p2) →
      extractFiles fuel env files D pp dnd p =
        extractLoop fuel env za D pp dnd (pre ++ it :: post).length post (pre.length + 1)
          ((p2.emit (.progress ⟨pre.length + 1, (pre ++ it :: post).length⟩)).emit
            (.progress_filename it.name)) := by
    intro p2 h
    rw [hrun, extractLoop_cons, hk]
    simp [h]
  refine ⟨hrun, ?_, hnoquery, ?_⟩
  · intro b q h
    rw [hrun] at h
    obtain ⟨_, _, f3, f4⟩ :=
      loop_flags fuel env za D pp dnd _ (it :: post) pre.length p1 b q hq h
    exact ⟨f3, f4⟩
  intro d st hfile hdest hex hmk hst
  have hstepeq : extractEntry fuel env za it.entry it.rootNode D pp dnd (p1.poll env).2
      = extractEntry_from fuel env za it.entry D d (p1.poll env).2 := by
    unfold extractEntry
    simp [hdest]
  refine ⟨?_, ?_⟩
  · intro ha idx chunks hfuel hopen hfileok hread hne hsize hlt
    subst ha
    have hoa : (p1.poll env).2.m_overwriteAll = true := u4 hm
    have heq := from_overwriteAll fuel env za it.entry D d st (p1.poll env).2 hfile hmk hst hoa
    obtain ⟨Q, hQ1, hQ2⟩ := file_chunks fuel env za it.entry d (QFileInfo.path d)
      (QFileInfo.path d ++ [separator] != destDirCorrected D) st
      (env.lastModified (QFileInfo.path d)) (extractEntry_mkpath d (p1.poll env).2) idx chunks
      hfuel hopen hfileok hread hne hsize hlt
    have hres : extractEntry fuel env za it.entry it.rootNode D pp dnd (p1.poll env).2
        = some (true, Q) := by
      rw [hstepeq, heq, hQ1]
    exact ⟨Q, hres, hQ2, hnext Q hres⟩
  · intro ha
    subst ha
    obtain ⟨hsa, hoa⟩ := u5 hm
    have heq := from_skipAll fuel env za it.entry D d st (p1.poll env).2 hfile hmk hst hoa hsa hex
    have hres : extractEntry fuel env za it.entry it.rootNode D pp dnd (p1.poll env).2
        = some (true, extractEntry_mkpath d (p1.poll env).2) := by
      rw [hstepeq, heq]
    refine ⟨extractEntry_mkpath d (p1.poll env).2, hres, ?_, ?_, hnext _ hres⟩
    · exact mkpath_files _ _
    · intro f; simp [extractEntry_mkpath, Event.writesTo]

/-- Extracting all of `sampleZip` to `/out`, where `a.txt` and `d/b.txt`
exist, the answer to the query for `a.txt` being OverwriteAll and the store
delivering one byte at a read: the third entry `d/b.txt`, on disk with the
content 6, is written over with the bytes 1, 2 and the run goes on with
`z.txt`. -/
theorem extractFiles_overwriteAll_skipAll_witness :
    ∃ p2, extractEntry 5 sampleChunkEnv sampleZip "d/b.txt".toList [] "/out".toList true false
        (sampleOverwriteMid.poll sampleChunkEnv).2 = some (true, p2) ∧
      p2.fs.files.lookup "/out/d/b.txt".toList = some [1, 2] ∧
      extractFiles 5 sampleChunkEnv [] "/out".toList true false sampleOverwriteStart =
        extractLoop 5 sampleChunkEnv sampleZip "/out".toList true false 4
          [⟨"z.txt".toList, [], "z.txt".toList⟩] 3
          ((p2.emit (.progress ⟨3, 4⟩)).emit (.progress_filename "d/b.txt".toList)) :=
  (extractFiles_overwriteAll_skipAll 5 sampleChunkEnv [] "/out".toList true false
    sampleOverwriteStart sampleZip
    [⟨"a.txt".toList, [], "a.txt".toList⟩, ⟨"d/".toList, [], "d/".toList⟩]
    ⟨"d/b.txt".toList, [], "d/b.txt".toList⟩ [⟨"z.txt".toList, [], "z.txt".toList⟩]
    sampleOverwriteMid .overwriteAll
    rfl (by decide) (fun _ _ => rfl) (by decide) (Or.inl rfl)
    ⟨[.overwriteAll], rfl, by simp⟩).2.2.2 "/out/d/b.txt".toList
    { valid := 255, name := "d/b.txt".toList, size := 2, crc := 3066839698 }
    (by decide) (by decide) (by decide) rfl
    (by decide) |>.1 rfl 2 [[1], [2]] (by decide) (by decide) rfl
    (by
      intro j c h
      match j with
      | 0 => simp at h; subst h; exact ⟨rfl, rfl⟩
      | 1 => simp at h; subst h; exact ⟨rfl, rfl⟩
      | j + 2 => simp at h)
    (by decide) (by decide) (by decide)


/-- C6: `extractEntry` has computed the destination `d` for the file entry
`e` and made its directory, neither OverwriteAll nor SkipAll is in force, and
the user answers Rename with `newName` after the answers `earlier`, each of
which has made the loop over existing destination files ask again (a Rename
to a name that exists, or an answer of no known kind); `c` is the file the
query is about and `nd` the new destination
`path c + separator + fileName newName`. Then `nd` has the directory of `c`,
which is that of `d`, and as final segment the final segment of `newName`,
which holds no separator; in any state of the loop a Rename answer makes it go
on with that new destination; and when `nd` does not exist, the call is the
file extraction onto `nd`; whatever it returns, no path that existed, `c`
among them, has been opened for writing or written to, and all keep their
content; and when the store opens the entry, `nd` opens for writing and the
reads deliver the declared size in non-empty chunks that are written
completely, the call returns true and `nd` holds exactly the bytes read. -/
theorem extractEntry_rename (fuel : Nat) (env : Env) (za : Zip) (e r D : QString)
    (pp rr : Bool) (d : QString) (st : ZipStat) (p : Plugin)
    (earlier : List OverwriteReply) (newName : QString) (rest : List OverwriteReply)
    (c nd : QString)
    (hdest : extractEntry_destination e r D pp rr = some d)
    (hfile : endsWithSeparator e = false)
    (hmk : env.mkpath_ok (QFileInfo.path d) = true) (hst : zip_stat za e = some st)
    (hoa : p.m_overwriteAll = false) (hsa : p.m_skipAll = false)
    (hreplies : p.overwriteReplies = earlier ++ .rename newName :: rest)
    (hearlier : ∀ a ∈ earlier, a = .other ∨ ∃ n, a = .rename n)
    (htrail : ∀ k, k ≤ earlier.length →
      (extractEntry_mkpath d p).fs.pathExists (extractEntry_renamed d (earlier.take k)) = true)
    (hc : c = extractEntry_renamed d earlier)
    (hnd : nd = QFileInfo.path c ++ [separator] ++ QFileInfo.fileName newName) :
    (QFileInfo.path nd = QFileInfo.path c ∧ QFileInfo.path c = QFileInfo.path d ∧
      QFileInfo.fileName nd = QFileInfo.fileName newName ∧
      separator ∉ QFileInfo.fileName newName) ∧
    (∀ (x ren : QString) (answers : List OverwriteReply) (P : Plugin),
      P.m_overwriteAll = false → P.m_skipAll = false → P.fs.pathExists x = true →
      extractEntry_overwrite e (.rename newName :: answers) x ren P =
        extractEntry_overwrite e answers
          (QFileInfo.path x ++ [separator] ++ QFileInfo.fileName newName)
          (QFileInfo.path e ++ [separator] ++ QFileInfo.fileName newName)
          { P.emit (.userQuery (.overwrite ren)) with overwriteReplies := answers }) ∧
    ((extractEntry_mkpath d p).fs.pathExists nd = false →
      (∃ P, extractEntry fuel env za e r D pp rr p =
          extractEntry_file fuel env za e nd (QFileInfo.path d)
            (QFileInfo.path d ++ [separator] != destDirCorrected D) st
            (env.lastModified (QFileInfo.path d)) P ∧
        P.fs = (extractEntry_mkpath d p).fs ∧ P.overwriteReplies = rest ∧
        (∀ f, writeCount f P.log = writeCount f p.log) ∧
        overwriteQueryCount P.log = overwriteQueryCount p.log + earlier.length + 1) ∧
      (∀ (b : Bool) (p' : Plugin), extractEntry fuel env za e r D pp rr p = some (b, p') →
        ∀ f, (extractEntry_mkpath d p).fs.pathExists f = true →
          writeCount f p'.log = writeCount f p.log ∧
          p'.fs.files.lookup f = p.fs.files.lookup f) ∧
      (∀ (idx : Nat) (chunks : List (List Nat)),
        chunks.length ≤ fuel →
        zip_fopen env za e p.m_password = (.ok, idx) →
        env.open_ok nd = true →
        (∀ j x, chunks[j]? = some x →
          env.zip_fread idx j 1000 = .bytes x ∧ env.writeRawData nd x = x.length) →
        (∀ x ∈ chunks, x ≠ []) →
        chunks.flatten.length = st.size → st.size < 18446744073709551616 →
        ∃ p', extractEntry fuel env za e r D pp rr p = some (true, p') ∧
          p'.fs.files.lookup nd = some chunks.flatten ∧
          p'.fs.files.lookup c = p.fs.files.lookup c)) := by
  have hsep : separator ∉ QFileInfo.fileName newName := (fileName_spec newName).1
  have hpc : QFileInfo.path c = QFileInfo.path d := by rw [hc]; exact path_renamed earlier d
  have hcex : (extractEntry_mkpath d p).fs.pathExists c = true := by
    have := htrail earlier.length (le_refl _)
    rw [List.take_length] at this
    rw [hc]; exact this
  refine ⟨⟨?_, hpc, ?_, hsep⟩, ?_, ?_⟩
  · rw [hnd]; exact path_rename c _ hsep
  · rw [hnd, List.append_assoc, List.singleton_append]
    exact fileName_append _ _ hsep
  · intro x ren answers P h1 h2 h3
    exact overwrite_rename e newName answers x ren P h1 h2 h3
  · intro hnew
    obtain ⟨ren', P', t1, t2, t3, t4, t5, t6, t7, t8⟩ := overwrite_trail e
      (.rename newName :: rest) earlier d e (extractEntry_mkpath d p) hoa hsa hearlier htrail
    have hcex' : P'.fs.pathExists c = true := by rw [t2]; exact hcex
    have hnew' : ({ P'.emit (.userQuery (.overwrite ren')) with
        overwriteReplies := rest } : Plugin).fs.pathExists nd = false := by
      show P'.fs.pathExists nd = false
      rw [t2]; exact hnew
    have hloop : extractEntry_overwrite e (earlier ++ .rename newName :: rest) d e
        (extractEntry_mkpath d p) = some (.go nd
          { P'.emit (.userQuery (.overwrite ren')) with overwriteReplies := rest }) := by
      rw [t1, ← hc, overwrite_rename e newName rest c ren' P' t3 t4 hcex', ← hnd]
      exact overwrite_free e rest nd _ _ hnew'
    have heq : extractEntry fuel env za e r D pp rr p =
        extractEntry_file fuel env za e nd (QFileInfo.path d)
          (QFileInfo.path d ++ [separator] != destDirCorrected D) st
          (env.lastModified (QFileInfo.path d))
          { P'.emit (.userQuery (.overwrite ren')) with overwriteReplies := rest } := by
      unfold extractEntry
      simp only [hdest]
      unfold extractEntry_from
      simp only [hfile, hmk, hst, Bool.not_true, Bool.false_eq_true, if_false, Bool.not_false,
        if_true]
      have hr : (extractEntry_mkpath d p).overwriteReplies
          = earlier ++ .rename newName :: rest := hreplies
      rw [hr, hloop]
    have hwc : ∀ f, writeCount f ({ P'.emit (.userQuery (.overwrite ren')) with
        overwriteReplies := rest } : Plugin).log = writeCount f p.log := by
      intro f
      show writeCount f (P'.log ++ [Event.userQuery (.overwrite ren')]) = _
      rw [writeCount_append, t7 f]
      simp [extractEntry_mkpath, Event.writesTo]
    have huntouched : ∀ (b : Bool) (p' : Plugin),
        extractEntry fuel env za e r D pp rr p = some (b, p') →
        ∀ f, (extractEntry_mkpath d p).fs.pathExists f = true →
          writeCount f p'.log = writeCount f p.log ∧
          p'.fs.files.lookup f = p.fs.files.lookup f := by
      intro b p' h f hf
      have hne : f ≠ nd := by
        intro hfn
        rw [hfn, hnew] at hf
        exact absurd hf (by simp)
      rw [heq] at h
      obtain ⟨_, _, _, _, _, _, _, _, _, f9, _⟩ := file_frame _ _ _ _ _ _ _ _ _ _ _ _ h
      obtain ⟨g1, g2⟩ := f9 f hne
      constructor
      · rw [g1]; exact hwc f
      · rw [g2]
        show P'.fs.files.lookup f = p.fs.files.lookup f
        rw [t2]
        show (p.fs.mkpath (QFileInfo.path d)).files.lookup f = p.fs.files.lookup f
        rw [mkpath_files]
    refine ⟨⟨_, heq, t2, rfl, hwc, ?_⟩, huntouched, ?_⟩
    · show overwriteQueryCount (P'.log ++ [Event.userQuery (.overwrite ren')]) = _
      rw [overwriteQueryCount_append, t8]
      simp [extractEntry_mkpath, Event.isOverwriteQuery]
    · intro idx chunks hfuel hopen hfileok hread hne hsize hlt
      obtain ⟨Q, hQ1, hQ2⟩ := file_chunks fuel env za e nd (QFileInfo.path d)
        (QFileInfo.path d ++ [separator] != destDirCorrected D) st
        (env.lastModified (QFileInfo.path d))
        { P'.emit (.userQuery (.overwrite ren')) with overwriteReplies := rest } idx chunks
        hfuel (by
          show zip_fopen env za e P'.m_password = _
          rw [t5]; exact hopen) hfileok hread hne hsize hlt
      have hres : extractEntry fuel env za e r D pp rr p = some (true, Q) := by
        rw [heq, hQ1]
      exact ⟨Q, hres, hQ2, (huntouched true Q hres c hcex).2⟩

/-- The files `/out/a.txt` and `/out/b.txt` exist; the answer to the query for
`a.txt` is Rename to `b.txt`, the answer to the query that follows is Rename
to `x/y.txt`: the entry `a.txt`, delivered one byte at a read, is written to
`/out/y.txt`, and `/out/b.txt` keeps its content. -/
theorem extractEntry_rename_witness :
    ∃ p', extractEntry 5 sampleChunkEnv sampleZip "a.txt".toList [] "/out".toList true false
        sampleRenameStart = some (true, p') ∧
      p'.fs.files.lookup "/out/y.txt".toList = some [97, 98, 99] ∧
      p'.fs.files.lookup "/out/b.txt".toList
        = sampleRenameStart.fs.files.lookup "/out/b.txt".toList :=
  (extractEntry_rename 5 sampleChunkEnv sampleZip "a.txt".toList [] "/out".toList true false
    "/out/a.txt".toList
    { valid := 255, name := "a.txt".toList, size := 3, crc := 891568578,
      comp_method := ZIP_CM_DEFLATE }
    sampleRenameStart [.rename "b.txt".toList] "x/y.txt".toList []
    "/out/b.txt".toList "/out/y.txt".toList
    (by decide) (by decide) rfl (by decide) rfl rfl rfl
    (by intro a ha; simp at ha; exact Or.inr ⟨_, ha⟩)
    (by
      intro k hk
      match k, hk with
      | 0, _ => decide
      | 1, _ => decide
      | k + 2, h => simp at h)
    (by decide) (by decide)).2.2 (by decide) |>.2.2 0 [[97], [98], [99]]
    (by decide) (by decide) rfl
    (by
      intro j x h
      match j with
      | 0 => simp at h; subst h; exact ⟨rfl, rfl⟩
      | 1 => simp at h; subst h; exact ⟨rfl, rfl⟩
      | 2 => simp at h; subst h; exact ⟨rfl, rfl⟩
      | j + 3 => simp at h)
    (by decide) (by decide) (by decide)


/-- C7: with `D'` the destination directory `D` plus a trailing separator
when `D` does not end with one, `extractEntry` goes on with the destination
`D' + e` when paths are preserved and the rootless mode is off or the root
node `r` is empty; with `D' + t` when paths are preserved, the rootless mode
is on and `e = r + t` for a non-empty `r`; when paths are not preserved, a
directory entry makes it return true with the state untouched, and a file
entry makes it go on with `D' + t`, `t` being the final segment of `e`: `t`
holds no separator and `e` is `t` or ends with a separator followed by `t`. -/
theorem extractEntry_destination_rule (fuel : Nat) (env : Env) (za : Zip) (e r D : QString)
    (rm : Bool) (p : Plugin) :
    destDirCorrected D = (if D.getLast? = some '/' then D else D ++ ['/']) ∧
    (rm = false ∨ r = [] →
      extractEntry fuel env za e r D true rm p =
        extractEntry_from fuel env za e D (destDirCorrected D ++ e) p) ∧
    (rm = true → r ≠ [] → ∀ t, e = r ++ t →
      extractEntry fuel env za e r D true rm p =
        extractEntry_from fuel env za e D (destDirCorrected D ++ t) p) ∧
    (e.getLast? = some '/' → extractEntry fuel env za e r D false rm p = some (true, p)) ∧
    (e.getLast? ≠ some '/' →
      ∃ t, '/' ∉ t ∧ (e = t ∨ ∃ pre, e = pre ++ '/' :: t) ∧
        extractEntry fuel env za e r D false rm p =
          extractEntry_from fuel env za e D (destDirCorrected D ++ t) p) := by
  refine ⟨?_, ?_, ?_, ?_, ?_⟩
  · unfold destDirCorrected endsWithSeparator separator
    by_cases h : D.getLast? = some '/' <;> simp [h]
  · intro h
    unfold extractEntry extractEntry_destination
    rcases h with h | h
    · simp [h]
    · simp [h]
  · intro h1 h2 t ht
    unfold extractEntry extractEntry_destination
    subst ht
    simp [h1, h2, QString.remove0]
  · intro h
    unfold extractEntry extractEntry_destination endsWithSeparator separator
    simp [h]
  · intro h
    obtain ⟨h1, h2⟩ := fileName_spec e
    refine ⟨QFileInfo.fileName e, h1, h2, ?_⟩
    unfold extractEntry extractEntry_destination endsWithSeparator separator
    simp [h]

/-- The entry `a/b.txt` dragged out of its root node `a/` into `/out`. -/
theorem extractEntry_destination_rule_witness :
    extractEntry 5 sampleEnv sampleZip "a/b.txt".toList "a/".toList "/out".toList true true
        samplePlugin =
      extractEntry_from 5 sampleEnv sampleZip "a/b.txt".toList "/out".toList
        (destDirCorrected "/out".toList ++ "b.txt".toList) samplePlugin :=
  (extractEntry_destination_rule 5 sampleEnv sampleZip "a/b.txt".toList "a/".toList
    "/out".toList true samplePlugin).2.2.1 rfl (by decide) "b.txt".toList rfl


/-- The copy loop at the end of the data: when every further read returns 0
bytes, writing 0 bytes succeeds and `sum` differs from the declared size, the
loop never exits, whatever the fuel, and emits no error. -/
theorem copy_short_read_diverges (env : Env) (index : Nat) (d : QString) (size : Nat)
    (k : Nat) (heof : ∀ j, k ≤ j → env.zip_fread index j 1000 = .bytes [])
    (hw : env.writeRawData d [] = 0) (fuel : Nat) :
    ∀ (j sum : Nat) (p : Plugin), k ≤ j → sum < 18446744073709551616 → sum ≠ size →
      extractEntry_copy env index d size fuel j sum p = none := by
  induction fuel with
  | zero =>
    intro j sum p _ _ hne
    unfold extractEntry_copy
    simp [hne]
  | succ n ih =>
    intro j sum p hj hlt hne
    unfold extractEntry_copy
    simp only [hne, if_false, heof j hj, ReadResult.ret, ReadResult.data, hw, List.length_nil]
    have hmod : (sum + (0 : Int).toNat) % 18446744073709551616 = sum := by
      simp [Nat.mod_eq_of_lt hlt]
    simp only [Int.Nat.cast_ofNat_Int, lt_self_iff_false, if_false, bne_self_eq_false,
      Bool.false_eq_true, hmod]
    exact ih (j + 1) sum _ (by omega) hlt hne

/-- C3 fails on the code. The entry `a.txt` declares 5 bytes; the store
delivers 3 bytes and then reports the end of the data. `extractEntry` never
returns, whatever the fuel: the copy loop goes on reading 0 bytes for ever,
no read-failure error is emitted and false is not returned. -/
theorem extractEntry_short_read_never_returns (fuel : Nat) :
    extractEntry fuel sampleShortEnv sampleShortZip "a.txt".toList [] "/out".toList true false
      { archiveFile := some sampleShortZip } = none := by
  have hcopy : ∀ p : Plugin,
      extractEntry_copy sampleShortEnv 0 "/out/a.txt".toList 5 fuel 0 0 p = none := by
    intro p
    cases fuel with
    | zero => rfl
    | succ n =>
      unfold extractEntry_copy
      have h1 : sampleShortEnv.zip_fread 0 0 1000 = .bytes [97, 98, 99] := rfl
      have h2 : sampleShortEnv.writeRawData "/out/a.txt".toList [97, 98, 99] = 3 := rfl
      simp only [h1, h2, ReadResult.ret, ReadResult.data]
      simp only [show ¬ ((0 : Nat) = 5) by decide, if_false]
      exact copy_short_read_diverges sampleShortEnv 0 "/out/a.txt".toList 5 1
        (fun j hj => by
          show (if j = 0 then ReadResult.bytes [97, 98, 99] else ReadResult.bytes []) = _
          rw [if_neg (by omega)])
        rfl n 1 3 _ (le_refl _) (by decide) (by decide)
  have hdest : extractEntry_destination "a.txt".toList [] "/out".toList true false
      = some "/out/a.txt".toList := by decide
  have hst : zip_stat sampleShortZip "a.txt".toList
      = some { valid := 255, name := "a.txt".toList, size := 5 } := by decide
  unfold extractEntry
  rw [hdest]
  simp only
  unfold extractEntry_from
  have hmk : sampleShortEnv.mkpath_ok (QFileInfo.path "/out/a.txt".toList) = true := rfl
  have hfile : endsWithSeparator "a.txt".toList = false := by decide
  simp only [hmk, hfile, hst, Bool.not_true, Bool.false_eq_true, if_false, Bool.not_false,
    if_true]
  have hov : extractEntry_overwrite "a.txt".toList
      (extractEntry_mkpath "/out/a.txt".toList { archiveFile := some sampleShortZip }).overwriteReplies
      "/out/a.txt".toList "a.txt".toList
      (extractEntry_mkpath "/out/a.txt".toList { archiveFile := some sampleShortZip })
      = some (.go "/out/a.txt".toList
          (extractEntry_mkpath "/out/a.txt".toList { archiveFile := some sampleShortZip })) := by
    rfl
  rw [hov]
  simp only
  unfold extractEntry_file
  have hpw : extractEntry_password sampleShortEnv sampleShortZip "a.txt".toList
      (extractEntry_mkpath "/out/a.txt".toList { archiveFile := some sampleShortZip }).passwordReplies
      true (extractEntry_mkpath "/out/a.txt".toList { archiveFile := some sampleShortZip })
      = some (.go 0
          (extractEntry_mkpath "/out/a.txt".toList { archiveFile := some sampleShortZip })) := by
    rfl
  rw [hpw]
  simp only
  unfold extractEntry_write
  have hopen : sampleShortEnv.open_ok "/out/a.txt".toList = true := rfl
  simp only [hopen, Bool.not_true, Bool.false_eq_true, if_false, hcopy]


@[simp] theorem testSuccessCount_append (l l' : List Event) :
    testSuccessCount (l ++ l') = testSuccessCount l + testSuccessCount l' := by
  simp [testSuccessCount, List.countP_append]

@[simp] theorem testSuccessCount_nil : testSuccessCount [] = 0 := rfl

@[simp] theorem testSuccessCount_cons (ev : Event) (l : List Event) :
    testSuccessCount (ev :: l) = testSuccessCount l + (if ev = Event.testSuccess then 1 else 0) := by
  simp [testSuccessCount, List.countP_cons]

theorem ret_ge (r : ReadResult) : -1 ≤ r.ret := by
  cases r with
  | error => simp [ReadResult.ret]
  | bytes c => simp [ReadResult.ret]; omega

/-- Away from the 32-bit limit the checks of `testArchive` on one entry are the
ones meant: all declared bytes were read and their CRC-32 is the stored one. -/
theorem testEntryOk_small (st : ZipStat) (r : ReadResult) (hsize : st.size < 4294967295)
    (hle : r.ret ≤ st.size) :
    testEntryOk st r = true ↔ (r.ret = st.size ∧ st.crc = crc32 0 r.data st.size) := by
  have hge := ret_ge r
  unfold testEntryOk toInt32 toUInt32
  simp only
  by_cases hneg : r.ret = -1
  · rw [hneg]
    have hm : ((-1 : Int) % 4294967296).toNat = 4294967295 := by decide
    simp only [hm]
    simp
  · have h0 : 0 ≤ r.ret := by omega
    have hmod : r.ret % 4294967296 = r.ret := Int.emod_eq_of_lt h0 (by omega)
    have htn : (r.ret.toNat : Int) = r.ret := Int.toNat_of_nonneg h0
    simp only [hmod, htn]
    by_cases hhalf : r.ret.toNat < 2147483648
    · simp only [hhalf, if_true, hmod]
      by_cases heq : r.ret = st.size
      · have : r.ret.toNat = st.size := by omega
        simp [hneg, this, heq]
      · have : r.ret.toNat ≠ st.size := by omega
        simp [hneg, this, heq]
    · simp only [hhalf, if_false]
      have hne : ¬ (r.ret - 4294967296 = -1) := by omega
      have hmod2 : (r.ret - 4294967296) % 4294967296 = r.ret := by
        rw [Int.sub_emod, Int.emod_self, Int.sub_zero, Int.emod_emod, hmod]
      rw [hmod2]
      by_cases heq : r.ret = st.size
      · have : r.ret.toNat = st.size := by omega
        have hne' : ¬ ((st.size : Int) - 4294967296 = -1) := by omega
        simp [hne, this, heq, hne']
      · have : r.ret.toNat ≠ st.size := by omega
        simp [hne, this, heq]

/-- The loop of `testArchive`: it ends well exactly when every iteration finds
no interruption and an entry that passes the checks; it never emits
`testSuccess`. -/
theorem testLoop_spec (env : Env) (za : Zip) (n : Int) (idxs : List Nat) :
    ∀ (p : Plugin),
    ((testLoop env za n idxs p).1 = true ↔
      ∀ j (hj : j < idxs.length), env.interruptionRequested (p.polls + j) = false ∧
        ∃ st, zip_stat_index za (idxs.get ⟨j, hj⟩) = some st ∧
          testEntryOk st (testRead env (idxs.get ⟨j, hj⟩) st.size) = true) ∧
    testSuccessCount (testLoop env za n idxs p).2.log = testSuccessCount p.log := by
  induction idxs with
  | nil => intro p; simp [testLoop]
  | cons i rest ih =>
    intro p
    unfold testLoop
    simp only [poll_fst]
    by_cases hstop : env.interruptionRequested p.polls = true
    · simp only [hstop, if_true]
      refine ⟨⟨fun h => by simp at h, fun h => ?_⟩, rfl⟩
      have := (h 0 (by simp)).1
      simp [hstop] at this
    · have hstop' : env.interruptionRequested p.polls = false := by simpa using hstop
      simp only [hstop', Bool.false_eq_true, if_false]
      cases hst : zip_stat_index za i with
      | none =>
        refine ⟨⟨fun h => by simp at h, fun h => ?_⟩, rfl⟩
        obtain ⟨_, st, h1, _⟩ := h 0 (by simp)
        simp [hst] at h1
      | some st =>
        simp only
        by_cases hok : testEntryOk st (testRead env i st.size) = true
        · simp only [hok, if_true]
          obtain ⟨ih1, ih2⟩ := ih (((p.poll env).2).emit (.progress ⟨i, n.toNat⟩))
          refine ⟨?_, by rw [ih2]; simp⟩
          rw [ih1]
          constructor
          · intro h j hj
            cases j with
            | zero => exact ⟨hstop', st, hst, hok⟩
            | succ k =>
              have := h k (by simpa using hj)
              simp only [emit_polls, poll_snd_polls] at this
              simpa [Nat.add_assoc, Nat.add_comm 1 k] using this
          · intro h j hj
            have := h (j + 1) (by simpa using hj)
            simp only [emit_polls, poll_snd_polls]
            simpa [Nat.add_assoc, Nat.add_comm 1 j] using this
        · simp only [hok]
          refine ⟨⟨fun h => by simp at h, fun h => ?_⟩, rfl⟩
          obtain ⟨_, st', h1, h2⟩ := h 0 (by simp)
          simp [hst] at h1
          subst h1
          exact absurd h2 hok

theorem toInt32_small (n : Nat) (h : n < 2147483648) : toInt32 (n : Int) = n := by
  unfold toInt32
  have hmod : (n : Int) % 4294967296 = n := Int.emod_eq_of_lt (by omega) (by omega)
  simp only [hmod, Int.toNat_ofNat, h, if_true]

/-- Away from the 32-bit limits C2 holds: for an archive with fewer than 2^31
entries, each declaring fewer than 2^32 - 1 bytes, and a store that never
delivers more than it is asked for, `testArchive` returns true and emits
`testSuccess` once exactly when the archive opens, no poll finds an
interruption and every entry has a stat, a read of all its declared bytes and
a matching CRC-32; when it returns false it emits no `testSuccess`. -/
theorem testArchive_small (env : Env) (p : Plugin)
    (hcount : ∀ za, p.archiveFile = some za → za.entries.length < 2147483648)
    (hsmall : ∀ za, p.archiveFile = some za → ∀ i st, zip_stat_index za i = some st →
      st.size < 4294967295)
    (hreads : ∀ i n, (env.zip_fread i 0 n).ret ≤ n) :
    (((testArchive env p).1 = true ∧
        testSuccessCount (testArchive env p).2.log = testSuccessCount p.log + 1) ↔
      ∃ za, p.archiveFile = some za ∧ env.zip_checkcons = true ∧
        ∀ i, i < za.entries.length →
          env.interruptionRequested (p.polls + i) = false ∧
          ∃ st, zip_stat_index za i = some st ∧
            (testRead env i st.size).ret = st.size ∧
            st.crc = crc32 0 (testRead env i st.size).data st.size) ∧
    ((testArchive env p).1 = false →
      testSuccessCount (testArchive env p).2.log = testSuccessCount p.log) := by
  have hread : ∀ i n, (testRead env i n).ret ≤ n := by
    intro i n
    unfold testRead
    split
    · exact hreads i n
    · simp [ReadResult.ret]; omega
  unfold testArchive
  by_cases hcc : env.zip_checkcons = true
  · cases hza : p.archiveFile with
    | none => simp [hcc]
    | some za =>
      have hn : toInt32 (zip_get_num_entries za) = (za.entries.length : Int) :=
        toInt32_small _ (hcount za hza)
      simp only [hcc, if_true, hn, Int.toNat_ofNat]
      obtain ⟨l1, l2⟩ := testLoop_spec env za (za.entries.length : Int)
        (List.range za.entries.length) p
      have key : (testLoop env za (za.entries.length : Int) (List.range za.entries.length) p).1
          = true ↔ ∀ i, i < za.entries.length →
          env.interruptionRequested (p.polls + i) = false ∧
          ∃ st, zip_stat_index za i = some st ∧
            (testRead env i st.size).ret = st.size ∧
            st.crc = crc32 0 (testRead env i st.size).data st.size := by
        rw [l1]
        constructor
        · intro h i hi
          obtain ⟨h1, st, h2, h3⟩ := h i (by simpa using hi)
          simp only [List.get_eq_getElem, List.getElem_range] at h2 h3
          exact ⟨h1, st, h2,
            (testEntryOk_small st _ (hsmall za hza i st h2) (hread i st.size)).mp h3⟩
        · intro h j hj
          have hj' : j < za.entries.length := by simpa using hj
          obtain ⟨h1, st, h2, h3⟩ := h j hj'
          simp only [List.get_eq_getElem, List.getElem_range]
          exact ⟨h1, st, h2,
            (testEntryOk_small st _ (hsmall za hza j st h2) (hread j st.size)).mpr h3⟩
      cases hres : testLoop env za (za.entries.length : Int) (List.range za.entries.length) p with
      | mk c q =>
        rw [hres] at key l2
        simp only at key l2
        cases c with
        | false =>
          refine ⟨⟨fun h => absurd h.1 (by simp), ?_⟩, fun _ => l2⟩
          rintro ⟨za', hza', _, hall⟩
          simp only [Option.some.injEq] at hza'
          subst hza'
          exact absurd (key.mpr hall) (by simp)
        | true =>
          refine ⟨⟨fun _ => ⟨za, rfl, trivial, key.mp rfl⟩, fun _ => ?_⟩, ?_⟩
          · simp [l2]
          · simp
  · have hcc' : env.zip_checkcons = false := by simpa using hcc
    simp only [hcc', Bool.false_eq_true, if_false]
    refine ⟨⟨fun h => absurd h.1 (by simp), ?_⟩, fun _ => trivial⟩
    rintro ⟨_, _, h, _⟩
    exact absurd h (by simp)

/-- C2 fails on the code for entries of 4 GiB and more. The only entry
declares 2^32 bytes and the store reads all 2^32 bytes of it, whatever they are
and whatever checksum is stored, the right one included: the archive opens, no
interruption is requested, the stat succeeds and the number of bytes read is
the declared size. `testArchive` stores that number in an `int`, finds 0,
returns false and emits no `testSuccess`. -/
theorem testArchive_large_entry_fails (crc : Nat) (chunk : List Nat)
    (h : chunk.length = 4294967296) :
    (testRead (sampleBigEnv chunk) 0 4294967296).ret = 4294967296 ∧
    testArchive (sampleBigEnv chunk) { archiveFile := some (sampleBigZip crc) }
      = (false, { archiveFile := some (sampleBigZip crc), polls := 1 }) ∧
    testSuccessCount
      (testArchive (sampleBigEnv chunk) { archiveFile := some (sampleBigZip crc) }).2.log
      = 0 := by
  have hread : testRead (sampleBigEnv chunk) 0 4294967296 = .bytes chunk := rfl
  have hret : (testRead (sampleBigEnv chunk) 0 4294967296).ret = 4294967296 := by
    rw [hread]; simp [ReadResult.ret, h]
  have hbad : testEntryOk
      { valid := 255, name := "big".toList, size := 4294967296, crc := crc }
      (testRead (sampleBigEnv chunk) 0 4294967296) = false := by
    unfold testEntryOk
    have h1 : toInt32 4294967296 = 0 := by decide
    have h2 : toUInt32 0 = 0 := by decide
    simp only [hret, h1, h2]
    simp
  have hres : testArchive (sampleBigEnv chunk) { archiveFile := some (sampleBigZip crc) }
      = (false, { archiveFile := some (sampleBigZip crc), polls := 1 }) := by
    unfold testArchive
    have hcc : (sampleBigEnv chunk).zip_checkcons = true := rfl
    have hn : toInt32 (zip_get_num_entries (sampleBigZip crc)) = 1 := by
      show toInt32 ((1 : Nat) : Int) = 1
      decide
    simp only [hcc, if_true, hn]
    have hrange : List.range (1 : Int).toNat = [0] := by decide
    rw [hrange]
    unfold testLoop
    have hpoll : (sampleBigEnv chunk).interruptionRequested 0 = false := rfl
    have hst : zip_stat_index (sampleBigZip crc) 0
        = some { valid := 255, name := "big".toList, size := 4294967296, crc := crc } := rfl
    simp only [Plugin.poll, hpoll, Bool.false_eq_true, if_false, hst, hbad]
  refine ⟨hret, hres, ?_⟩
  rw [hres]
  rfl

/-- An entry of 2^32 zero bytes. -/
theorem testArchive_large_entry_fails_witness :
    (testArchive (sampleBigEnv (List.replicate 4294967296 0))
      { archiveFile := some (sampleBigZip 0) }).1 = false :=
  congrArg Prod.fst (testArchive_large_entry_fails 0 (List.replicate 4294967296 0)
    (List.length_replicate _ _)).2.1


@[simp] theorem removedPaths_append (l l' : List Event) :
    removedPaths (l ++ l') = removedPaths l ++ removedPaths l' := by
  simp [removedPaths, List.filterMap_append]

/-- The slot `writeEntry` has written when it returns true carries the
compression method `writeEntry` has chosen. -/
theorem writeEntry_comp_method (env : Env) (za : Zip) (file : QString)
    (destination : Option Entry) (options : CompressionOptions) (isDir : Bool) (p : Plugin)
    (index : Nat) (za1 : Zip)
    (hadd : writeEntry_add env za (writeEntry_destFile file destination) isDir
      = some (index, za1))
    (hret : (writeEntry env za file destination options isDir p).1 = true) :
    ∃ slot, (writeEntry env za file destination options isDir p).2.1.entries[index]? = some slot ∧
      slot.stat.comp_method = writeEntry_compMethod options := by
  obtain ⟨slot0, h0, _⟩ := writeEntry_add_slot env za _ isDir index za1 hadd
  have h2 : ∃ s, (writeEntry_encryption (writeEntry_permissions env za1 index file) index
      options p.m_password).entries[index]? = some s := by
    rw [writeEntry_encryption_get]
    unfold writeEntry_permissions
    cases env.st_mode file with
    | none => simp [h0]
    | some m => simp [zip_file_set_external_attributes, update_entries_get, h0]
  obtain ⟨s, hs⟩ := h2
  unfold writeEntry at hret ⊢
  simp only [hadd] at hret ⊢
  unfold zip_set_file_compression at hret ⊢
  by_cases hc : env.zip_compression_ok (writeEntry_compMethod options) = true
  · simp only [hc, if_true, update_entries_get, hs, Option.map_some']
    exact ⟨_, rfl, rfl⟩
  · simp [hc] at hret

/-- The `method` property of the record built from a stat buffer. -/
theorem statEntry_method (st : ZipStat) :
    (statEntry st).method =
      if hasBits st.valid ZIP_STAT_COMP_METHOD then compressionMethodName st.comp_method
      else none := by
  unfold statEntry
  lift_lets
  extract_lets e0 e1 e2 e3 e4 e5 e6 e7 e8
  have h0 : e0.method = none := rfl
  have h1 : e1.method = none := by simp only [e1]; split_ifs <;> simp [h0]
  have h2 : e2.method = none := by simp only [e2]; split_ifs <;> simp [h1]
  have h3 : e3.method = none := by simp only [e3]; split_ifs <;> simp [h2]
  have h4 : e4.method = none := by simp only [e4]; split_ifs <;> simp [h3]
  have h5 : e5.method = none := by simp only [e5]; split_ifs <;> simp [h4]
  have h6 : e6.method = none := by simp only [e6]; split_ifs <;> simp [h5]
  have h8 : e8.method = e7.method := by simp only [e8]; split_ifs <;> rfl
  rw [h8]
  simp only [e7]
  split_ifs <;> simp [h6]

/-- The three method names `writeEntry` knows and the codes it picks for them
are rendered back as the same names by the listing. -/
theorem compressionMethodName_roundtrip (name : QString) (code : Int)
    (h : (name, code) ∈ [("Store".toList, ZIP_CM_STORE), ("Deflate".toList, ZIP_CM_DEFLATE),
      ("BZip2".toList, ZIP_CM_BZIP2)]) :
    (∀ options : CompressionOptions, options.compressionMethod = name →
      writeEntry_compMethod options = code) ∧
    compressionMethodName code = some name := by
  simp only [List.mem_cons, Prod.mk.injEq, List.mem_singleton, List.not_mem_nil, or_false] at h
  rcases h with ⟨h1, h2⟩ | ⟨h1, h2⟩ | ⟨h1, h2⟩ <;> subst h1 <;> subst h2
  · exact ⟨fun o ho => by unfold writeEntry_compMethod; rw [ho]; decide, by decide⟩
  · exact ⟨fun o ho => by unfold writeEntry_compMethod; rw [ho]; decide, by decide⟩
  · exact ⟨fun o ho => by unfold writeEntry_compMethod; rw [ho]; decide, by decide⟩

/-- C13: the requested method is `name`, one of Store, Deflate, BZip2, with
the code `code` of `zip.h`, and `writeEntry` returns true. Then the slot it has
written carries `code` as compression method; and for every live slot of a
listed archive whose stat reports the compression method `code`,
`emitEntryForIndex` succeeds, announces `compressionMethodFound(name)` and
emits an entry whose `method` property is `name`. -/
theorem writeEntry_method_roundtrip (env : Env) (za : Zip) (file : QString)
    (destination : Option Entry) (options : CompressionOptions) (isDir : Bool) (p : Plugin)
    (index : Nat) (za1 : Zip) (name : QString) (code : Int)
    (hname : (name, code) ∈ [("Store".toList, ZIP_CM_STORE), ("Deflate".toList, ZIP_CM_DEFLATE),
      ("BZip2".toList, ZIP_CM_BZIP2)])
    (hopt : options.compressionMethod = name)
    (hadd : writeEntry_add env za (writeEntry_destFile file destination) isDir
      = some (index, za1))
    (hret : (writeEntry env za file destination options isDir p).1 = true) :
    (∃ slot, (writeEntry env za file destination options isDir p).2.1.entries[index]? = some slot ∧
      slot.stat.comp_method = code) ∧
    ∀ (zb : Zip) (j : Nat) (q : Plugin) (s : ZipEntry),
      zb.entries[j]? = some s → s.deleted = false →
      hasBits s.stat.valid ZIP_STAT_COMP_METHOD = true → s.stat.comp_method = code →
      ∃ e, emitEntryForIndex zb j q =
          (true, { q with log := q.log ++ statHints s.stat ++ [Event.entry e] }) ∧
        e.method = some name ∧ Event.compressionMethodFound name ∈ statHints s.stat := by
  obtain ⟨hcode, hback⟩ := compressionMethodName_roundtrip name code hname
  obtain ⟨slot, hs, hm⟩ := writeEntry_comp_method env za file destination options isDir p
    index za1 hadd hret
  refine ⟨⟨slot, hs, by rw [hm, hcode options hopt]⟩, ?_⟩
  intro zb j q s hj hlive hvalid hc
  refine ⟨slotEntry s, emitEntryForIndex_live zb j q s hj hlive, ?_, ?_⟩
  · have hm : (slotEntry s).method = (statEntry s.stat).method := by
      unfold slotEntry withPermissions
      split_ifs <;> rfl
    rw [hm, statEntry_method, hvalid, hc, hback]
    rfl
  · unfold statHints
    simp [hvalid, hc, hback]

/-- The file "f" added to an empty archive with the method "Store": the
slot carries `ZIP_CM_STORE`, and a listed slot with that method is shown as
"Store". -/
theorem writeEntry_method_roundtrip_witness :
    (∃ slot, (writeEntry {} {} "f".toList none { compressionMethod := "Store".toList } false
        {}).2.1.entries[0]? = some slot ∧ slot.stat.comp_method = ZIP_CM_STORE) ∧
    ∃ e, emitEntryForIndex sampleZip 1 {} =
        (true, { ({} : Plugin) with
          log := ({} : Plugin).log ++ statHints { valid := 255, name := "d/".toList } ++
            [Event.entry e] }) ∧
      e.method = some "Store".toList ∧
      Event.compressionMethodFound "Store".toList ∈
        statHints { valid := 255, name := "d/".toList } := by
  have h := writeEntry_method_roundtrip {} {} "f".toList none
    { compressionMethod := "Store".toList } false {} 0
    { entries := [{ stat := { valid := ZIP_STAT_NAME, name := "f".toList } }] }
    "Store".toList ZIP_CM_STORE (by decide) rfl rfl (by decide)
  exact ⟨h.1, h.2 sampleZip 1 {}
    { stat := { valid := 255, name := "d/".toList }, opsys := ZIP_OPSYS_UNIX,
      attributes := 1106051072 } rfl rfl (by decide) rfl⟩

/-! ## C17: the permission string keeps the low twelve bits -/

/-- C17: two mode values whose low 12 bits differ are rendered differently
somewhere in the characters 1 to 9. -/
theorem permissionsToString_separates (m n : Nat) (h : m % 4096 ≠ n % 4096) :
    ∃ i, 1 ≤ i ∧ i ≤ 9 ∧ (permissionsToString m)[i]? ≠ (permissionsToString n)[i]? := by
  by_contra hno
  push_neg at hno
  have e1 := hno 1 (by omega) (by omega)
  have e2 := hno 2 (by omega) (by omega)
  have e3 := hno 3 (by omega) (by omega)
  have e4 := hno 4 (by omega) (by omega)
  have e5 := hno 5 (by omega) (by omega)
  have e6 := hno 6 (by omega) (by omega)
  have e7 := hno 7 (by omega) (by omega)
  have e8 := hno 8 (by omega) (by omega)
  have e9 := hno 9 (by omega) (by omega)
  rw [permissionsToString_chars m, permissionsToString_chars n] at e1 e2 e3 e4 e5 e6 e7 e8 e9
  simp only [List.getElem?_cons_succ, List.getElem?_cons_zero, Option.some.injEq]
    at e1 e2 e3 e4 e5 e6 e7 e8 e9
  have k1 : m.testBit 8 = n.testBit 8 := by
    revert e1; cases m.testBit 8 <;> cases n.testBit 8 <;> decide
  have k2 : m.testBit 7 = n.testBit 7 := by
    revert e2; cases m.testBit 7 <;> cases n.testBit 7 <;> decide
  have k3 : m.testBit 11 = n.testBit 11 ∧ m.testBit 6 = n.testBit 6 := by
    revert e3
    cases m.testBit 11 <;> cases m.testBit 6 <;> cases n.testBit 11 <;> cases n.testBit 6 <;>
      decide
  have k4 : m.testBit 5 = n.testBit 5 := by
    revert e4; cases m.testBit 5 <;> cases n.testBit 5 <;> decide
  have k5 : m.testBit 4 = n.testBit 4 := by
    revert e5; cases m.testBit 4 <;> cases n.testBit 4 <;> decide
  have k6 : m.testBit 10 = n.testBit 10 ∧ m.testBit 3 = n.testBit 3 := by
    revert e6
    cases m.testBit 10 <;> cases m.testBit 3 <;> cases n.testBit 10 <;> cases n.testBit 3 <;>
      decide
  have k7 : m.testBit 2 = n.testBit 2 := by
    revert e7; cases m.testBit 2 <;> cases n.testBit 2 <;> decide
  have k8 : m.testBit 1 = n.testBit 1 := by
    revert e8; cases m.testBit 1 <;> cases n.testBit 1 <;> decide
  have k9 : m.testBit 9 = n.testBit 9 ∧ m.testBit 0 = n.testBit 0 := by
    revert e9
    cases m.testBit 9 <;> cases m.testBit 0 <;> cases n.testBit 9 <;> cases n.testBit 0 <;>
      decide
  apply h
  apply Nat.eq_of_testBit_eq
  intro i
  rw [show (4096 : Nat) = 2 ^ 12 from rfl, Nat.testBit_mod_two_pow, Nat.testBit_mod_two_pow]
  by_cases hi : i < 12
  · interval_cases i <;> simp [k1, k2, k3.1, k3.2, k4, k5, k6.1, k6.2, k7, k8, k9.1, k9.2]
  · simp [hi]

/-- The modes 0644 and 0664 differ in the group write bit, and in character 5. -/
theorem permissionsToString_separates_witness :
    ∃ i, 1 ≤ i ∧ i ≤ 9 ∧
      (permissionsToString 0o100644)[i]? ≠ (permissionsToString 0o100664)[i]? :=
  permissionsToString_separates 0o100644 0o100664 (by decide)

/-! ## C16: the length `addComment` passes -/

/-- A text of characters below U+0080 has one byte and one code unit for each
character. -/
theorem ascii_lengths (s : QString) (h : ∀ c ∈ s, c.toNat < 128) :
    (toUtf8 s).length = s.length ∧ QString.length16 s = s.length := by
  induction s with
  | nil => exact ⟨rfl, rfl⟩
  | cons c cs ih =>
    have hc : c.toNat < 128 := h c (List.mem_cons_self _ _)
    obtain ⟨i1, i2⟩ := ih (fun x hx => h x (List.mem_cons_of_mem _ hx))
    have e1 : utf8EncodeChar c = [c.toNat] := by
      unfold utf8EncodeChar
      simp [hc]
    have e2 : utf16Units c = 1 := by
      unfold utf16Units
      rw [if_pos (by omega)]
    unfold toUtf8 QString.length16 at *
    simp only [List.flatMap_cons, List.length_append, e1, List.length_singleton, i1,
      List.map_cons, List.sum_cons, e2, i2, List.length_cons, List.length_nil]
    constructor <;> omega

/-- What `addComment` stores: with the archive open, the comment accepted and
the commit succeeding, the archive comment is the UTF-8 encoding cut after as
many bytes as the text has UTF-16 code units (modulo 2^16). -/
theorem addComment_stores (env : Env) (comment : QString) (p : Plugin) (za : Zip)
    (hopen : p.archiveFile = some za) (hlive : (committed za).entries ≠ [])
    (hok : ∀ bytes, env.zip_set_archive_comment_ok bytes = true)
    (hclose : env.zip_close_ok = true) :
    (addComment env comment p).1 = true ∧
    (addComment env comment p).2.archiveFile =
      some { committed za with
        comment := (toUtf8 comment).take (QString.length16 comment % 65536) } := by
  unfold addComment zip_set_archive_comment zip_close
  simp only [hopen, hok, if_true, hclose]
  have hne : (committed { za with
      comment := (toUtf8 comment).take (QString.length16 comment % 65536) }).entries.isEmpty
        = false := by
    have : (committed { za with
        comment := (toUtf8 comment).take (QString.length16 comment % 65536) }).entries
          = (committed za).entries := rfl
    rw [this]
    cases h : (committed za).entries with
    | nil => exact absurd h hlive
    | cons _ _ => rfl
  simp only [hne]
  exact ⟨trivial, rfl⟩

/-- For a text of fewer than 2^16 characters, all below U+0080, the whole
encoding is stored. -/
theorem addComment_ascii (env : Env) (comment : QString) (p : Plugin) (za : Zip)
    (hopen : p.archiveFile = some za) (hlive : (committed za).entries ≠ [])
    (hok : ∀ bytes, env.zip_set_archive_comment_ok bytes = true)
    (hclose : env.zip_close_ok = true)
    (hascii : ∀ c ∈ comment, c.toNat < 128) (hlen : comment.length < 65536) :
    (addComment env comment p).2.archiveFile =
      some { committed za with comment := toUtf8 comment } := by
  obtain ⟨l1, l2⟩ := ascii_lengths comment hascii
  rw [(addComment_stores env comment p za hopen hlive hok hclose).2, l2,
    Nat.mod_eq_of_lt hlen, ← l1, List.take_length]

/-- C16 fails on the code. The comment "éa" has the UTF-8 encoding
0xC3 0xA9 0x61, three bytes; `addComment` passes `comment.length()`, which is
2, so the store gets the first two bytes only: the call returns true and the
archive comment is "é", the "a" is lost. -/
theorem addComment_cuts_multibyte_comment :
    toUtf8 "éa".toList = [195, 169, 97] ∧
    QString.length16 "éa".toList = 2 ∧
    addComment {} "éa".toList samplePlugin =
      (true, { samplePlugin with
        archiveFile := some { sampleZip with comment := [195, 169] } }) := by
  decide


/-! ## C11: failures and error notifications -/

/-- C11, as stated, fails: the only entry of the archive carries a wrong
stored checksum; `testArchive` returns false, for a reason that is neither a
cancellation nor an interruption, and has emitted no error. -/
theorem testArchive_fails_without_error :
    (testArchive sampleEnv sampleCorruptPlugin).1 = false ∧
    errorCount (testArchive sampleEnv sampleCorruptPlugin).2.log = 0 := by
  decide

/-- C11, amended: when `list`, `addFiles`, `deleteFiles` or `moveFiles`
returns false, exactly one error has been emitted during the call and it is
the last event of the call, so nothing was done for a later entry. The same
holds of `extractFiles` unless the user has cancelled, or the run has worked
through the entries `pre` without interruption and the stat of the file entry
`it` that follows has failed: then the call ends in the state the making of
the directory for `it` has left. It holds of `copyFiles` unless the run has
worked through the entries `pre` and `zip_source_zip` has given no source for
the entry `path` that follows, and of `addComment` unless the store has
refused the comment: then the plugin is as it was before the call. The call
`testArchive` never emits an error. -/
theorem failure_emits_one_error (fuel : Nat) (env : Env) (p : Plugin) :
    ((list env p).1 = false → failedWithError p (list env p).2) ∧
    (∀ files destination options, (addFiles env files destination options p).1 = false →
      failedWithError p (addFiles env files destination options p).2) ∧
    (∀ files, (deleteFiles env files p).1 = false →
      failedWithError p (deleteFiles env files p).2) ∧
    (∀ files D pp dnd q, extractFiles fuel env files D pp dnd p = some (false, q) →
      failedWithError p q ∨ endedByCancel p q ∨
        ∃ za pre it post p1 d, p.archiveFile = some za ∧
          extractItems za files = pre ++ it :: post ∧
          (∀ j, j ≤ pre.length → env.interruptionRequested (p.polls + j) = false) ∧
          extractLoop fuel env za D pp dnd (extractItems za files).length pre 0
            { p with m_overwriteAll := false, m_skipAll := false } = some (true, p1) ∧
          endsWithSeparator it.entry = false ∧ zip_stat za it.entry = none ∧
          extractEntry_destination it.entry it.rootNode D pp dnd = some d ∧
          env.mkpath_ok (QFileInfo.path d) = true ∧
          q = extractEntry_mkpath d (p1.poll env).2) ∧
    (∀ filePaths destPaths, (moveFiles env filePaths destPaths p).1 = false →
      failedWithError p (moveFiles env filePaths destPaths p).2) ∧
    (∀ filePaths destPaths, (copyFiles env filePaths destPaths p).1 = false →
      failedWithError p (copyFiles env filePaths destPaths p).2 ∨
        ((copyFiles env filePaths destPaths p).2 = p ∧
          ∃ za pre path post zb zc, p.archiveFile = some za ∧
            filePaths = pre ++ path :: post ∧
            copyFiles_loop env destPaths pre 0 za p = (some zb, p) ∧
            (if endsWithSeparator (destPaths.getD pre.length []) then
                (zip_dir_add zb (destPaths.getD pre.length [])).map (fun r => r.2)
              else some zb) = some zc ∧
            locateInt zc path ≠ -1 ∧
            zip_source_zip env zc (toUInt64 (locateInt zc path)) = none)) ∧
    (∀ comment, (addComment env comment p).1 = false →
      failedWithError p (addComment env comment p).2 ∨
        ((addComment env comment p).2 = p ∧
          ∃ za, p.archiveFile = some za ∧
            zip_set_archive_comment env za (toUtf8 comment) (QString.length16 comment)
              = none)) ∧
    errorCount (testArchive env p).2.log = errorCount p.log :=
  ⟨list_fail env p,
   fun files destination options => addFiles_fail env files destination options p,
   fun files => deleteFiles_fail env files p,
   fun files D pp dnd q => extractFiles_fail_at fuel env files D pp dnd p q,
   fun filePaths destPaths => moveFiles_fail env filePaths destPaths p,
   fun filePaths destPaths => copyFiles_fail_at env filePaths destPaths p,
   fun comment => addComment_fail_at env comment p,
   testArchive_errors env p⟩

/-- Deleting `a.txt` and then the entry `nope`, which the archive does not
hold: `deleteFiles` returns false, the log holds one error, at its end. -/
theorem failure_emits_one_error_witness :
    (deleteFiles sampleEnv [{ fullPath := "a.txt".toList }, { fullPath := "nope".toList }]
      samplePlugin).1 = false ∧
    failedWithError samplePlugin
      (deleteFiles sampleEnv [{ fullPath := "a.txt".toList }, { fullPath := "nope".toList }]
        samplePlugin).2 :=
  ⟨by decide,
   (failure_emits_one_error 0 sampleEnv samplePlugin).2.2.1
     [{ fullPath := "a.txt".toList }, { fullPath := "nope".toList }] (by decide)⟩


/-! ## C12: interruption -/

/-- C12, as stated, fails: the interruption is requested when `testArchive`
is about to check the first entry; it returns false. -/
theorem testArchive_interrupted_returns_false :
    testArchive { interruptionRequested := fun _ => true } samplePlugin
      = (false, { samplePlugin with polls := 1 }) := by
  decide

/-- C12, amended. The interruption is found requested when the loop is about
to work on the entry that follows a part `pre` of the batch, worked through
without failure and without interruption. Then `list`, `deleteFiles` (the
commit succeeding) and `extractFiles` return true in the state `pre` has led
to, one poll later, so nothing is done for that entry or a later one, and no
error has been emitted. `addFiles` has emitted nothing in its loop, stages
nothing for that entry or a later one, goes on with the commit of what `pre`
has staged and the listing, and returns true when the commit succeeds; when
the commit succeeds and leaves an archive with an entry in it, the whole call
has emitted no error. Its loop over the content of a directory stops as soon
as it finds the interruption requested. `testArchive` stops in that state as
well, with no error and no `testSuccess`, and returns false. -/
theorem interruption_stops_the_loop (fuel : Nat) (env : Env) (p : Plugin) :
    (∀ (za : Zip) (k : Nat), p.archiveFile = some za → k < za.entries.length →
      (∀ j, j < k → env.interruptionRequested (p.polls + j) = false) →
      env.interruptionRequested (p.polls + k) = true →
      list env p = (true,
        { ((listLoop env za za.entries.length (List.range k)
            { p with m_numberOfEntries := 0, m_comment := za.comment }).poll env).2 with
          m_listAfterAdd := false }) ∧
      errorCount (list env p).2.log = errorCount p.log) ∧
    (∀ (pre : List Entry) (e : Entry) (post : List Entry) (destination : Option Entry)
        (options : CompressionOptions) (za za1 : Zip) (i1 : Nat) (p1 : Plugin),
      zip_open_create env p = some za →
      addFiles_loop env destination options pre 0 za p = (some za1, i1, p1) →
      (∀ j, p.polls ≤ j → j < p1.polls → env.interruptionRequested j = false) →
      env.interruptionRequested p1.polls = true →
      addFiles env (pre ++ e :: post) destination options p
        = addFiles_finish env za1 i1 (p1.poll env).2 ∧
      p1.log = p.log ∧
      (addFiles env (pre ++ e :: post) destination options p).1 = env.zip_close_ok ∧
      (env.zip_close_ok = true → (committed za1).entries ≠ [] →
        errorCount (addFiles env (pre ++ e :: post) destination options p).2.log
          = errorCount p.log)) ∧
    (∀ (destination : Option Entry) (options : CompressionOptions) (paths : List QString)
        (i : Nat) (za : Zip) (q : Plugin),
      env.interruptionRequested q.polls = true →
      addFiles_dir env destination options paths i za q = (some za, i, (q.poll env).2)) ∧
    (∀ (pre : List Entry) (e : Entry) (post : List Entry) (za za1 : Zip) (p1 : Plugin),
      p.archiveFile = some za →
      deleteLoop env (pre ++ e :: post).length pre 0 za p = (some za1, p1) →
      (∀ j, j < pre.length → env.interruptionRequested (p.polls + j) = false) →
      env.interruptionRequested (p.polls + pre.length) = true →
      env.zip_close_ok = true →
      deleteFiles env (pre ++ e :: post) p = (true, (zip_close env za1 (p1.poll env).2).2) ∧
      (deleteFiles env (pre ++ e :: post) p).2.log = p1.log ∧
      errorCount p1.log = errorCount p.log) ∧
    (∀ (files : List Entry) (D : QString) (pp dnd : Bool) (za : Zip) (pre : List ExtractItem)
        (it : ExtractItem) (post : List ExtractItem) (p1 : Plugin),
      p.archiveFile = some za →
      extractItems za files = pre ++ it :: post →
      extractLoop fuel env za D pp dnd (pre ++ it :: post).length pre 0
        { p with m_overwriteAll := false, m_skipAll := false } = some (true, p1) →
      (∀ j, j < pre.length → env.interruptionRequested (p.polls + j) = false) →
      env.interruptionRequested (p.polls + pre.length) = true →
      extractFiles fuel env files D pp dnd p = some (true, (p1.poll env).2) ∧
      errorCount (p1.poll env).2.log = errorCount p.log) ∧
    (∀ (za : Zip) (k : Nat) (p1 : Plugin),
      p.archiveFile = some za → env.zip_checkcons = true →
      k < (toInt32 (zip_get_num_entries za)).toNat →
      testLoop env za (toInt32 (zip_get_num_entries za)) (List.range k) p = (true, p1) →
      (∀ j, j < k → env.interruptionRequested (p.polls + j) = false) →
      env.interruptionRequested (p.polls + k) = true →
      testArchive env p = (false, (p1.poll env).2) ∧
      errorCount (p1.poll env).2.log = errorCount p.log ∧
      testSuccessCount (p1.poll env).2.log = testSuccessCount p.log) := by
  refine ⟨?_, ?_, ?_, ?_, ?_, ?_⟩
  · intro za k h1 h2 h3 h4
    exact ⟨list_interrupted env p za k h1 h2 h3 h4, (list_errors env p za h1).2⟩
  · intro pre e post destination options za za1 i1 p1 h1 h2 h3 h4
    obtain ⟨a1, a2, a3⟩ :=
      addFiles_interrupted env pre e post destination options p za za1 i1 p1 h1 h2 h3 h4
    refine ⟨a1, a2, a3, ?_⟩
    intro hc hl
    rw [a1, (addFiles_finish_quiet env za1 i1 (p1.poll env).2 hc hl).2, poll_snd_log, a2]
  · intro destination options paths i za q h
    exact addFiles_dir_interrupted env destination options paths i za q h
  · intro pre e post za za1 p1 h1 h2 h3 h4 h5
    obtain ⟨a1, a2⟩ := deleteFiles_interrupted env pre e post p za za1 p1 h1 h2 h3 h4 h5
    exact ⟨a1, a2, (deleteLoop_frame env _ pre _ _ _ _ _ h2).1 (by simp)⟩
  · intro files D pp dnd za pre it post p1 h1 h2 h3 h4 h5
    refine ⟨extractFiles_interrupted fuel env files D pp dnd p za pre it post p1 h1 h2 h3 h4 h5,
      ?_⟩
    obtain ⟨_, _, _, g4, _⟩ := extractLoop_append fuel env za D pp dnd
      (pre ++ it :: post).length pre (it :: post) 0
      { p with m_overwriteAll := false, m_skipAll := false } p1 h4 h3
    rw [poll_snd_log, g4]
  · intro za k p1 h1 h2 h3 h4 h5 h6
    refine ⟨testArchive_interrupted env p za k p1 h1 h2 h3 h4 h5 h6, ?_, ?_⟩
    · have := testLoop_errors env za (toInt32 (zip_get_num_entries za)) (List.range k) p
      rw [h4] at this
      rw [poll_snd_log]; exact this
    · have := (testLoop_spec env za (toInt32 (zip_get_num_entries za)) (List.range k) p).2
      rw [h4] at this
      rw [poll_snd_log]; exact this

/-- Deleting `a.txt` and `z.txt` while the interruption is requested from the
second poll on: `a.txt` is removed, `z.txt` is not looked at, and the call
returns true. -/
theorem interruption_stops_the_loop_witness :
    (deleteFiles sampleInterruptEnv [{ fullPath := "a.txt".toList }, { fullPath := "z.txt".toList }]
      samplePlugin).1 = true ∧
    (deleteFiles sampleInterruptEnv [{ fullPath := "a.txt".toList }, { fullPath := "z.txt".toList }]
      samplePlugin).2.log = [.entryRemoved "a.txt".toList, .progress ⟨1, 2⟩] := by
  have h := (interruption_stops_the_loop 0 sampleInterruptEnv samplePlugin).2.2.2.1
    [{ fullPath := "a.txt".toList }] { fullPath := "z.txt".toList } [] sampleZip
    ((deleteLoop sampleInterruptEnv 2 [{ fullPath := "a.txt".toList }] 0 sampleZip
      samplePlugin).1.getD {})
    (deleteLoop sampleInterruptEnv 2 [{ fullPath := "a.txt".toList }] 0 sampleZip samplePlugin).2
    rfl (by decide) (by decide) (by decide) rfl
  exact ⟨congrArg Prod.fst h.1, h.2.1.trans (by decide)⟩

/-- The loop of `moveFiles` does not look at the interruption signal: with the
interruption requested from the start, both entries are moved all the same and
no poll is made. -/
theorem moveFiles_does_not_poll :
    (moveFiles { interruptionRequested := fun _ => true }
      ["a.txt".toList, "z.txt".toList] ["n/a.txt".toList, "n/z.txt".toList] samplePlugin).1
        = true ∧
    removedPaths (moveFiles { interruptionRequested := fun _ => true }
      ["a.txt".toList, "z.txt".toList] ["n/a.txt".toList, "n/z.txt".toList] samplePlugin).2.log
        = ["a.txt".toList, "z.txt".toList] ∧
    (moveFiles { interruptionRequested := fun _ => true }
      ["a.txt".toList, "z.txt".toList] ["n/a.txt".toList, "n/z.txt".toList] samplePlugin).2.polls
        = 0 := by
  decide

/-- An interruption found by `addFiles` before the first entry of a batch for
an archive that does not exist yet: nothing is staged, the commit leaves no
archive, and the listing that follows emits the error of a failed open while
`addFiles` returns true. -/
theorem addFiles_interrupted_on_new_archive :
    (addFiles { interruptionRequested := fun _ => true } [{ fullPath := "f".toList }] none {}
      {}).1 = true ∧
    (addFiles { interruptionRequested := fun _ => true } [{ fullPath := "f".toList }] none {}
      {}).2.log = [.error .openArchive] := by
  decide

/-! ## C14 and C15: the progress values of `addFiles` and of `moveFiles` -/

/-- C14 fails on the code. Three files are added to a new archive and the
store reports the progress values 0, 1/2 and 1 while it writes. `addFiles`
hands them on as they are, so the value 1, above 1/2, is emitted during the
writing; the listing that follows emits 1/3, 2/3 and 1, the first of them
below 1/2. -/
theorem addFiles_progress_not_halved :
    progressValues (addFiles sampleAddEnv sampleFiles none {} {}).2.log
      = sampleAddEnv.writeProgress ++ [⟨1, 3⟩, ⟨2, 3⟩, ⟨3, 3⟩] ∧
    (⟨1, 1⟩ : Fraction) ∈ sampleAddEnv.writeProgress ∧
    ¬ Fraction.le ⟨1, 1⟩ ⟨1, 2⟩ ∧
    ¬ Fraction.le ⟨1, 2⟩ ⟨1, 3⟩ := by
  decide

/-- C15 fails on the code. Two entries of `sampleZip` are moved, every step
succeeds and no interruption is requested: `moveFiles` returns true and the
two progress values it emits are both 0, the whole quotients 0 / 2 and 1 / 2.
They do not increase, and the last one is not 1. -/
theorem moveFiles_progress_stays_zero :
    (moveFiles sampleEnv ["a.txt".toList, "z.txt".toList]
      ["n/a.txt".toList, "n/z.txt".toList] samplePlugin).1 = true ∧
    progressValues (moveFiles sampleEnv ["a.txt".toList, "z.txt".toList]
      ["n/a.txt".toList, "n/z.txt".toList] samplePlugin).2.log = [⟨0, 1⟩, ⟨0, 1⟩] ∧
    ¬ Fraction.lt ⟨0, 1⟩ ⟨0, 1⟩ ∧
    ¬ Fraction.le ⟨1, 1⟩ ⟨0, 1⟩ := by
  decide


end LibzipPlugin
